import Mathlib

/-!
A verification development for the `ticket` repository (package `tk`).

The Go sources are embedded shallowly:

* text is modelled as `List Char` (`Str`), with `bufio.Scanner` line
  splitting, `strings.TrimSpace`, prefix tests and case folding transcribed
  for the ASCII subset the record format uses;
* `internal/domain/ticket.go` gives the record codec: `splitFrontmatter`,
  `Ticket.ParseMarkdownBody`, `parseNotes`, `Ticket.RenderMarkdownBody`,
  `Parse` and `Ticket.Render`;
* the YAML header handling, which the Go code delegates to `gopkg.in/yaml.v3`,
  is modelled for the plain-scalar subset the store itself writes;
* `internal/storage/storage.go` gives `AtomicClaim` (the read-check-write
  step performed under the exclusive file lock) and `List`;
* the dependency-graph functions `TopologicalSort`, `DetectCycles`,
  `checkCycle`, `findRootTickets` and the `dep add` command core come from
  the `cmd` package.
-/

/-- Text, modelled as a list of characters (Go strings are byte strings; the
record format is ASCII so characters are a faithful unit). -/
abbrev Str := List Char

/-- Convert a Lean string literal to the model representation. -/
def str (s : String) : Str := s.toList

/-- The newline character. -/
def nl : Char := '\n'

/-- Model of dropping a trailing carriage return, as `bufio.ScanLines` does. -/
def dropCR (s : Str) : Str :=
  match s.getLast? with
  | some '\r' => s.dropLast
  | _ => s

/-- Helper for `linesGo`: accumulates the current line. -/
def linesAux (cur : Str) : Str → List Str
  | [] => if cur.isEmpty then [] else [dropCR cur]
  | c :: rest =>
    if c = '\n' then dropCR cur :: linesAux [] rest
    else linesAux (cur ++ [c]) rest

/-- Model of reading all tokens from a `bufio.Scanner` with the default
`ScanLines` split: split at newlines, strip a trailing carriage return,
and produce no final empty token when the input ends with a newline. -/
def linesGo (s : Str) : List Str := linesAux [] s

/-- Model of `strings.TrimSpace` (ASCII whitespace). -/
def trimSpace (s : Str) : Str :=
  (s.dropWhile Char.isWhitespace).reverse.dropWhile Char.isWhitespace |>.reverse

/-- Model of `strings.ToLower` (ASCII). -/
def lowerStr (s : Str) : Str := s.map Char.toLower

/-- Join lines with a trailing newline after each. -/
def joinLinesNl (ls : List Str) : Str := (ls.map (· ++ [nl])).flatten

/-- A timestamped note on a ticket (`domain.Note`).  The Go field is a
`time.Time`; the model keeps the RFC 3339 text, which is what both the
renderer (`Format(time.RFC3339)`) and the parser (`time.Parse`) traffic in. -/
structure Note where
  timestamp : Str
  content : Str
  deriving DecidableEq, Repr, Inhabited

/-- A ticket (`domain.Ticket`).  `Status` and `Type` are Go string types and
are modelled as text; `Priority` is an `int`; `Created` keeps the timestamp
text (see `Note.Timestamp`). -/
structure Ticket where
  id : Str := []
  status : Str := []
  type : Str := []
  priority : Int := 0
  assignee : Str := []
  parent : Str := []
  externalRef : Str := []
  tags : List Str := []
  deps : List Str := []
  links : List Str := []
  created : Str := []
  title : Str := []
  description : Str := []
  design : Str := []
  acceptance : Str := []
  notes : List Note := []
  deriving DecidableEq, Repr, Inhabited

/-- `domain.StatusOpen`. -/
def StatusOpen : Str := str "open"

/-- `domain.StatusInProgress`. -/
def StatusInProgress : Str := str "in_progress"

/-- `domain.StatusClosed`. -/
def StatusClosed : Str := str "closed"

/-- Model of `time.Parse(time.RFC3339, s)` succeeding, for the shapes the
store writes: `YYYY-MM-DDTHH:MM:SS`, an optional fractional-second part, and
a zone of `Z` or `±HH:MM`.  Field ranges are checked coarsely (months 01-12,
days 01-31, hours 00-23, minutes/seconds 00-59); per-month day counts are
not re-modelled. -/
def isTimestamp (s : Str) : Bool :=
  match s with
  | y1 :: y2 :: y3 :: y4 :: '-' :: m1 :: m2 :: '-' :: d1 :: d2 :: 'T' ::
      h1 :: h2 :: ':' :: i1 :: i2 :: ':' :: s1 :: s2 :: rest =>
    [y1, y2, y3, y4, m1, m2, d1, d2, h1, h2, i1, i2, s1, s2].all Char.isDigit
      && tsRangeOk m1 m2 d1 d2 h1 h2 i1 i2 s1 s2
      && tsZoneOk (tsDropFrac rest)
  | _ => false
where
  /-- numeric value of a two-digit pair -/
  two (a b : Char) : Nat := (a.toNat - 48) * 10 + (b.toNat - 48)
  tsRangeOk (m1 m2 d1 d2 h1 h2 i1 i2 s1 s2 : Char) : Bool :=
    1 ≤ two m1 m2 && two m1 m2 ≤ 12 && 1 ≤ two d1 d2 && two d1 d2 ≤ 31
      && two h1 h2 ≤ 23 && two i1 i2 ≤ 59 && two s1 s2 ≤ 59
  tsDropFrac (rest : Str) : Str :=
    match rest with
    | '.' :: more =>
      let digits := more.takeWhile Char.isDigit
      if digits.isEmpty then rest else more.dropWhile Char.isDigit
    | _ => rest
  tsZoneOk (rest : Str) : Bool :=
    match rest with
    | ['Z'] => true
    | [sign, a, b, ':', c, d] =>
      (sign = '+' || sign = '-') && [a, b, c, d].all Char.isDigit
        && two a b ≤ 23 && two c d ≤ 59
    | _ => false

/-- The markdown body section currently being accumulated; Go uses the
strings `""`, `"title"`, `"description"`, `"design"`, `"acceptance"`,
`"notes"` for `currentSection`. -/
inductive Sect where
  | blank
  | title
  | description
  | design
  | acceptance
  | notes
  deriving DecidableEq, Repr

/-- State of `parseNotes`: accumulated notes, the current note's timestamp
(Go: `currentNote`), and the accumulated note content. -/
abbrev NotesState := List Note × Option Str × Str

/-- One line of `parseNotes` (`domain.parseNotes`).  On a `### ` heading the
pending note is flushed; a heading whose timestamp does not parse leaves
`currentNote` pointing at the previous (already flushed) note, exactly as
the Go code does. -/
def notesStep (st : NotesState) (line : Str) : NotesState :=
  let (acc, cur, buf) := st
  if (str "### ").isPrefixOf line then
    let acc' := match cur with
      | some ts => acc ++ [⟨ts, trimSpace buf⟩]
      | none => acc
    let buf' := match cur with
      | some _ => []
      | none => buf
    let tsStr := line.drop 4
    if isTimestamp tsStr then (acc', some tsStr, buf')
    else (acc', cur, buf')
  else
    match cur with
    | some _ => (acc, cur, buf ++ line ++ [nl])
    | none => (acc, cur, buf)

/-- `domain.parseNotes`. -/
def parseNotes (content : Str) : List Note :=
  let (acc, cur, buf) := (linesGo content).foldl notesStep ([], none, [])
  match cur with
  | some ts => acc ++ [⟨ts, trimSpace buf⟩]
  | none => acc

/-- The `flushSection` closure inside `Ticket.ParseMarkdownBody`: assigns the
trimmed accumulated text to the field selected by the current section. -/
def flushSection (t : Ticket) (cur : Sect) (buf : Str) : Ticket :=
  let text := trimSpace buf
  match cur with
  | .blank => t
  | .title => { t with title := text }
  | .description => { t with description := text }
  | .design => { t with design := text }
  | .acceptance => { t with acceptance := text }
  | .notes => { t with notes := parseNotes text }

/-- State of the `ParseMarkdownBody` scan: the ticket being populated, the
current section, and the accumulated section content. -/
abbrev BodyState := Ticket × Sect × Str

/-- One line of the `Ticket.ParseMarkdownBody` loop. -/
def bodyStep (st : BodyState) (line : Str) : BodyState :=
  let (t, cur, buf) := st
  if (str "# ").isPrefixOf line then
    let t' := flushSection t cur buf
    ({ t' with title := line.drop 2 }, .title, [])
  else if (str "## ").isPrefixOf line then
    let t' := flushSection t cur buf
    let header := lowerStr (line.drop 3)
    if header = str "design" then (t', .design, [])
    else if header = str "acceptance criteria" then (t', .acceptance, [])
    else if header = str "notes" then (t', .notes, [])
    else (t', .description, line ++ [nl])
  else
    let cur' := if cur = .title && !line.isEmpty then .description else cur
    (t, cur', buf ++ line ++ [nl])

/-- `Ticket.ParseMarkdownBody`: scan the body line by line and populate the
body fields. -/
def ParseMarkdownBody (t : Ticket) (content : Str) : Ticket :=
  let (t', cur, buf) := (linesGo content).foldl bodyStep (t, .blank, [])
  flushSection t' cur buf

/-- `Ticket.RenderMarkdownBody`. -/
def RenderMarkdownBody (t : Ticket) : Str :=
  (if t.title.isEmpty then [] else str "# " ++ t.title ++ str "\n\n")
    ++ (if t.description.isEmpty then [] else t.description ++ str "\n\n")
    ++ (if t.design.isEmpty then [] else str "## Design\n\n" ++ t.design ++ str "\n\n")
    ++ (if t.acceptance.isEmpty then [] else
          str "## Acceptance Criteria\n\n" ++ t.acceptance ++ str "\n\n")
    ++ (if t.notes.isEmpty then [] else
          str "## Notes\n\n"
            ++ (t.notes.map fun n => str "### " ++ n.timestamp ++ str "\n\n"
                  ++ n.content ++ str "\n\n").flatten)

/-- Decimal rendering of a natural number. -/
def natToStr (n : Nat) : Str :=
  if h : n < 10 then [Char.ofNat (48 + n)]
  else natToStr (n / 10) ++ [Char.ofNat (48 + n % 10)]
decreasing_by exact Nat.div_lt_self (Nat.lt_of_lt_of_le (by omega) (Nat.le_of_not_lt h)) (by omega)

/-- Decimal rendering of an integer. -/
def intToStr (n : Int) : Str :=
  if n < 0 then '-' :: natToStr n.natAbs else natToStr n.natAbs

/-- Decimal parsing of an integer (an optional sign followed by digits),
the shapes the YAML library accepts for an `int` field. -/
def parseIntStr (s : Str) : Option Int :=
  match s with
  | '-' :: ds => (parseDigits ds).map (fun n => -(n : Int))
  | ds => (parseDigits ds).map (fun n => (n : Int))
where
  parseDigits (ds : Str) : Option Nat :=
    if ds.isEmpty || !ds.all Char.isDigit then none
    else some (ds.foldl (fun acc c => acc * 10 + (c.toNat - 48)) 0)

/-- The frontmatter lines `yaml.Marshal` produces for a `domain.Ticket`
(library behaviour of `gopkg.in/yaml.v3` for this struct, for plain scalar
values): one `key: value` line per field in struct order, fields tagged
`omitempty` omitted when zero, and list fields emitted as block sequences
indented by four spaces.  `id`, `status` and `created` are always
emitted. -/
def yamlEmitLines (t : Ticket) : List Str :=
  ([str "id: " ++ t.id]
    ++ [str "status: " ++ t.status]
    ++ (if t.type.isEmpty then [] else [str "type: " ++ t.type])
    ++ (if t.priority = 0 then [] else [str "priority: " ++ intToStr t.priority])
    ++ (if t.assignee.isEmpty then [] else [str "assignee: " ++ t.assignee])
    ++ (if t.parent.isEmpty then [] else [str "parent: " ++ t.parent])
    ++ (if t.externalRef.isEmpty then [] else [str "external-ref: " ++ t.externalRef])
    ++ emitList "tags" t.tags
    ++ emitList "deps" t.deps
    ++ emitList "links" t.links
    ++ [str "created: " ++ t.created])
where
  emitList (k : String) (vs : List Str) : List Str :=
    if vs.isEmpty then []
    else (str k ++ [':']) :: vs.map (fun v => str "    - " ++ v)

/-- Model of `yaml.Marshal` on a `domain.Ticket`: the emitted lines, each
terminated by a newline. -/
def yamlEmit (t : Ticket) : Str := joinLinesNl (yamlEmitLines t)

/-- Field targets for YAML block/flow sequences. -/
inductive ListKey where
  | tags
  | deps
  | links
  deriving DecidableEq, Repr

/-- Store a parsed scalar into the ticket, returning `none` on values the
YAML library would reject for the field's Go type (a malformed `int` for
`priority`, a malformed timestamp for `created`).  Unknown keys are
ignored. -/
def yamlSetScalar (t : Ticket) (k v : Str) : Option Ticket :=
  if k = str "id" then some { t with id := v }
  else if k = str "status" then some { t with status := v }
  else if k = str "type" then some { t with type := v }
  else if k = str "priority" then
    (parseIntStr v).map (fun n => { t with priority := n })
  else if k = str "assignee" then some { t with assignee := v }
  else if k = str "parent" then some { t with parent := v }
  else if k = str "external-ref" then some { t with externalRef := v }
  else if k = str "created" then
    if v.isEmpty then some { t with created := [] }
    else if isTimestamp v then some { t with created := v }
    else none
  else some t

/-- Append a sequence item to the field a block sequence is targeting. -/
def yamlAddItem (t : Ticket) (k : ListKey) (v : Str) : Ticket :=
  match k with
  | .tags => { t with tags := t.tags ++ [v] }
  | .deps => { t with deps := t.deps ++ [v] }
  | .links => { t with links := t.links ++ [v] }

/-- Helper for `splitFlowItems`. -/
def splitFlowAux (cur : Str) : Str → List Str
  | [] => [cur]
  | ',' :: ' ' :: rest => cur :: splitFlowAux [] rest
  | c :: rest => splitFlowAux (cur ++ [c]) rest

/-- Split a YAML flow sequence body (`a, b, c`) at `, `. -/
def splitFlowItems (s : Str) : List Str :=
  if s.isEmpty then [] else splitFlowAux [] s

/-- Index of the first `':'` in a line. -/
def findColon : Str → Option Nat
  | [] => none
  | ':' :: _ => some 0
  | _ :: rest => (findColon rest).map (· + 1)

/-- Whether a scalar key is one of the known frontmatter keys that store
a list (`tags`, `deps`, `links`). -/
def listKeyOf (k : Str) : Option ListKey :=
  if k = str "tags" then some .tags
  else if k = str "deps" then some .deps
  else if k = str "links" then some .links
  else none

/-- Model of one line of `yaml.Unmarshal` into a `domain.Ticket`: block
sequence items feed the pending list field, `key: value` lines set scalar
fields (with flow sequences `[a, b]` accepted for the list fields), a bare
`key:` line opens a block sequence for a list field, unknown keys are
ignored, and shapes outside the mapping grammar fail the whole decode. -/
def yamlLine (st : Ticket × Option ListKey) (line : Str) : Option (Ticket × Option ListKey) :=
  let (t, ctx) := st
  if (trimSpace line).isEmpty then some (t, ctx)
  else if (str "#").isPrefixOf (trimSpace line) then some (t, ctx)
  else if (str "    - ").isPrefixOf line then
    match ctx with
    | some k => some (yamlAddItem t k (line.drop 6), ctx)
    | none => none
  else
    match findColon line with
    | none => none
    | some i =>
      let k := line.take i
      let rest := line.drop (i + 1)
      if rest.isEmpty then
        match listKeyOf k with
        | some lk => some (t, some lk)
        | none => (yamlSetScalar t k []).map (fun t' => (t', none))
      else if rest.headD ' ' = ' ' then
        let v := rest.drop 1
        match listKeyOf k with
        | some lk =>
          if v.headD ' ' = '[' ∧ v.getLastD ' ' = ']' then
            let items := splitFlowItems (v.drop 1 |>.dropLast)
            some ((items.foldl (fun acc it => yamlAddItem acc lk (trimSpace it)) t), none)
          else none
        | none => (yamlSetScalar t k v).map (fun t' => (t', none))
      else none

/-- Model of `yaml.Unmarshal(frontmatter, &ticket)`. -/
def yamlParse (fm : Str) : Option Ticket :=
  ((linesGo fm).foldlM yamlLine ({}, none)).map (·.1)

/-- Index of the first occurrence of `pat` in a string. -/
def findSub (pat : Str) : Str → Option Nat
  | [] => if pat.isPrefixOf [] then some 0 else none
  | c :: rest =>
    if pat.isPrefixOf (c :: rest) then some 0
    else (findSub pat rest).map (· + 1)

/-- `domain.splitFrontmatter`: require the opening `---` line, then split at
the first `\n---\n`. -/
def splitFrontmatter (data : Str) : Option (Str × Str) :=
  if (str "---\n").isPrefixOf data then
    let content := data.drop 4
    match findSub (str "\n---\n") content with
    | none => none
    | some idx => some (content.take idx, content.drop (idx + 5))
  else none

/-- `domain.Parse`: split the frontmatter, decode it, then parse the body. -/
def Parse (data : Str) : Option Ticket :=
  match splitFrontmatter data with
  | none => none
  | some (fm, body) =>
    match yamlParse fm with
    | none => none
    | some t => some (ParseMarkdownBody t body)

/-- `domain.Ticket.Render`. -/
def Render (t : Ticket) : Str :=
  str "---\n" ++ yamlEmit t ++ str "---\n" ++ RenderMarkdownBody t

/-- Outcome of one `Storage.AtomicClaim` invocation. -/
inductive ClaimResult where
  | claimed (t : Ticket)
  | alreadyClaimed (status : Str)
  | parseFailed
  deriving DecidableEq, Repr

/-- `Storage.AtomicClaim`, as the read-check-write step executed under the
exclusive file lock: decode the current file contents; fail (leaving the
file unchanged) if they do not decode or the status is not `open`;
otherwise set the status to `in_progress` and overwrite the file with the
re-rendered ticket. -/
def AtomicClaim (contents : Str) : ClaimResult × Str :=
  match Parse contents with
  | none => (.parseFailed, contents)
  | some t =>
    if t.status ≠ StatusOpen then (.alreadyClaimed t.status, contents)
    else
      let t' := { t with status := StatusInProgress }
      (.claimed t', Render t')

/-- `n` `AtomicClaim` invocations on one file, in the serialization order
imposed by the exclusive lock. -/
def runClaims : Nat → Str → List ClaimResult × Str
  | 0, c => ([], c)
  | n + 1, c =>
    let (r, c') := AtomicClaim c
    let (rs, c'') := runClaims n c'
    (r :: rs, c'')

/-- `tickets.map Ticket.id`. -/
def ticketIDs (tickets : List Ticket) : List Str := tickets.map Ticket.id

/-- Lookup in the `ticketMap` the Go code builds by successive insertion
(`ticketMap[t.ID] = t`): a later ticket with the same id wins. -/
def lookupTicket (tickets : List Ticket) (id : Str) : Option Ticket :=
  (tickets.filter (fun t => t.id = id)).getLast?

/-- The dependency adjacency of a ticket set: the `Deps` of the ticket with
the given id, or `[]` for an unknown id. -/
def depsOf (tickets : List Ticket) (x : Str) : List Str :=
  match lookupTicket tickets x with
  | some t => t.deps
  | none => []

/-- A nonempty path along an adjacency function. -/
inductive EdgePath (adj : Str → List Str) : Str → Str → Prop where
  | single {a b : Str} : b ∈ adj a → EdgePath adj a b
  | cons {a b c : Str} : b ∈ adj a → EdgePath adj b c → EdgePath adj a c

/-- No node lies on a dependency cycle. -/
def Acyclic (adj : Str → List Str) : Prop := ∀ x, ¬ EdgePath adj x x

/-- Association-list read, modelling a Go map read. -/
def alGet (m : List (Str × Int)) (k : Str) : Option Int :=
  (m.find? (fun p => p.1 = k)).map (·.2)

/-- Association-list write, modelling a Go map write: update in place if the
key is present, append otherwise. -/
def alSet : List (Str × Int) → Str → Int → List (Str × Int)
  | [], k, v => [(k, v)]
  | (k', v') :: rest, k, v =>
    if k' = k then (k, v) :: rest else (k', v') :: alSet rest k v

/-- The `inDegree` map of `TopologicalSort`: each ticket's entry counts its
own dependency occurrences, and every dependency target is registered with
degree `0` if not yet present. -/
def buildInDegree (tickets : List Ticket) : List (Str × Int) :=
  tickets.foldl
    (fun m t =>
      let m1 := if (alGet m t.id).isNone then alSet m t.id 0 else m
      t.deps.foldl
        (fun m2 dep =>
          let m3 := alSet m2 t.id ((alGet m2 t.id).getD 0 + 1)
          if (alGet m3 dep).isNone then alSet m3 dep 0 else m3)
        m1)
    []

/-- The inner loop of `TopologicalSort` run for one dequeued `id`: decrement
the in-degree of every ticket that depends on `id` (once per occurrence)
and enqueue a ticket whose degree reaches exactly zero. -/
def kahnDec (tickets : List Ticket) (id : Str)
    (st : List (Str × Int) × List Str) : List (Str × Int) × List Str :=
  tickets.foldl
    (fun acc t =>
      t.deps.foldl
        (fun acc2 dep =>
          if dep = id then
            let d := (alGet acc2.1 t.id).getD 0 - 1
            let m := alSet acc2.1 t.id d
            if d = 0 then (m, acc2.2 ++ [t.id]) else (m, acc2.2)
          else acc2)
        acc)
    st

/-- State of the `TopologicalSort` work loop.  `popped` records the dequeue
order; it is proof instrumentation only and drives no branch. -/
structure KahnState where
  deg : List (Str × Int)
  queue : List Str
  sorted : List Ticket
  popped : List Str
  deriving Repr

/-- The `TopologicalSort` work loop, fuelled: dequeue the queue head, append
its ticket (if any) to the output and run `kahnDec`.  The fuel passed by
`TopologicalSort` is proved sufficient for the queue to drain. -/
def kahnLoop (tickets : List Ticket) : Nat → KahnState → KahnState
  | 0, st => st
  | fuel + 1, st =>
    match st.queue with
    | [] => st
    | id :: rest =>
      let sorted' := match lookupTicket tickets id with
        | some t => st.sorted ++ [t]
        | none => st.sorted
      let (deg', queue') := kahnDec tickets id (st.deg, rest)
      kahnLoop tickets fuel ⟨deg', queue', sorted', st.popped ++ [id]⟩

/-- `cmd.TopologicalSort` (Kahn's algorithm).  `order` is the enumeration
order of the `inDegree` map used to seed the ready queue: Go ranges over the
map, which yields each key exactly once in an order the runtime randomizes,
so a run of the Go code corresponds to this function at some permutation
`order` of the map's keys. -/
def TopologicalSort (tickets : List Ticket) (order : List Str) : Option (List Ticket) :=
  let deg := buildInDegree tickets
  let queue0 := order.filter (fun id => alGet deg id = some 0)
  let fin := kahnLoop tickets (2 * deg.length + 1) ⟨deg, queue0, [], []⟩
  if fin.sorted.length = tickets.length then some fin.sorted else none

/-- State of the `DetectCycles` depth-first search. -/
structure DfsState where
  visited : List Str
  recStack : List Str
  path : List Str
  cycles : List (List Str)
  deriving Repr

/-- The recursive `dfs` closure of `cmd.DetectCycles`, fuelled.  The fuel
bounds the recursion depth; each recursive call is on an unvisited id and
marks it, so depth never exceeds the number of ids and the fuel passed by
`DetectCycles` is sufficient. -/
def dfsDetect (tickets : List Ticket) : Nat → DfsState → Str → DfsState
  | 0, st, _ => st
  | fuel + 1, st, id =>
    let st1 : DfsState :=
      ⟨st.visited ++ [id], st.recStack ++ [id], st.path ++ [id], st.cycles⟩
    match lookupTicket tickets id with
    | none =>
      { st1 with path := st1.path.dropLast, recStack := st1.recStack.filter (· ≠ id) }
    | some t =>
      let st2 := t.deps.foldl
        (fun acc dep =>
          if dep ∈ acc.visited then
            if dep ∈ acc.recStack then
              match acc.path.findIdx? (· = dep) with
              | some i => { acc with cycles := acc.cycles ++ [acc.path.drop i] }
              | none => acc
            else acc
          else dfsDetect tickets fuel acc dep)
        st1
      { st2 with path := st2.path.dropLast, recStack := st2.recStack.filter (· ≠ id) }

/-- Fuel that strictly dominates the number of distinct ids reachable by the
graph walks (every ticket id plus every dependency occurrence). -/
def graphFuel (tickets : List Ticket) : Nat :=
  tickets.length + (tickets.map (fun t => t.deps.length)).sum + 2

/-- `cmd.DetectCycles`. -/
def DetectCycles (tickets : List Ticket) : List (List Str) :=
  (tickets.foldl
    (fun st t => if t.id ∈ st.visited then st else dfsDetect tickets (graphFuel tickets) st t.id)
    ⟨[], [], [], []⟩).cycles

/-- The recursive `hasCycle` closure of `cmd.checkCycle`, fuelled: a
depth-first reachability search for `target`, marking visited nodes.  The
boolean result short-circuits the remaining siblings exactly as the Go
`return true` does. -/
def hasCycleF (adj : Str → List Str) (target : Str) : Nat → List Str → Str → Bool × List Str
  | 0, visited, _ => (false, visited)
  | fuel + 1, visited, current =>
    if current = target then (true, visited)
    else if current ∈ visited then (false, visited)
    else
      (adj current).foldl
        (fun acc dep => if acc.1 then acc else hasCycleF adj target fuel acc.2 dep)
        (false, visited ++ [current])

/-- The adjacency `cmd.checkCycle` searches: every ticket's `Deps`, plus the
proposed edge `ticketID → depID` appended to `ticketID`'s list. -/
def proposedAdj (tickets : List Ticket) (ticketID depID : Str) : Str → List Str :=
  fun x => if x = ticketID then depsOf tickets ticketID ++ [depID] else depsOf tickets x

/-- `cmd.checkCycle`: true iff `ticketID` is reachable from `depID` over the
proposed edge set (which makes the addition reject with a cycle error). -/
def checkCycle (tickets : List Ticket) (ticketID depID : Str) : Bool :=
  (hasCycleF (proposedAdj tickets ticketID depID) ticketID (graphFuel tickets) [] depID).1

/-- Outcome of the `dep add` command core. -/
inductive DepAddResult where
  | ok (tickets : List Ticket)
  | selfDependency
  | missingTicket
  | duplicateDep
  | cycleError
  deriving DecidableEq, Repr

/-- The core of `cmd.depAddCmd` after id resolution: reject a
self-dependency, a missing ticket, a duplicate dependency, or a would-be
cycle (each before any write); otherwise persist the ticket with the
dependency appended. -/
def depAdd (tickets : List Ticket) (ticketID depID : Str) : DepAddResult :=
  if ticketID = depID then .selfDependency
  else
    match lookupTicket tickets ticketID with
    | none => .missingTicket
    | some t =>
      if depID ∈ t.deps then .duplicateDep
      else if checkCycle tickets ticketID depID then .cycleError
      else .ok (tickets.map (fun u =>
        if u.id = ticketID then { u with deps := u.deps ++ [depID] } else u))

/-- `cmd.findRootTickets`: tickets that are not closed and are not named in
any ticket's `Deps` (the `isDep` set is built from every ticket, closed ones
included). -/
def findRootTickets (tickets : List Ticket) : List Ticket :=
  tickets.filter
    (fun t => !(tickets.any (fun u => u.deps.contains t.id)) && !(t.status = StatusClosed))

/-- Lexicographic strict order on text by character code, the order in which
`os.ReadDir` sorts directory entries by filename. -/
def strLtB : Str → Str → Bool
  | [], [] => false
  | [], _ :: _ => true
  | _ :: _, [] => false
  | a :: as, b :: bs =>
    if a.toNat < b.toNat then true
    else if b.toNat < a.toNat then false
    else strLtB as bs

/-- A directory entry as `os.ReadDir` reports it. -/
structure DirEntry where
  name : Str
  isDir : Bool
  content : Str
  deriving DecidableEq, Repr

/-- Total order on directory entries: by name, ties broken by the remaining
fields so the order is antisymmetric (names are unique in a directory, so
the tie-break never fires). -/
def entryLe (a b : DirEntry) : Bool :=
  strLtB a.name b.name
    || (a.name = b.name
        && (strLtB a.content b.content || (a.content = b.content && (!a.isDir || b.isDir))))

/-- Insertion into a sorted list. -/
def insortBy (le : α → α → Bool) (x : α) : List α → List α
  | [] => [x]
  | y :: ys => if le x y then x :: y :: ys else y :: insortBy le x ys

/-- Insertion sort. -/
def sortBy (le : α → α → Bool) (l : List α) : List α := l.foldr (insortBy le) []

/-- Model of `os.ReadDir`: the directory's entries sorted by filename. -/
def readDirModel (dir : List DirEntry) : List DirEntry := sortBy entryLe dir

/-- `Storage.List`: scan the sorted directory, skip directories and files
without the `.md` extension, decode every remaining file in order, and fail
as a whole if any single file fails to decode. -/
def StorageList (dir : List DirEntry) : Option (List Ticket) :=
  (readDirModel dir).foldlM
    (fun acc e =>
      if e.isDir || !((str ".md").isSuffixOf e.name) then some acc
      else (Parse e.content).map (fun t => acc ++ [t]))
    []

/-- A character that `yaml.v3` serializes inside a plain (unquoted) scalar. -/
def plainChar (c : Char) : Bool :=
  c.isAlphanum || c = ' ' || c = '-' || c = '_' || c = '.' || c = '/' || c = ':' || c = '+'

/-- A string `yaml.v3` emits as a plain scalar that the modelled decoder
reads back verbatim: nonempty, made of plain characters, starting with an
alphanumeric character, not ending in a space, and without the `: `
key-value separator. -/
def plainScalar (s : Str) : Bool :=
  !s.isEmpty && s.all plainChar && (s.headD ' ').isAlphanum
    && !(s.getLastD ' ' = ' ') && !(findSub (str ": ") s).isSome

/-- The ticket's header fields are plain scalars (so the YAML round trip is
within the modelled subset): `id` and `status` plain, optional scalars plain
or empty, list elements plain, `created` a well-formed timestamp. -/
def headerPlain (t : Ticket) : Bool :=
  plainScalar t.id && plainScalar t.status
    && (t.type.isEmpty || plainScalar t.type)
    && (t.assignee.isEmpty || plainScalar t.assignee)
    && (t.parent.isEmpty || plainScalar t.parent)
    && (t.externalRef.isEmpty || plainScalar t.externalRef)
    && t.tags.all plainScalar && t.deps.all plainScalar && t.links.all plainScalar
    && isTimestamp t.created

/-- The ticket a successful `yaml.Unmarshal` of the frontmatter produces:
the header fields of `t` with the body fields still at their zero values. -/
def fmTicket (t : Ticket) : Ticket :=
  { id := t.id, status := t.status, type := t.type, priority := t.priority,
    assignee := t.assignee, parent := t.parent, externalRef := t.externalRef,
    tags := t.tags, deps := t.deps, links := t.links, created := t.created }

/-- Dependencies appear strictly before their dependents in a sorted
output. -/
def SortedRespectsDeps (sorted : List Ticket) : Prop :=
  ∀ j (hj : j < sorted.length), ∀ d ∈ sorted[j].deps,
    ∀ i (hi : i < sorted.length), sorted[i].id = d → i < j

/-- A valid enumeration order of the `inDegree` map: each key exactly once
(Go map iteration yields the keys in an arbitrary, run-dependent order). -/
def ValidMapOrder (tickets : List Ticket) (order : List Str) : Prop :=
  order.Perm ((buildInDegree tickets).map (·.1))

/-- The `Deps` relation of a ticket set is acyclic. -/
def TicketAcyclic (tickets : List Ticket) : Prop := Acyclic (depsOf tickets)

/- Concrete inputs used by the witnesses and counterexamples below. -/

/-- An open ticket whose only content is a title (all free-text fields are
delimiter- and heading-collision-free). -/
def exTitleOnly : Ticket :=
  { id := str "tic-a1f3", status := StatusOpen,
    created := str "2026-01-31T10:00:00Z", title := str "My Test Title" }

/-- The file content used by the repository's own
`TestTitlePreservationAfterStatusChange` test. -/
def exTitleTestContent : Str :=
  str "---\nid: test-1234\nstatus: open\ntype: task\npriority: 2\ncreated: 2026-01-31T17:10:46.21915Z\n---\n# My Test Title\n\n## Section\n- item\n"

/-- A body whose description text `A` precedes an unrecognized second-level
heading. -/
def exBodyUnknownHeading : Str := str "# T\n\nA\n\n## Weird\n\nB\n"

/-- Rendered content of an open ticket (for claim witnesses). -/
def exOpenContent : Str :=
  Render { id := str "tic-ab12", status := StatusOpen,
           created := str "2026-01-31T10:00:00Z", title := str "T",
           description := str "D" }

/-- The ticket `exOpenContent` decodes to. -/
def exOpenTicket : Ticket :=
  { id := str "tic-ab12", status := StatusOpen,
    created := str "2026-01-31T10:00:00Z", title := str "T",
    description := str "D" }

/-- Rendered content of a closed ticket. -/
def exClosedContent : Str :=
  Render { id := str "tic-cd34", status := StatusClosed,
           created := str "2026-01-31T10:00:00Z", title := str "T",
           description := str "D" }

/-- The ticket `exClosedContent` decodes to. -/
def exClosedTicket : Ticket :=
  { id := str "tic-cd34", status := StatusClosed,
    created := str "2026-01-31T10:00:00Z", title := str "T",
    description := str "D" }

/-- Tickets `a → b → c → a` (each depends on the next). -/
def exCycle3 : List Ticket :=
  [{ id := str "a", status := StatusOpen, deps := [str "b"] },
   { id := str "b", status := StatusOpen, deps := [str "c"] },
   { id := str "c", status := StatusOpen, deps := [str "a"] }]

/-- A single self-dependent ticket. -/
def exSelfDep : List Ticket :=
  [{ id := str "a", status := StatusOpen, deps := [str "a"] }]

/-- An acyclic chain `a → b → c`. -/
def exChain : List Ticket :=
  [{ id := str "a", status := StatusOpen, deps := [str "b"] },
   { id := str "b", status := StatusOpen, deps := [str "c"] },
   { id := str "c", status := StatusOpen }]

/-- Two independent tickets (no dependencies). -/
def exTwoFree : List Ticket :=
  [{ id := str "a", status := StatusOpen }, { id := str "b", status := StatusOpen }]

/-- `b` already depends on `a`. -/
def exPair : List Ticket :=
  [{ id := str "a", status := StatusOpen },
   { id := str "b", status := StatusOpen, deps := [str "a"] }]

/-- A closed ticket depending on an open one nothing else depends on. -/
def exClosedDep : List Ticket :=
  [{ id := str "c", status := StatusClosed, deps := [str "x"] },
   { id := str "x", status := StatusOpen }]

/-- A directory whose filename order differs from its id order: id `ab` is a
prefix of id `ab-c`, and `-` sorts before `.`. -/
def exDir : List DirEntry :=
  [⟨str "ab.md", false,
     str "---\nid: ab\nstatus: open\ncreated: 2026-01-01T00:00:00Z\n---\n"⟩,
   ⟨str "ab-c.md", false,
     str "---\nid: ab-c\nstatus: open\ncreated: 2026-01-01T00:00:00Z\n---\n"⟩]

/-- Number of dependency occurrences a ticket id holds (its Kahn
in-degree). -/
def degSpec (tickets : List Ticket) (k : Str) : Nat :=
  (depsOf tickets k).length

/-- How many dependency occurrences of `k` are already covered by the
popped ids. -/
def covSpec (tickets : List Ticket) (popped : List Str) (k : Str) : Nat :=
  ((depsOf tickets k).filter (fun d => decide (d ∈ popped))).length

/-- The keys of an association list. -/
def keysOf (m : List (Str × Int)) : List Str := m.map Prod.fst

/-- A dequeue order is prefix-closed when every popped id's dependencies
were all popped strictly earlier. -/
def PrefixClosed (tickets : List Ticket) (l : List Str) : Prop :=
  ∀ i (h : i < l.length), ∀ d ∈ depsOf tickets l[i], d ∈ l.take i

/-- The invariant of the `TopologicalSort` work loop. -/
def KahnInv (tickets : List Ticket) (st : KahnState) : Prop :=
  keysOf st.deg = keysOf (buildInDegree tickets) ∧
    (st.popped ++ st.queue).Nodup ∧
    (∀ x ∈ st.popped ++ st.queue, x ∈ keysOf (buildInDegree tickets)) ∧
    (∀ k ∈ keysOf (buildInDegree tickets),
      alGet st.deg k = some ((degSpec tickets k : Int) - covSpec tickets st.popped k)) ∧
    (∀ k ∈ keysOf (buildInDegree tickets),
      ((k ∈ st.popped ∨ k ∈ st.queue) ↔ covSpec tickets st.popped k = degSpec tickets k)) ∧
    st.sorted = st.popped.filterMap (lookupTicket tickets) ∧
    SortedRespectsDeps st.sorted ∧
    PrefixClosed tickets st.popped

/-- The termination measure of the work loop: ids never enqueued plus the
queue length. -/
def kahnMeasure (tickets : List Ticket) (st : KahnState) : Nat :=
  ((keysOf (buildInDegree tickets)).filter
    (fun k => decide (k ∉ st.popped ++ st.queue))).length + st.queue.length

/-- Reflexive-transitive reachability along an adjacency function. -/
def Reaches (adj : Str → List Str) (x y : Str) : Prop :=
  x = y ∨ EdgePath adj x y

/-- The node universe of the `checkCycle` search: the proposed dependency
target and every dependency occurrence of the ticket set. -/
def checkCycleUniverse (tickets : List Ticket) (depID : Str) : List Str :=
  depID :: (tickets.map (fun t => t.deps)).flatten

/-- Claim C2: for every ticket file content whose decoded status is not
`open`, `AtomicClaim` fails with the already-claimed error carrying the
actual status, and the file content is left unchanged (no write occurs). -/
theorem claim_C2_reject_nonopen (c : Str) (t : Ticket) (hp : Parse c = some t)
    (hs : t.status ≠ StatusOpen) :
    AtomicClaim c = (.alreadyClaimed t.status, c) := by
  simp [AtomicClaim, hp, hs]

/-- Witness for C2: a concrete closed ticket is rejected with its status and
its content untouched. -/
theorem claim_C2_witness :
    Parse exClosedContent = some exClosedTicket ∧
      exClosedTicket.status ≠ StatusOpen ∧
      AtomicClaim exClosedContent
        = (.alreadyClaimed exClosedTicket.status, exClosedContent) :=
  ⟨by decide, by decide, claim_C2_reject_nonopen _ _ (by decide) (by decide)⟩

/-- Claim C3 (code bug): the round trip is broken even for collision-free
free text.  A ticket whose only content is a title re-parses with an empty
title: the final `flushSection` runs with `currentSection = "title"` and
overwrites `Title` with the trimmed (blank) accumulated text.  The same slip
makes the parse in the repository's own
`TestTitlePreservationAfterStatusChange` test produce an empty title. -/
theorem claim_C3_title_lost :
    (Parse (Render exTitleOnly)).map Ticket.title = some [] ∧
      exTitleOnly.title = str "My Test Title" ∧
      Parse (Render exTitleOnly) ≠ some exTitleOnly ∧
      (Parse exTitleTestContent).map Ticket.title = some [] := by
  exact ⟨by decide, by decide, by decide, by decide⟩

/-- Counterexample to C9: with description text `A` accumulated before the
unrecognized heading `## Weird`, the final description is the heading line
plus its following content only; the earlier text `A` is not included. -/
theorem claim_C9_counterexample :
    (ParseMarkdownBody {} exBodyUnknownHeading).description = str "## Weird\n\nB" ∧
      'A' ∉ (ParseMarkdownBody {} exBodyUnknownHeading).description ∧
      'A' ∈ exBodyUnknownHeading := by
  exact ⟨by decide, by decide, by decide⟩

/-- Counterexample to C8: the open ticket `x` is named as a dependency only
by a closed ticket, so under the claim's characterization it is a root, yet
`findRootTickets` (whose `isDep` set is built from every ticket, closed ones
included) returns nothing. -/
theorem claim_C8_counterexample :
    (∃ x ∈ exClosedDep, x.id = str "x" ∧ x.status ≠ StatusClosed ∧
        ∀ u ∈ exClosedDep, u.status ≠ StatusClosed → x.id ∉ u.deps) ∧
      findRootTickets exClosedDep = [] := by
  exact ⟨by decide, by decide⟩

/-- Counterexample to C5: on two tickets with no dependencies, two valid
enumeration orders of the in-degree map (Go randomizes map iteration
between runs) yield different output sequences. -/
theorem claim_C5_counterexample :
    ValidMapOrder exTwoFree [str "a", str "b"] ∧
      ValidMapOrder exTwoFree [str "b", str "a"] ∧
      TopologicalSort exTwoFree [str "a", str "b"]
        ≠ TopologicalSort exTwoFree [str "b", str "a"] := by
  refine ⟨?_, ?_, by decide⟩ <;> · unfold ValidMapOrder; decide

/-- Counterexample to C10: `List` returns the files in filename order, which
is not ascending id order when one id is a prefix of another continued by a
character below `.` — here the output is `ab-c` then `ab` although
`ab < ab-c`. -/
theorem claim_C10_counterexample :
    (StorageList exDir).map (fun l => l.map Ticket.id) = some [str "ab-c", str "ab"] ∧
      strLtB (str "ab") (str "ab-c") = true := by
  exact ⟨by decide, by decide⟩

/-- A list without a trailing carriage return is untouched by `dropCR`. -/
theorem dropCR_eq_of_not_mem {l : Str} (h : '\r' ∉ l) : dropCR l = l := by
  unfold dropCR
  cases hl : l.getLast? with
  | none => rfl
  | some c =>
    by_cases hc : c = '\r'
    · subst hc
      exact absurd (List.mem_of_mem_getLast? hl) h
    · cases c
      simp_all [dropCR]

/-- `linesAux` consumes one newline-free line up to the next newline. -/
theorem linesAux_step (l : Str) (s : Str) (h : nl ∉ l) :
    ∀ cur, linesAux cur (l ++ nl :: s) = dropCR (cur ++ l) :: linesAux [] s := by
  induction l with
  | nil => intro cur; simp [linesAux, nl]
  | cons c cs ih =>
    intro cur
    have hc : ¬ c = '\n' := fun hh => h (hh ▸ List.mem_cons_self c cs)
    have hcs : nl ∉ cs := fun hh => h (List.mem_cons_of_mem c hh)
    simp only [List.cons_append, linesAux, if_neg hc, List.append_eq]
    rw [ih hcs (cur ++ [c]), List.append_assoc]
    rfl

/-- Splitting the newline-joined form of newline-free, carriage-return-free
lines recovers exactly those lines. -/
theorem linesGo_join (ls : List Str) (h : ∀ l ∈ ls, nl ∉ l ∧ '\r' ∉ l) :
    linesGo (joinLinesNl ls) = ls := by
  induction ls with
  | nil => rfl
  | cons l rest ih =>
    have hl := h l (List.mem_cons_self l rest)
    have hrest : ∀ x ∈ rest, nl ∉ x ∧ '\r' ∉ x := fun x hx => h x (List.mem_cons_of_mem l hx)
    have : joinLinesNl (l :: rest) = l ++ nl :: joinLinesNl rest := by
      simp [joinLinesNl, List.append_assoc]
    rw [linesGo, this, linesAux_step l _ hl.1 [], List.nil_append,
      dropCR_eq_of_not_mem hl.2]
    exact congrArg _ (ih hrest)

/-- On an unrecognized second-level heading, `bodyStep` flushes the current
section and restarts accumulation as description with the heading line. -/
theorem bodyStep_unknown_heading (st : BodyState) (h : Str)
    (hh : (str "## ").isPrefixOf h = true)
    (hnd : lowerStr (h.drop 3) ≠ str "design")
    (hna : lowerStr (h.drop 3) ≠ str "acceptance criteria")
    (hnn : lowerStr (h.drop 3) ≠ str "notes") :
    bodyStep st h = (flushSection st.1 st.2.1 st.2.2, .description, h ++ [nl]) := by
  obtain ⟨t, cur, buf⟩ := st
  obtain ⟨tl, rfl⟩ := List.isPrefixOf_iff_prefix.mp hh
  have e : List.drop 3 (str "## " ++ tl) = tl := rfl
  rw [e] at hnd hna hnn
  have e1 : str "design" = ['d', 'e', 's', 'i', 'g', 'n'] := rfl
  have e2 : str "acceptance criteria"
      = ['a', 'c', 'c', 'e', 'p', 't', 'a', 'n', 'c', 'e', ' ',
         'c', 'r', 'i', 't', 'e', 'r', 'i', 'a'] := rfl
  have e3 : str "notes" = ['n', 'o', 't', 'e', 's'] := rfl
  rw [e1] at hnd
  rw [e2] at hna
  rw [e3] at hnn
  simp only [bodyStep, str, String.toList]
  simp [hnd, hna, hnn, List.isPrefixOf]

/-- Folding heading-free lines in description mode appends them to the
accumulator. -/
theorem bodyFold_desc (post : List Str) :
    ∀ (t : Ticket) (buf : Str),
      (∀ l ∈ post, ¬((str "# ").isPrefixOf l = true) ∧ ¬((str "## ").isPrefixOf l = true)) →
      post.foldl bodyStep (t, .description, buf) = (t, .description, buf ++ joinLinesNl post) := by
  induction post with
  | nil => intro t buf _; simp [joinLinesNl]
  | cons l rest ih =>
    intro t buf h
    have hl := h l (List.mem_cons_self l rest)
    have hrest := fun x hx => h x (List.mem_cons_of_mem l hx)
    have hstep : bodyStep (t, .description, buf) l = (t, .description, buf ++ (l ++ [nl])) := by
      simp [bodyStep, hl.1, hl.2]
    rw [List.foldl_cons, hstep, ih _ _ hrest]
    have : joinLinesNl (l :: rest) = (l ++ [nl]) ++ joinLinesNl rest := by
      simp [joinLinesNl]
    rw [this, List.append_assoc]

/-- Claim C9 (amended): an unrecognized second-level heading is treated as
description content consisting of the heading line and its following text;
the final description is exactly that text — description text accumulated
before the heading is flushed and then overwritten, not included. -/
theorem claim_C9_unknown_heading (pre post : List Str) (h : Str) (t : Ticket)
    (hh : (str "## ").isPrefixOf h = true)
    (hnd : lowerStr (h.drop 3) ≠ str "design")
    (hna : lowerStr (h.drop 3) ≠ str "acceptance criteria")
    (hnn : lowerStr (h.drop 3) ≠ str "notes")
    (hclean : ∀ l ∈ pre ++ h :: post, nl ∉ l ∧ '\r' ∉ l)
    (hpost : ∀ l ∈ post, ¬((str "# ").isPrefixOf l = true) ∧ ¬((str "## ").isPrefixOf l = true)) :
    (ParseMarkdownBody t (joinLinesNl (pre ++ h :: post))).description
      = trimSpace (h ++ [nl] ++ joinLinesNl post) := by
  unfold ParseMarkdownBody
  rw [linesGo_join _ hclean, List.foldl_append, List.foldl_cons]
  rw [bodyStep_unknown_heading _ _ hh hnd hna hnn]
  rw [bodyFold_desc post _ _ hpost]
  simp [flushSection, List.append_assoc]

/-- Witness for C9: the amended statement evaluated on the concrete body of
the counterexample. -/
theorem claim_C9_witness :
    (ParseMarkdownBody {} (joinLinesNl
        ([str "# T", str "", str "A", str ""] ++ str "## Weird" :: [str "", str "B"]))).description
      = trimSpace (str "## Weird" ++ [nl] ++ joinLinesNl [str "", str "B"]) :=
  claim_C9_unknown_heading [str "# T", str "", str "A", str ""] [str "", str "B"]
    (str "## Weird") {} (by decide) (by decide) (by decide) (by decide)
    (by decide) (by decide)

/-- Claim C8 (amended): `findRootTickets` returns exactly the non-closed
tickets that no ticket in the set — of any status, closed dependents and
the ticket itself included — names in its `Deps`. -/
theorem claim_C8_roots (tickets : List Ticket) (t : Ticket) :
    t ∈ findRootTickets tickets ↔
      t ∈ tickets ∧ t.status ≠ StatusClosed ∧ ∀ u ∈ tickets, t.id ∉ u.deps := by
  simp only [findRootTickets, List.mem_filter, Bool.and_eq_true, Bool.not_eq_true',
    List.any_eq_false, decide_eq_false_iff_not, List.elem_iff]
  tauto

/-- `strLtB` is irreflexive. -/
theorem strLtB_irrefl : ∀ a : Str, strLtB a a = false
  | [] => rfl
  | c :: cs => by simp [strLtB, strLtB_irrefl cs]

/-- `strLtB` is asymmetric. -/
theorem strLtB_asymm : ∀ a b : Str, strLtB a b = true → strLtB b a = false
  | [], [] => by simp [strLtB]
  | [], _ :: _ => by simp [strLtB]
  | _ :: _, [] => by simp [strLtB]
  | a :: as, b :: bs => by
    intro h
    simp only [strLtB] at h ⊢
    by_cases h1 : a.toNat < b.toNat
    · rw [if_neg (by omega : ¬ b.toNat < a.toNat), if_pos h1]
    · by_cases h2 : b.toNat < a.toNat
      · rw [if_neg h1, if_pos h2] at h
        exact absurd h (by simp)
      · rw [if_neg h1, if_neg h2] at h
        rw [if_neg h2, if_neg h1]
        exact strLtB_asymm as bs h

/-- Two texts neither of which is below the other are equal. -/
theorem strLtB_conn : ∀ a b : Str, strLtB a b = false → strLtB b a = false → a = b
  | [], [], _, _ => rfl
  | [], _ :: _, h, _ => by simp [strLtB] at h
  | _ :: _, [], _, h => by simp [strLtB] at h
  | a :: as, b :: bs, h1, h2 => by
    simp only [strLtB] at h1 h2
    by_cases ha : a.toNat < b.toNat
    · rw [if_pos ha] at h1
      exact absurd h1 (by simp)
    · by_cases hb : b.toNat < a.toNat
      · rw [if_pos hb] at h2
        exact absurd h2 (by simp)
      · rw [if_neg ha, if_neg hb] at h1
        rw [if_neg hb, if_neg ha] at h2
        have hab : a = b := by
          unfold Char.toNat at ha hb
          exact Char.eq_of_val_eq (UInt32.ext (by omega))
        rw [hab, strLtB_conn as bs h1 h2]

/-- `entryLe` is total. -/
theorem entryLe_total (a b : DirEntry) : entryLe a b = true ∨ entryLe b a = true := by
  unfold entryLe
  by_cases hn : strLtB a.name b.name = true
  · left; simp [hn]
  · by_cases hn' : strLtB b.name a.name = true
    · right; simp [hn']
    · have he : a.name = b.name :=
        strLtB_conn _ _ (Bool.not_eq_true _ ▸ hn) (Bool.not_eq_true _ ▸ hn')
      by_cases hc : strLtB a.content b.content = true
      · left; simp [he, hc]
      · by_cases hc' : strLtB b.content a.content = true
        · right; simp [he, hc']
        · have hce : a.content = b.content :=
            strLtB_conn _ _ (Bool.not_eq_true _ ▸ hc) (Bool.not_eq_true _ ▸ hc')
          cases hd : a.isDir
          · left; simp [he, hce, hd]
          · right; simp [he, hce, hd]

/-- `entryLe` is antisymmetric. -/
theorem entryLe_antisymm (a b : DirEntry) (h1 : entryLe a b = true)
    (h2 : entryLe b a = true) : a = b := by
  obtain ⟨na, da, ca⟩ := a
  obtain ⟨nb, db, cb⟩ := b
  simp only [entryLe, Bool.or_eq_true, Bool.and_eq_true, decide_eq_true_eq] at h1 h2
  rcases h1 with h1 | ⟨hname, h1⟩
  · rcases h2 with h2 | ⟨hname2, h2⟩
    · rw [strLtB_asymm _ _ h1] at h2
      exact absurd h2 (by simp)
    · rw [hname2, strLtB_irrefl] at h1
      exact absurd h1 (by simp)
  · rcases h2 with h2 | ⟨hname2, h2⟩
    · rw [hname, strLtB_irrefl] at h2
      exact absurd h2 (by simp)
    · subst hname
      rcases h1 with h1 | ⟨hcont, h1⟩ <;> rcases h2 with h2 | ⟨hcont2, h2⟩
      · rw [strLtB_asymm _ _ h1] at h2
        exact absurd h2 (by simp)
      · rw [hcont2, strLtB_irrefl] at h1
        exact absurd h1 (by simp)
      · rw [hcont, strLtB_irrefl] at h2
        exact absurd h2 (by simp)
      · subst hcont
        cases da <;> cases db <;> simp_all

/-- `strLtB` is transitive. -/
theorem strLtB_trans : ∀ a b c : Str, strLtB a b = true → strLtB b c = true →
    strLtB a c = true
  | [], b, [], h1, h2 => by
    cases b with
    | nil => simp [strLtB] at h1
    | cons x xs => simp [strLtB] at h2
  | [], _, _ :: _, _, _ => by simp [strLtB]
  | _ :: _, [], _, h1, _ => by simp [strLtB] at h1
  | _ :: _, _ :: _, [], _, h2 => by simp [strLtB] at h2
  | a :: as, b :: bs, c :: cs, h1, h2 => by
    simp only [strLtB] at h1 h2 ⊢
    by_cases hab : a.toNat < b.toNat <;> by_cases hbc : b.toNat < c.toNat
    · rw [if_pos (by omega)]
    · rw [if_neg hbc] at h2
      by_cases hcb : c.toNat < b.toNat
      · rw [if_pos hcb] at h2
        exact absurd h2 (by simp)
      · rw [if_pos (by omega)]
    · rw [if_neg hab] at h1
      by_cases hba : b.toNat < a.toNat
      · rw [if_pos hba] at h1
        exact absurd h1 (by simp)
      · rw [if_pos (by omega)]
    · rw [if_neg hab] at h1
      rw [if_neg hbc] at h2
      by_cases hba : b.toNat < a.toNat
      · rw [if_pos hba] at h1
        exact absurd h1 (by simp)
      · by_cases hcb : c.toNat < b.toNat
        · rw [if_pos hcb] at h2
          exact absurd h2 (by simp)
        · rw [if_neg hba] at h1
          rw [if_neg hcb] at h2
          rw [if_neg (by omega), if_neg (by omega)]
          exact strLtB_trans as bs cs h1 h2

/-- `entryLe` is transitive. -/
theorem entryLe_trans (a b c : DirEntry) (h1 : entryLe a b = true)
    (h2 : entryLe b c = true) : entryLe a c = true := by
  simp only [entryLe, Bool.or_eq_true, Bool.and_eq_true, decide_eq_true_eq] at h1 h2 ⊢
  rcases h1 with h1 | ⟨hn1, h1⟩ <;> rcases h2 with h2 | ⟨hn2, h2⟩
  · exact Or.inl (strLtB_trans _ _ _ h1 h2)
  · exact Or.inl (hn2 ▸ h1)
  · exact Or.inl (hn1 ▸ h2)
  · refine Or.inr ⟨hn1.trans hn2, ?_⟩
    rcases h1 with h1 | ⟨hc1, h1⟩ <;> rcases h2 with h2 | ⟨hc2, h2⟩
    · exact Or.inl (strLtB_trans _ _ _ h1 h2)
    · exact Or.inl (hc2 ▸ h1)
    · exact Or.inl (hc1 ▸ h2)
    · refine Or.inr ⟨hc1.trans hc2, ?_⟩
      cases ha : a.isDir <;> cases hb : b.isDir <;> cases hc : c.isDir <;> simp_all

/-- Inserting into a list permutes consing. -/
theorem insortBy_perm (le : α → α → Bool) (x : α) :
    ∀ l : List α, (insortBy le x l).Perm (x :: l)
  | [] => List.Perm.refl _
  | y :: ys => by
    unfold insortBy
    by_cases h : le x y = true
    · rw [if_pos h]
    · rw [if_neg h]
      exact (List.Perm.cons y (insortBy_perm le x ys)).trans (List.Perm.swap x y ys)

/-- Insertion sort permutes its input. -/
theorem sortBy_perm (le : α → α → Bool) : ∀ l : List α, (sortBy le l).Perm l
  | [] => List.Perm.refl _
  | y :: ys => by
    unfold sortBy
    rw [List.foldr_cons]
    exact (insortBy_perm le y _).trans (List.Perm.cons y (sortBy_perm le ys))

/-- Inserting into a sorted list keeps it sorted (for a total, transitive
order). -/
theorem insortBy_pairwise (le : α → α → Bool)
    (htot : ∀ a b, le a b = true ∨ le b a = true)
    (htr : ∀ a b c, le a b = true → le b c = true → le a c = true) (x : α) :
    ∀ l : List α, l.Pairwise (le · · = true) →
      (insortBy le x l).Pairwise (le · · = true)
  | [], _ => by simp [insortBy]
  | y :: ys, h => by
    rw [List.pairwise_cons] at h
    unfold insortBy
    by_cases hxy : le x y = true
    · rw [if_pos hxy]
      rw [List.pairwise_cons]
      refine ⟨?_, List.pairwise_cons.mpr h⟩
      intro z hz
      rw [List.mem_cons] at hz
      rcases hz with rfl | hz
      · exact hxy
      · exact htr x y z hxy (h.1 z hz)
    · rw [if_neg hxy]
      rw [List.pairwise_cons]
      refine ⟨?_, insortBy_pairwise le htot htr x ys h.2⟩
      intro z hz
      have hz' := (insortBy_perm le x ys).mem_iff.mp hz
      rw [List.mem_cons] at hz'
      rcases hz' with rfl | hzys
      · rcases htot y z with hy | hy
        · exact hy
        · exact absurd hy hxy
      · exact h.1 z hzys

/-- Insertion sort sorts. -/
theorem sortBy_pairwise (le : α → α → Bool)
    (htot : ∀ a b, le a b = true ∨ le b a = true)
    (htr : ∀ a b c, le a b = true → le b c = true → le a c = true) :
    ∀ l : List α, (sortBy le l).Pairwise (le · · = true)
  | [] => List.Pairwise.nil
  | y :: ys => by
    unfold sortBy
    rw [List.foldr_cons]
    exact insortBy_pairwise le htot htr y _ (sortBy_pairwise le htot htr ys)

/-- Two runs of `os.ReadDir` over permuted directory contents agree: the
sorted order is a function of the entry set alone. -/
theorem readDir_perm_eq (d1 d2 : List DirEntry) (h : d1.Perm d2) :
    readDirModel d1 = readDirModel d2 := by
  have hanti : IsAntisymm DirEntry (fun a b => entryLe a b = true) := ⟨entryLe_antisymm⟩
  have hs1 : List.Sorted (fun a b => entryLe a b = true) (sortBy entryLe d1) :=
    sortBy_pairwise entryLe entryLe_total entryLe_trans d1
  have hs2 : List.Sorted (fun a b => entryLe a b = true) (sortBy entryLe d2) :=
    sortBy_pairwise entryLe entryLe_total entryLe_trans d2
  have hp : (sortBy entryLe d1).Perm (sortBy entryLe d2) :=
    (sortBy_perm entryLe d1).trans (h.trans (sortBy_perm entryLe d2).symm)
  exact @List.eq_of_perm_of_sorted _ _ hanti _ _ hp hs1 hs2

/-- Claim C10 (amended): `List` processes the record files in ascending
lexicographic order of filename (not of id), so for a fixed directory
content — in whatever order the entries are presented — the output sequence
is the same. -/
theorem claim_C10_list_order (d1 d2 : List DirEntry) (hperm : d1.Perm d2) :
    StorageList d1 = StorageList d2 ∧
      ((readDirModel d1).map DirEntry.name).Pairwise
        (fun a b => strLtB a b = true ∨ a = b) := by
  constructor
  · unfold StorageList
    rw [readDir_perm_eq d1 d2 hperm]
  · rw [List.pairwise_map]
    refine (sortBy_pairwise entryLe entryLe_total entryLe_trans d1).imp ?_
    intro a b hab
    simp only [entryLe, Bool.or_eq_true, Bool.and_eq_true, decide_eq_true_eq] at hab
    rcases hab with hab | ⟨hab, _⟩
    · exact Or.inl hab
    · exact Or.inr hab

/-- Witness for C10: the deterministic order on a concrete two-file
directory presented in either order. -/
theorem claim_C10_witness :
    StorageList exDir = StorageList exDir.reverse ∧
      ((readDirModel exDir).map DirEntry.name).Pairwise
        (fun a b => strLtB a b = true ∨ a = b) :=
  claim_C10_list_order exDir exDir.reverse (by decide)

/-- Paths compose with a further edge. -/
theorem EdgePath.append_edge {adj : Str → List Str} {a b c : Str}
    (h : EdgePath adj a b) (he : c ∈ adj b) : EdgePath adj a c := by
  induction h with
  | single h1 => exact .cons h1 (.single he)
  | cons h1 _ ih => exact .cons h1 (ih he)

/-- Paths compose. -/
theorem EdgePath.trans {adj : Str → List Str} {a b c : Str}
    (h1 : EdgePath adj a b) (h2 : EdgePath adj b c) : EdgePath adj a c := by
  induction h1 with
  | single h => exact .cons h h2
  | cons h _ ih => exact .cons h (ih h2)

/-- Along an edge chain, every member reaches the last element (or is it). -/
theorem chain_reaches_last {adj : Str → List Str} :
    ∀ (p : List Str) (x : Str), List.Chain' (fun a b => b ∈ adj a) p → x ∈ p →
      ∃ y, p.getLast? = some y ∧ (x = y ∨ EdgePath adj x y)
  | [], _, _, hx => absurd hx (List.not_mem_nil _)
  | [a], x, _, hx => by
    rw [List.mem_singleton] at hx
    exact ⟨a, rfl, Or.inl hx⟩
  | a :: b :: rest, x, hch, hx => by
    rw [List.chain'_cons] at hch
    rw [List.mem_cons] at hx
    have ih := @chain_reaches_last adj (b :: rest)
    rcases hx with rfl | hx
    · obtain ⟨y, hy, hxy⟩ := ih b hch.2 (List.mem_cons_self b rest)
      refine ⟨y, by simpa using hy, Or.inr ?_⟩
      rcases hxy with rfl | hxy
      · exact .single hch.1
      · exact (EdgePath.single hch.1).trans hxy
    · obtain ⟨y, hy, hxy⟩ := ih x hch.2 hx
      exact ⟨y, by simpa using hy, hxy⟩

/-- A ranking function whose value strictly drops along every edge rules out
cycles. -/
theorem acyclic_of_rank (adj : Str → List Str) (f : Str → Nat)
    (hf : ∀ x y, y ∈ adj x → f y < f x) : Acyclic adj := by
  intro x hx
  have hlt : ∀ {a b}, EdgePath adj a b → f b < f a := by
    intro a b h
    induction h with
    | single h => exact hf _ _ h
    | cons h _ ih => exact ih.trans (hf _ _ h)
  exact absurd (hlt hx) (lt_irrefl _)

/-- Removing an absent element by filtering is the identity. -/
theorem filter_ne_of_not_mem {l : List Str} {id : Str} (h : id ∉ l) :
    l.filter (· ≠ id) = l := by
  refine List.filter_eq_self.mpr ?_
  intro x hx
  simp only [decide_eq_true_eq]
  exact fun hxid => h (hxid ▸ hx)

/-- On an acyclic ticket set the `DetectCycles` depth-first search records no
cycle and restores its path and recursion stack. -/
theorem dfsDetect_acyclic (tickets : List Ticket)
    (hA : Acyclic (depsOf tickets)) :
    ∀ (fuel : Nat) (v p cy : List Str) (cys : List (List Str)) (id : Str),
      p.Nodup →
      (∀ x ∈ p, x ∈ v) →
      id ∉ v →
      p = cy →
      List.Chain' (fun a b => b ∈ depsOf tickets a) (p ++ [id]) →
      (dfsDetect tickets fuel ⟨v, cy, p, cys⟩ id).cycles = cys ∧
        (dfsDetect tickets fuel ⟨v, cy, p, cys⟩ id).path = p ∧
        (dfsDetect tickets fuel ⟨v, cy, p, cys⟩ id).recStack = cy ∧
        ∀ x ∈ v, x ∈ (dfsDetect tickets fuel ⟨v, cy, p, cys⟩ id).visited := by
  intro fuel
  induction fuel with
  | zero => exact fun v p cy cys id _ _ _ _ _ => ⟨rfl, rfl, rfl, fun x h => h⟩
  | succ fuel ih =>
    intro v p cy cys id hnd hpv hidv hpcy hch
    subst hpcy
    have hidp : id ∉ p := fun h => hidv (hpv id h)
    have hnd1 : (p ++ [id]).Nodup := by
      rw [List.nodup_append]
      exact ⟨hnd, List.nodup_singleton id, by simpa using hidp⟩
    rw [dfsDetect]
    cases hl : lookupTicket tickets id with
    | none =>
      refine ⟨rfl, ?_, ?_, ?_⟩
      · simp only [List.dropLast_concat]
      · simp only
        rw [List.filter_append, filter_ne_of_not_mem hidp]
        simp
      · intro x hx
        exact List.mem_append_left _ hx
    | some t =>
      have hdeps : depsOf tickets id = t.deps := by
        simp [depsOf, hl]
      suffices hfold : ∀ deps : List Str, (∀ d ∈ deps, d ∈ depsOf tickets id) →
          ∀ acc : DfsState,
            acc.path = p ++ [id] →
            acc.recStack = p ++ [id] →
            acc.cycles = cys →
            (∀ x ∈ p, x ∈ acc.visited) →
            id ∈ acc.visited →
            (deps.foldl
              (fun acc dep =>
                if dep ∈ acc.visited then
                  if dep ∈ acc.recStack then
                    match acc.path.findIdx? (· = dep) with
                    | some i => { acc with cycles := acc.cycles ++ [acc.path.drop i] }
                    | none => acc
                  else acc
                else dfsDetect tickets fuel acc dep)
              acc).path = p ++ [id] ∧
            (deps.foldl
              (fun acc dep =>
                if dep ∈ acc.visited then
                  if dep ∈ acc.recStack then
                    match acc.path.findIdx? (· = dep) with
                    | some i => { acc with cycles := acc.cycles ++ [acc.path.drop i] }
                    | none => acc
                  else acc
                else dfsDetect tickets fuel acc dep)
              acc).recStack = p ++ [id] ∧
            (deps.foldl
              (fun acc dep =>
                if dep ∈ acc.visited then
                  if dep ∈ acc.recStack then
                    match acc.path.findIdx? (· = dep) with
                    | some i => { acc with cycles := acc.cycles ++ [acc.path.drop i] }
                    | none => acc
                  else acc
                else dfsDetect tickets fuel acc dep)
              acc).cycles = cys ∧
            ∀ x ∈ acc.visited, x ∈ (deps.foldl
              (fun acc dep =>
                if dep ∈ acc.visited then
                  if dep ∈ acc.recStack then
                    match acc.path.findIdx? (· = dep) with
                    | some i => { acc with cycles := acc.cycles ++ [acc.path.drop i] }
                    | none => acc
                  else acc
                else dfsDetect tickets fuel acc dep)
              acc).visited by
        obtain ⟨hp, hr, hc, hv⟩ := hfold t.deps (fun d hd => hdeps ▸ hd)
          ⟨v ++ [id], p ++ [id], p ++ [id], cys⟩
          rfl rfl rfl
          (fun x hx => List.mem_append_left _ (hpv x hx))
          (List.mem_append_right _ (List.mem_singleton_self id))
        refine ⟨hc, ?_, ?_, ?_⟩
        · simp only [hp, List.dropLast_concat]
        · simp only [hr]
          rw [List.filter_append, filter_ne_of_not_mem hidp]
          simp
        · intro x hx
          exact hv x (List.mem_append_left _ hx)
      intro deps
      induction deps with
      | nil => exact fun _ acc hp hr hc _ _ => ⟨hp, hr, hc, fun x h => h⟩
      | cons d ds ihd =>
        intro hsub acc hp hr hc hpv' hidv'
        have hd : d ∈ depsOf tickets id := hsub d (List.mem_cons_self d ds)
        have hsub' : ∀ x ∈ ds, x ∈ depsOf tickets id :=
          fun x hx => hsub x (List.mem_cons_of_mem d hx)
        rw [List.foldl_cons]
        by_cases hdv : d ∈ acc.visited
        · rw [if_pos hdv]
          by_cases hdr : d ∈ acc.recStack
          · exfalso
            rw [hr] at hdr
            obtain ⟨y, hy, hdy⟩ :=
              @chain_reaches_last (depsOf tickets) (p ++ [id]) d hch hdr
            rw [List.getLast?_concat] at hy
            obtain rfl : id = y := by injection hy
            rcases hdy with rfl | hdy
            · exact hA d (.single hd)
            · exact hA d (hdy.append_edge hd)
          · rw [if_neg hdr]
            exact ihd hsub' acc hp hr hc hpv' hidv'
        · rw [if_neg hdv]
          have hchd : List.Chain' (fun a b => b ∈ depsOf tickets a) ((p ++ [id]) ++ [d]) := by
            rw [List.chain'_append]
            refine ⟨hch, List.chain'_singleton d, ?_⟩
            intro x hx y hy
            rw [List.getLast?_concat] at hx
            rw [List.head?_cons] at hy
            have hx' : id = x := by
              simpa using hx
            have hy' : d = y := by
              simpa using hy
            exact hx' ▸ hy' ▸ hd
          obtain ⟨av, ar, ap, acys⟩ := acc
          simp only at hp hr hc hpv' hidv' hdv
          subst hp hr hc
          have hacc := ih av (p ++ [id]) (p ++ [id]) acys d hnd1
            (fun x hx => by
              rw [List.mem_append] at hx
              rcases hx with hx | hx
              · exact hpv' x hx
              · rw [List.mem_singleton] at hx
                exact hx ▸ hidv')
            hdv rfl hchd
          obtain ⟨hc2, hp2, hr2, hv2⟩ := hacc
          have hres := ihd hsub' (dfsDetect tickets fuel ⟨av, p ++ [id], p ++ [id], acys⟩ d)
            hp2 hr2 hc2
            (fun x hx => hv2 x (hpv' x hx)) (hv2 id hidv')
          obtain ⟨hp3, hr3, hc3, hv3⟩ := hres
          exact ⟨hp3, hr3, hc3, fun x hx => hv3 x (hv2 x hx)⟩

/-- `DetectCycles` returns no cycles on an acyclic ticket set. -/
theorem DetectCycles_acyclic (tickets : List Ticket)
    (hA : Acyclic (depsOf tickets)) : DetectCycles tickets = [] := by
  unfold DetectCycles
  suffices h : ∀ (ts : List Ticket) (v : List Str),
      (ts.foldl
        (fun st t => if t.id ∈ st.visited then st
          else dfsDetect tickets (graphFuel tickets) st t.id)
        ⟨v, [], [], []⟩).cycles = [] ∧
      (ts.foldl
        (fun st t => if t.id ∈ st.visited then st
          else dfsDetect tickets (graphFuel tickets) st t.id)
        ⟨v, [], [], []⟩).path = [] ∧
      (ts.foldl
        (fun st t => if t.id ∈ st.visited then st
          else dfsDetect tickets (graphFuel tickets) st t.id)
        ⟨v, [], [], []⟩).recStack = [] by
    exact (h tickets []).1
  intro ts
  induction ts with
  | nil => exact fun v => ⟨rfl, rfl, rfl⟩
  | cons t ts iht =>
    intro v
    rw [List.foldl_cons]
    by_cases htv : t.id ∈ v
    · simp only [if_pos htv]
      exact iht v
    · simp only [if_neg htv]
      obtain ⟨hc, hp, hr, _⟩ := dfsDetect_acyclic tickets hA (graphFuel tickets)
        v [] [] [] t.id List.nodup_nil (by simp) htv rfl
        (by simpa using List.chain'_singleton t.id)
      set r := dfsDetect tickets (graphFuel tickets) ⟨v, [], [], []⟩ t.id with hrdef
      have hform : r = ⟨r.visited, [], [], []⟩ := by
        obtain ⟨rv, rr, rp, rc⟩ := r
        simp only at hc hp hr ⊢
        rw [hc, hp, hr]
      rw [hform]
      exact iht r.visited

/-- `depsOf` on dependency-free tickets is empty. -/
theorem depsOf_exTwoFree (x : Str) : depsOf exTwoFree x = [] := by
  unfold depsOf lookupTicket
  cases hl : (exTwoFree.filter (fun t => t.id = x)).getLast? with
  | none => rfl
  | some t =>
    have ht := List.mem_of_mem_getLast? hl
    have htl := List.mem_of_mem_filter ht
    fin_cases htl <;> rfl

/-- Two dependency-free tickets form an acyclic set. -/
theorem acyclic_exTwoFree : Acyclic (depsOf exTwoFree) := by
  intro x hx
  cases hx with
  | single h =>
    rw [depsOf_exTwoFree] at h
    exact absurd h (List.not_mem_nil _)
  | cons h _ =>
    rw [depsOf_exTwoFree] at h
    exact absurd h (List.not_mem_nil _)

/-- Claim C6: `DetectCycles` on `a → b → c → a` returns exactly one cycle
containing all three ids; on a self-dependent ticket exactly one cycle of
length one; and on any acyclic ticket set the empty list. -/
theorem claim_C6_detect_cycles :
    DetectCycles exCycle3 = [[str "a", str "b", str "c"]] ∧
      DetectCycles exSelfDep = [[str "a"]] ∧
      ∀ tickets : List Ticket, Acyclic (depsOf tickets) → DetectCycles tickets = [] :=
  ⟨by decide, by decide, fun tickets hA => DetectCycles_acyclic tickets hA⟩

/-- Witness for C6: the acyclic part evaluated on a concrete
dependency-free set. -/
theorem claim_C6_witness : DetectCycles exTwoFree = [] :=
  claim_C6_detect_cycles.2.2 exTwoFree acyclic_exTwoFree

/-- Filtering with a weaker predicate keeps at least as many elements. -/
theorem filter_length_le {p q : Str → Bool} (hpq : ∀ x, p x = true → q x = true) :
    ∀ l : List Str, (l.filter p).length ≤ (l.filter q).length := by
  intro l
  induction l with
  | nil => exact Nat.le_refl 0
  | cons x xs ih =>
    simp only [List.filter_cons]
    cases hp : p x with
    | false =>
      cases hq : q x with
      | false => exact ih
      | true => simpa using Nat.le_succ_of_le ih
    | true =>
      rw [hpq x hp]
      simpa using ih

/-- Filtering with a strictly weaker predicate (witnessed at a member of the
list) keeps strictly more elements. -/
theorem filter_length_lt {p q : Str → Bool} (hpq : ∀ x, p x = true → q x = true)
    (x₀ : Str) (hq : q x₀ = true) (hp : p x₀ = false) :
    ∀ l : List Str, x₀ ∈ l → (l.filter p).length < (l.filter q).length := by
  intro l
  induction l with
  | nil => exact fun h => absurd h (List.not_mem_nil _)
  | cons x xs ih =>
    intro hx
    rw [List.mem_cons] at hx
    simp only [List.filter_cons]
    rcases hx with rfl | hx
    · rw [hp, hq]
      simpa using Nat.lt_succ_of_le (filter_length_le hpq xs)
    · cases hpx : p x with
      | false =>
        cases hqx : q x with
        | false => exact ih hx
        | true => simpa using Nat.lt_succ_of_lt (ih hx)
      | true =>
        rw [hpq x hpx]
        simpa using ih hx

/-- From a set closed under the adjacency and avoiding `target`, no path
reaches `target`. -/
theorem no_path_of_closed (adj : Str → List Str) (target : Str) (S : List Str)
    (hcl : ∀ x ∈ S, ∀ y ∈ adj x, y ∈ S ∧ y ≠ target) :
    ∀ x ∈ S, ¬ EdgePath adj x target := by
  have key : ∀ x y, EdgePath adj x y → y = target → x ∈ S → False := by
    intro x y hp
    induction hp with
    | single h => exact fun heq hx => (hcl _ hx _ h).2 heq
    | cons h _ ih => exact fun heq hx => ih heq (hcl _ hx _ h).1
  exact fun x hx hp => key x target hp rfl hx

/-- The `hasCycle` children fold never leaves a `true` accumulator. -/
theorem hasCycleFold_true (adj : Str → List Str) (target : Str) (fuel : Nat) :
    ∀ (ds : List Str) (acc : Bool × List Str), acc.1 = true →
      ds.foldl (fun acc dep => if acc.1 then acc
        else hasCycleF adj target fuel acc.2 dep) acc = acc := by
  intro ds
  induction ds with
  | nil => exact fun acc _ => rfl
  | cons d ds ih =>
    intro acc hacc
    rw [List.foldl_cons, if_pos hacc]
    exact ih acc hacc

/-- If the `hasCycle` search returns `false`, its visited set contains the
start, is confined to the universe, and is closed under the adjacency while
avoiding the target; hence the target is unreachable from any of its
members.  The fuel bound guarantees the search never runs dry. -/
theorem hasCycleF_false_closed (adj : Str → List Str) (target : Str) (U : List Str)
    (hadj : ∀ x y, y ∈ adj x → y ∈ U) :
    ∀ (fuel : Nat) (vis : List Str) (cur : Str),
      cur ∈ U → (∀ x ∈ vis, x ∈ U) →
      (U.filter (fun u => decide (u ∉ vis))).length < fuel →
      (hasCycleF adj target fuel vis cur).1 = false →
      (∀ x ∈ vis, x ∈ (hasCycleF adj target fuel vis cur).2) ∧
        cur ∈ (hasCycleF adj target fuel vis cur).2 ∧
        (∀ x ∈ (hasCycleF adj target fuel vis cur).2, x ∈ U) ∧
        (∀ x ∈ (hasCycleF adj target fuel vis cur).2, x ∉ vis →
          x ≠ target ∧ ∀ y ∈ adj x, y ∈ (hasCycleF adj target fuel vis cur).2 ∧ y ≠ target) := by
  intro fuel
  induction fuel with
  | zero => exact fun vis cur _ _ hfuel => absurd hfuel (by omega)
  | succ fuel ih =>
    intro vis cur hcu hvu hfuel hfalse
    rw [hasCycleF] at hfalse ⊢
    by_cases hct : cur = target
    · rw [if_pos hct] at hfalse
      exact absurd hfalse (by simp)
    · rw [if_neg hct] at hfalse ⊢
      by_cases hcv : cur ∈ vis
      · rw [if_pos hcv] at hfalse ⊢
        refine ⟨fun x h => h, hcv, hvu, ?_⟩
        intro x hx hxv
        exact absurd hx hxv
      · rw [if_neg hcv] at hfalse ⊢
        suffices hfold : ∀ ds : List Str, (∀ d ∈ ds, d ∈ adj cur) →
            ∀ w : List Str,
              (∀ x ∈ vis, x ∈ w) → cur ∈ w → (∀ x ∈ w, x ∈ U) →
              (∀ x ∈ w, x ∉ vis → x ≠ cur →
                x ≠ target ∧ ∀ y ∈ adj x, y ∈ w ∧ y ≠ target) →
              (U.filter (fun u => decide (u ∉ w))).length < fuel →
              (ds.foldl (fun acc dep => if acc.1 then acc
                else hasCycleF adj target fuel acc.2 dep) (false, w)).1 = false →
              (∀ x ∈ w, x ∈ (ds.foldl (fun acc dep => if acc.1 then acc
                else hasCycleF adj target fuel acc.2 dep) (false, w)).2) ∧
              (∀ x ∈ (ds.foldl (fun acc dep => if acc.1 then acc
                else hasCycleF adj target fuel acc.2 dep) (false, w)).2, x ∈ U) ∧
              (∀ x ∈ (ds.foldl (fun acc dep => if acc.1 then acc
                else hasCycleF adj target fuel acc.2 dep) (false, w)).2,
                x ∉ vis → x ≠ cur →
                x ≠ target ∧ ∀ y ∈ adj x, y ∈ (ds.foldl (fun acc dep => if acc.1 then acc
                  else hasCycleF adj target fuel acc.2 dep) (false, w)).2 ∧ y ≠ target) ∧
              (∀ d ∈ ds, d ∈ (ds.foldl (fun acc dep => if acc.1 then acc
                else hasCycleF adj target fuel acc.2 dep) (false, w)).2 ∧ d ≠ target) by
          have hwU : ∀ x ∈ vis ++ [cur], x ∈ U := by
            intro x hx
            rw [List.mem_append] at hx
            rcases hx with hx | hx
            · exact hvu x hx
            · rw [List.mem_singleton] at hx
              exact hx ▸ hcu
          have hmeas : (U.filter (fun u => decide (u ∉ vis ++ [cur]))).length < fuel := by
            have hlt := filter_length_lt (p := fun u => decide (u ∉ vis ++ [cur]))
              (q := fun u => decide (u ∉ vis))
              (by
                intro x hx
                simp only [decide_eq_true_eq, List.mem_append, List.mem_singleton] at hx ⊢
                exact fun hv => hx (Or.inl hv))
              cur (by simpa using hcv) (by simp) U hcu
            omega
          obtain ⟨h1, h2, h3, h4⟩ := hfold (adj cur) (fun d hd => hd) (vis ++ [cur])
            (fun x hx => List.mem_append_left _ hx)
            (List.mem_append_right _ (List.mem_singleton_self cur))
            hwU
            (by
              intro x hx hxv hxc
              rw [List.mem_append, List.mem_singleton] at hx
              rcases hx with hx | hx
              · exact absurd hx hxv
              · exact absurd hx hxc)
            hmeas hfalse
          refine ⟨fun x hx => h1 x (List.mem_append_left _ hx),
            h1 cur (List.mem_append_right _ (List.mem_singleton_self cur)), h2, ?_⟩
          intro x hx hxv
          by_cases hxc : x = cur
          · subst hxc
            refine ⟨hct, ?_⟩
            intro y hy
            exact h4 y hy
          · exact h3 x hx hxv hxc
        intro ds
        induction ds with
        | nil =>
          intro _ w hw1 hw2 hw3 hw4 _ _
          exact ⟨fun x h => h, hw3, fun x hx hxv hxc => hw4 x hx hxv hxc,
            fun d hd => absurd hd (List.not_mem_nil _)⟩
        | cons d ds ihd =>
          intro hds w hw1 hw2 hw3 hw4 hwm hffalse
          have hdadj : d ∈ adj cur := hds d (List.mem_cons_self d ds)
          have hds' : ∀ x ∈ ds, x ∈ adj cur := fun x hx => hds x (List.mem_cons_of_mem d hx)
          rw [List.foldl_cons, if_neg (by simp)] at hffalse ⊢
          by_cases hchild : (hasCycleF adj target fuel w d).1 = true
          · rw [hasCycleFold_true adj target fuel ds _ hchild] at hffalse
            exact absurd hffalse (by simp [hchild])
          · have hchild' : (hasCycleF adj target fuel w d).1 = false :=
              Bool.not_eq_true _ ▸ hchild
            obtain ⟨hc1, hc2, hc3, hc4⟩ := ih w d (hadj cur d hdadj) hw3 hwm hchild'
            have hstate : (hasCycleF adj target fuel w d)
                = (false, (hasCycleF adj target fuel w d).2) := by
              rw [Prod.ext_iff]
              exact ⟨hchild', rfl⟩
            rw [hstate] at hffalse ⊢
            have hdnt : d ≠ target := by
              intro hdt
              subst hdt
              cases fuel with
              | zero => exact absurd hwm (by omega)
              | succ fuel' =>
                rw [hasCycleF, if_pos rfl] at hchild'
                exact absurd hchild' (by simp)
            have hmeas' : (U.filter (fun u => decide
                (u ∉ (hasCycleF adj target fuel w d).2))).length < fuel := by
              have hle := filter_length_le
                (p := fun u => decide (u ∉ (hasCycleF adj target fuel w d).2))
                (q := fun u => decide (u ∉ w))
                (by
                  intro x hx
                  simp only [decide_eq_true_eq] at hx ⊢
                  exact fun hv => hx (hc1 x hv)) U
              omega
            obtain ⟨hr1, hr2, hr3, hr4⟩ := ihd hds' (hasCycleF adj target fuel w d).2
              (fun x hx => hc1 x (hw1 x hx))
              (hc1 cur hw2) hc3
              (by
                intro x hx hxv hxc
                by_cases hxw : x ∈ w
                · obtain ⟨hxt, hych⟩ := hw4 x hxw hxv hxc
                  exact ⟨hxt, fun y hy => ⟨hc1 y (hych y hy).1, (hych y hy).2⟩⟩
                · exact hc4 x hx hxw)
              hmeas' hffalse
            refine ⟨fun x hx => hr1 x (hc1 x hx), hr2, hr3, ?_⟩
            intro e he
            rw [List.mem_cons] at he
            rcases he with rfl | he
            · exact ⟨hr1 e hc2, hdnt⟩
            · exact hr4 e he

/-- Every dependency list of the ticket set sits inside the flattened
dependency universe. -/
theorem depsOf_subset_universe (tickets : List Ticket) (depID x y : Str)
    (hy : y ∈ depsOf tickets x) : y ∈ checkCycleUniverse tickets depID := by
  unfold depsOf at hy
  cases hl : lookupTicket tickets x with
  | none => rw [hl] at hy; exact absurd hy (List.not_mem_nil _)
  | some t =>
    rw [hl] at hy
    have ht : t ∈ tickets := List.mem_of_mem_filter (List.mem_of_mem_getLast? hl)
    refine List.mem_cons_of_mem _ ?_
    rw [List.mem_flatten]
    exact ⟨t.deps, List.mem_map_of_mem (fun t => t.deps) ht, hy⟩

/-- The proposed adjacency stays inside the `checkCycle` universe. -/
theorem proposedAdj_subset_universe (tickets : List Ticket) (a b x y : Str)
    (hy : y ∈ proposedAdj tickets a b x) : y ∈ checkCycleUniverse tickets b := by
  unfold proposedAdj at hy
  by_cases hx : x = a
  · rw [if_pos hx, List.mem_append] at hy
    rcases hy with hy | hy
    · exact depsOf_subset_universe tickets b a y hy
    · rw [List.mem_singleton] at hy
      exact hy ▸ List.mem_cons_self _ _
  · rw [if_neg hx] at hy
    exact depsOf_subset_universe tickets b x y hy

/-- Completeness of `checkCycle`: if the would-be dependent is reachable
from the proposed dependency over the proposed edge set, the search detects
it. -/
theorem checkCycle_complete (tickets : List Ticket) (a b : Str)
    (hreach : Reaches (proposedAdj tickets a b) b a) :
    checkCycle tickets a b = true := by
  by_contra hfalse
  rw [Bool.not_eq_true] at hfalse
  unfold checkCycle at hfalse
  set adj := proposedAdj tickets a b with hadjdef
  set U := checkCycleUniverse tickets b with hUdef
  have hadj : ∀ x y, y ∈ adj x → y ∈ U :=
    fun x y hy => proposedAdj_subset_universe tickets a b x y hy
  have hbU : b ∈ U := List.mem_cons_self _ _
  have hmeas : (U.filter (fun u => decide (u ∉ ([] : List Str)))).length
      < graphFuel tickets := by
    have hlen : U.length = (tickets.map (fun t => t.deps)).flatten.length + 1 := by
      rw [hUdef]
      rfl
    have hflat : (tickets.map (fun t => t.deps)).flatten.length
        = (tickets.map (fun t => t.deps.length)).sum := by
      rw [List.length_flatten, List.map_map]
      rfl
    have hfil : (U.filter (fun u => decide (u ∉ ([] : List Str)))).length ≤ U.length :=
      List.length_filter_le _ _
    unfold graphFuel
    omega
  obtain ⟨h1, h2, h3, h4⟩ := hasCycleF_false_closed adj a U hadj
    (graphFuel tickets) [] b hbU (by simp) hmeas hfalse
  set S := (hasCycleF adj a (graphFuel tickets) [] b).2 with hSdef
  have hclosed : ∀ x ∈ S, ∀ y ∈ adj x, y ∈ S ∧ y ≠ a := by
    intro x hx y hy
    exact (h4 x hx (List.not_mem_nil _) ).2 y hy
  rcases hreach with rfl | hpath
  · exact ((h4 b h2 (List.not_mem_nil _)).1) rfl
  · exact no_path_of_closed adj a S hclosed b h2 hpath

/-- Claim C7: after the command's own validations (the ids differ, the
ticket exists, the dependency is not already present), if the dependent is
reachable from the proposed dependency over the existing edges plus the
candidate edge, `dep add` fails with the cycle error and returns before any
dependency list is modified or persisted. -/
theorem claim_C7_cycle_precheck (tickets : List Ticket) (a b : Str) (t : Ticket)
    (hne : a ≠ b) (hlk : lookupTicket tickets a = some t) (hdup : b ∉ t.deps)
    (hreach : Reaches (proposedAdj tickets a b) b a) :
    depAdd tickets a b = .cycleError := by
  unfold depAdd
  rw [if_neg hne, hlk]
  simp only [if_neg hdup, checkCycle_complete tickets a b hreach, if_true]

/-- Witness for C7: with `b` already depending on `a`, adding `a depends on
b` is rejected with the cycle error. -/
theorem claim_C7_witness :
    depAdd exPair (str "a") (str "b") = .cycleError :=
  claim_C7_cycle_precheck exPair (str "a") (str "b")
    { id := str "a", status := StatusOpen }
    (by decide) (by decide) (by decide)
    (Or.inr (.single (by decide)))

/-- Reading a cons cell of the association list. -/
theorem alGet_cons (k0 : Str) (v0 : Int) (rest : List (Str × Int)) (k : Str) :
    alGet ((k0, v0) :: rest) k = if k0 = k then some v0 else alGet rest k := by
  by_cases h : k0 = k
  · rw [if_pos h]
    simp [alGet, List.find?_cons_of_pos, h]
  · rw [if_neg h]
    unfold alGet
    rw [List.find?_cons_of_neg]
    simpa using h

theorem keysOf_cons (k0 : Str) (v0 : Int) (rest : List (Str × Int)) :
    keysOf ((k0, v0) :: rest) = k0 :: keysOf rest := rfl

theorem alGet_alSet_ne : ∀ (m : List (Str × Int)) (k k' : Str) (v : Int),
    k' ≠ k → alGet (alSet m k v) k' = alGet m k'
  | [], k, k', v, h => by
    simp only [alSet]
    rw [alGet_cons, if_neg (fun hh => h hh.symm)]
  | (k0, v0) :: rest, k, k', v, h => by
    by_cases h0 : k0 = k
    · subst h0
      simp only [alSet, if_true]
      rw [alGet_cons, alGet_cons]
      rw [if_neg (fun hh => h hh.symm), if_neg (fun hh => h hh.symm)]
    · simp only [alSet, if_neg h0]
      rw [alGet_cons, alGet_cons]
      by_cases hk : k0 = k'
      · rw [if_pos hk, if_pos hk]
      · rw [if_neg hk, if_neg hk]
        exact alGet_alSet_ne rest k k' v h

theorem keysOf_alSet_mem : ∀ (m : List (Str × Int)) (k : Str) (v : Int),
    k ∈ keysOf m → keysOf (alSet m k v) = keysOf m
  | [], k, v, h => absurd h (List.not_mem_nil _)
  | (k0, v0) :: rest, k, v, h => by
    by_cases h0 : k0 = k
    · simp [alSet, h0, keysOf]
    · rw [keysOf_cons, List.mem_cons] at h
      simp only [alSet, if_neg h0]
      rw [keysOf_cons, keysOf_cons]
      rcases h with h | h
      · exact absurd h.symm h0
      · rw [keysOf_alSet_mem rest k v h]

theorem keysOf_alSet_not_mem : ∀ (m : List (Str × Int)) (k : Str) (v : Int),
    k ∉ keysOf m → keysOf (alSet m k v) = keysOf m ++ [k]
  | [], k, v, _ => rfl
  | (k0, v0) :: rest, k, v, h => by
    have h0 : k0 ≠ k := by
      intro hh
      exact h (hh ▸ List.mem_cons_self _ _)
    have hrest : k ∉ keysOf rest := by
      intro hh
      rw [keysOf_cons] at h
      exact h (List.mem_cons_of_mem _ hh)
    simp only [alSet, if_neg h0]
    rw [keysOf_cons, keysOf_cons, keysOf_alSet_not_mem rest k v hrest]
    rfl

/-- Reading back the key just written. -/
theorem alGet_alSet_self : ∀ (m : List (Str × Int)) (k : Str) (v : Int),
    alGet (alSet m k v) k = some v
  | [], k, v => by simp [alSet, alGet_cons]
  | (k', v') :: rest, k, v => by
    by_cases h : k' = k
    · simp [alSet, h, alGet_cons]
    · simp only [alSet, if_neg h]
      rw [alGet_cons, if_neg h]
      exact alGet_alSet_self rest k v

/-- A key is readable exactly when present. -/
theorem alGet_isSome_iff : ∀ (m : List (Str × Int)) (k : Str),
    (alGet m k).isSome = true ↔ k ∈ keysOf m
  | [], k => by simp [alGet, keysOf, List.find?]
  | (k0, v0) :: rest, k => by
    rw [alGet_cons]
    by_cases h0 : k0 = k
    · rw [if_pos h0]
      simp [keysOf, h0]
    · rw [if_neg h0]
      rw [alGet_isSome_iff rest k]
      simp [keysOf, h0, Ne.symm h0]

/-- `alSet` keeps the key list duplicate-free. -/
theorem keysOf_alSet_nodup (m : List (Str × Int)) (k : Str) (v : Int)
    (h : (keysOf m).Nodup) : (keysOf (alSet m k v)).Nodup := by
  by_cases hm : k ∈ keysOf m
  · rw [keysOf_alSet_mem m k v hm]
    exact h
  · rw [keysOf_alSet_not_mem m k v hm]
    rw [List.nodup_append]
    exact ⟨h, List.nodup_singleton k, by simpa using hm⟩

/-- The per-ticket registration fold of `buildInDegree`: the ticket's entry
gains one per dependency occurrence, and each unseen dependency target is
registered with degree zero. -/
theorem buildInner : ∀ (deps : List Str) (m : List (Str × Int)) (k : Str) (v : Int),
    alGet m k = some v →
    alGet (deps.foldl (fun m2 dep =>
        let m3 := alSet m2 k ((alGet m2 k).getD 0 + 1)
        if (alGet m3 dep).isNone then alSet m3 dep 0 else m3) m) k
      = some (v + deps.length) ∧
    (∀ k', k' ≠ k → alGet (deps.foldl (fun m2 dep =>
        let m3 := alSet m2 k ((alGet m2 k).getD 0 + 1)
        if (alGet m3 dep).isNone then alSet m3 dep 0 else m3) m) k'
      = match alGet m k' with
        | some w => some w
        | none => if k' ∈ deps then some 0 else none) ∧
    ((keysOf m).Nodup → (keysOf (deps.foldl (fun m2 dep =>
        let m3 := alSet m2 k ((alGet m2 k).getD 0 + 1)
        if (alGet m3 dep).isNone then alSet m3 dep 0 else m3) m)).Nodup)
  | [], m, k, v, hv => by
    refine ⟨by simpa using hv, ?_, fun h => h⟩
    intro k' _
    cases halt : alGet m k' <;> simp [halt]
  | d :: ds, m, k, v, hv => by
    have hgetd : (alGet m k).getD 0 = v := by rw [hv]; rfl
    set ma := alSet m k (v + 1) with hma
    have hmak : alGet ma k = some (v + 1) := alGet_alSet_self m k (v + 1)
    set mb := if (alGet ma d).isNone then alSet ma d 0 else ma with hmb
    have hmbk : alGet mb k = some (v + 1) := by
      rw [hmb]
      by_cases hreg : (alGet ma d).isNone
      · rw [if_pos hreg]
        by_cases hdk : d = k
        · subst hdk
          rw [hmak] at hreg
          exact absurd hreg (by simp)
        · rw [alGet_alSet_ne ma d k 0 (fun hh => hdk hh.symm)]
          exact hmak
      · rw [if_neg hreg]
        exact hmak
    have hstep : (let m3 := alSet m k ((alGet m k).getD 0 + 1)
        if (alGet m3 d).isNone then alSet m3 d 0 else m3) = mb := by
      simp only [hgetd, hma, hmb]
    obtain ⟨ih1, ih2, ih3⟩ := buildInner ds mb k (v + 1) hmbk
    rw [List.foldl_cons]
    rw [hstep]
    refine ⟨by rw [ih1]; congr 1; simp only [List.length_cons]; push_cast; ring, ?_, ?_⟩
    · intro k' hk'
      rw [ih2 k' hk']
      have hmb' : alGet mb k' = match alGet m k' with
          | some w => some w
          | none => if k' = d then some 0 else none := by
        by_cases hk'd : k' = d
        · subst hk'd
          rw [hmb]
          have hma' : alGet ma k' = alGet m k' := alGet_alSet_ne m k k' (v + 1) hk'
          by_cases hreg : (alGet ma k').isNone
          · rw [if_pos hreg]
            rw [hma'] at hreg
            rw [alGet_alSet_self]
            cases halt : alGet m k' with
            | none => simp
            | some w => rw [halt] at hreg; exact absurd hreg (by simp)
          · rw [if_neg hreg]
            rw [hma'] at hreg ⊢
            cases halt : alGet m k' with
            | none => rw [halt] at hreg; simp at hreg
            | some w => simp
        · rw [hmb]
          have hma' : alGet ma k' = alGet m k' := alGet_alSet_ne m k k' (v + 1) hk'
          by_cases hreg : (alGet ma d).isNone
          · rw [if_pos hreg, alGet_alSet_ne ma d k' 0 hk'd, hma']
            cases halt : alGet m k' with
            | none => simp [hk'd]
            | some w => simp
          · rw [if_neg hreg, hma']
            cases halt : alGet m k' with
            | none => simp [hk'd]
            | some w => simp
      rw [hmb']
      cases halt : alGet m k' with
      | some w => simp
      | none =>
        by_cases hk'd : k' = d
        · simp [hk'd]
        · simp [hk'd, List.mem_cons]
    · intro hnd
      refine ih3 ?_
      rw [hmb]
      have hnda : (keysOf ma).Nodup := keysOf_alSet_nodup m k (v + 1) hnd
      by_cases hreg : (alGet ma d).isNone
      · rw [if_pos hreg]
        exact keysOf_alSet_nodup ma d 0 hnda
      · rw [if_neg hreg]
        exact hnda

/-- An id absent from the set has no ticket. -/
theorem lookupTicket_eq_none (l : List Ticket) (k : Str)
    (h : k ∉ ticketIDs l) : lookupTicket l k = none := by
  unfold lookupTicket
  have h1 : l.filter (fun u => decide (u.id = k)) = [] := by
    rw [List.filter_eq_nil]
    intro u hu
    simp only [decide_eq_true_eq]
    exact fun he => h (he ▸ List.mem_map_of_mem Ticket.id hu)
  rw [h1]
  rfl

/-- Appending a fresh ticket makes it the lookup result for its id. -/
theorem lookupTicket_append_self (done : List Ticket) (t : Ticket)
    (h : t.id ∉ ticketIDs done) : lookupTicket (done ++ [t]) t.id = some t := by
  unfold lookupTicket
  rw [List.filter_append]
  have h1 : done.filter (fun u => decide (u.id = t.id)) = [] := by
    rw [List.filter_eq_nil]
    intro u hu
    simp only [decide_eq_true_eq]
    exact fun he => h (he ▸ List.mem_map_of_mem Ticket.id hu)
  rw [h1, List.nil_append]
  simp [List.filter]

/-- Appending a ticket does not change other ids' lookups. -/
theorem lookupTicket_append_ne (done : List Ticket) (t : Ticket) (k : Str)
    (h : k ≠ t.id) : lookupTicket (done ++ [t]) k = lookupTicket done k := by
  unfold lookupTicket
  rw [List.filter_append]
  have h1 : [t].filter (fun u => decide (u.id = k)) = [] := by
    have : decide (t.id = k) = false := by
      simp only [decide_eq_false_iff_not]
      exact fun he => h he.symm
    simp [List.filter, this]
  rw [h1, List.append_nil]

/-- `depsOf` after appending a fresh ticket, at its id. -/
theorem depsOf_append_self (done : List Ticket) (t : Ticket)
    (h : t.id ∉ ticketIDs done) : depsOf (done ++ [t]) t.id = t.deps := by
  unfold depsOf
  rw [lookupTicket_append_self done t h]

/-- `depsOf` after appending a ticket, at other ids. -/
theorem depsOf_append_ne (done : List Ticket) (t : Ticket) (k : Str)
    (h : k ≠ t.id) : depsOf (done ++ [t]) k = depsOf done k := by
  unfold depsOf
  rw [lookupTicket_append_ne done t k h]

/-- `depsOf` of a non-ticket id is empty. -/
theorem depsOf_eq_nil (l : List Ticket) (k : Str) (h : k ∉ ticketIDs l) :
    depsOf l k = [] := by
  unfold depsOf
  rw [lookupTicket_eq_none l k h]

/-- The degree map built over `done ++ ts` extends the one over `done`:
every ticket id or dependency target carries its in-degree, everything else
is absent, and the keys stay duplicate-free. -/
theorem build_loop : ∀ (ts done : List Ticket) (m : List (Str × Int)),
    (ticketIDs (done ++ ts)).Nodup →
    (∀ k, (k ∈ ticketIDs done ∨ ∃ t ∈ done, k ∈ t.deps) →
      alGet m k = some ((degSpec done k : Int))) →
    (∀ k, ¬(k ∈ ticketIDs done ∨ ∃ t ∈ done, k ∈ t.deps) → alGet m k = none) →
    (keysOf m).Nodup →
    (∀ k, (k ∈ ticketIDs (done ++ ts) ∨ ∃ t ∈ done ++ ts, k ∈ t.deps) →
      alGet (ts.foldl
        (fun m t =>
          let m1 := if (alGet m t.id).isNone then alSet m t.id 0 else m
          t.deps.foldl
            (fun m2 dep =>
              let m3 := alSet m2 t.id ((alGet m2 t.id).getD 0 + 1)
              if (alGet m3 dep).isNone then alSet m3 dep 0 else m3)
            m1) m) k = some ((degSpec (done ++ ts) k : Int))) ∧
    (∀ k, ¬(k ∈ ticketIDs (done ++ ts) ∨ ∃ t ∈ done ++ ts, k ∈ t.deps) →
      alGet (ts.foldl
        (fun m t =>
          let m1 := if (alGet m t.id).isNone then alSet m t.id 0 else m
          t.deps.foldl
            (fun m2 dep =>
              let m3 := alSet m2 t.id ((alGet m2 t.id).getD 0 + 1)
              if (alGet m3 dep).isNone then alSet m3 dep 0 else m3)
            m1) m) k = none) ∧
    (keysOf (ts.foldl
        (fun m t =>
          let m1 := if (alGet m t.id).isNone then alSet m t.id 0 else m
          t.deps.foldl
            (fun m2 dep =>
              let m3 := alSet m2 t.id ((alGet m2 t.id).getD 0 + 1)
              if (alGet m3 dep).isNone then alSet m3 dep 0 else m3)
            m1) m)).Nodup
  | [], done, m, hnd, h1, h2, h3 => by
    rw [List.append_nil] at hnd ⊢
    exact ⟨h1, h2, h3⟩
  | t :: ts, done, m, hnd, h1, h2, h3 => by
    have hassoc : done ++ t :: ts = (done ++ [t]) ++ ts := by
      rw [List.append_assoc]
      rfl
    have htid : t.id ∉ ticketIDs done := by
      unfold ticketIDs at hnd ⊢
      rw [List.map_append, List.map_cons, List.nodup_append] at hnd
      intro hmem
      exact hnd.2.2 hmem (List.mem_cons_self _ _)
    have hm1 : ∃ m1, (if (alGet m t.id).isNone then alSet m t.id 0 else m) = m1 ∧
        alGet m1 t.id = some 0 ∧ (∀ k', k' ≠ t.id → alGet m1 k' = alGet m k') ∧
        (keysOf m1).Nodup := by
      by_cases hcov : t.id ∈ ticketIDs done ∨ ∃ u ∈ done, t.id ∈ u.deps
      · have hval := h1 t.id hcov
        have hdeg : degSpec done t.id = 0 := by
          unfold degSpec
          rw [depsOf_eq_nil done t.id htid]
          rfl
        rw [hdeg] at hval
        refine ⟨m, ?_, by exact_mod_cast hval, fun k' _ => rfl, h3⟩
        have hisnone : (alGet m t.id).isNone = false := by
          rw [hval]
          rfl
        rw [hisnone]
        simp
      · have hval := h2 t.id hcov
        refine ⟨alSet m t.id 0, ?_, alGet_alSet_self m t.id 0,
          fun k' hk' => alGet_alSet_ne m t.id k' 0 hk', keysOf_alSet_nodup m t.id 0 h3⟩
        have hisnone : (alGet m t.id).isNone = true := by
          rw [hval]
          rfl
        rw [hisnone]
        simp
    obtain ⟨m1, hm1eq, hm1self, hm1ne, hm1nd⟩ := hm1
    obtain ⟨hin1, hin2, hin3⟩ := buildInner t.deps m1 t.id 0 hm1self
    rw [List.foldl_cons]
    have hstep : (let m1 := if (alGet m t.id).isNone then alSet m t.id 0 else m
        t.deps.foldl
          (fun m2 dep =>
            let m3 := alSet m2 t.id ((alGet m2 t.id).getD 0 + 1)
            if (alGet m3 dep).isNone then alSet m3 dep 0 else m3)
          m1)
        = t.deps.foldl
          (fun m2 dep =>
            let m3 := alSet m2 t.id ((alGet m2 t.id).getD 0 + 1)
            if (alGet m3 dep).isNone then alSet m3 dep 0 else m3)
          m1 := by
      rw [hm1eq]
    rw [hstep]
    have hnd' : (ticketIDs ((done ++ [t]) ++ ts)).Nodup := by
      rw [← hassoc]
      exact hnd
    have h1' : ∀ k, (k ∈ ticketIDs (done ++ [t]) ∨ ∃ u ∈ done ++ [t], k ∈ u.deps) →
        alGet (t.deps.foldl
          (fun m2 dep =>
            let m3 := alSet m2 t.id ((alGet m2 t.id).getD 0 + 1)
            if (alGet m3 dep).isNone then alSet m3 dep 0 else m3)
          m1) k = some ((degSpec (done ++ [t]) k : Int)) := by
      intro k hk
      by_cases hkt : k = t.id
      · subst hkt
        rw [hin1]
        unfold degSpec
        rw [depsOf_append_self done t htid]
        norm_num
      · rw [hin2 k hkt]
        rw [hm1ne k hkt]
        have hdeg' : degSpec (done ++ [t]) k = degSpec done k := by
          unfold degSpec
          rw [depsOf_append_ne done t k hkt]
        rw [hdeg']
        by_cases hcov : k ∈ ticketIDs done ∨ ∃ u ∈ done, k ∈ u.deps
        · rw [h1 k hcov]
        · rw [h2 k hcov]
          have hkdep : k ∈ t.deps := by
            rcases hk with hk | hk
            · unfold ticketIDs at hk
              rw [List.map_append, List.mem_append] at hk
              rcases hk with hk | hk
              · exact absurd (Or.inl hk) hcov
              · simp only [List.map_cons, List.map_nil, List.mem_singleton] at hk
                exact absurd hk hkt
            · obtain ⟨u, hu, hku⟩ := hk
              rw [List.mem_append] at hu
              rcases hu with hu | hu
              · exact absurd (Or.inr ⟨u, hu, hku⟩) hcov
              · rw [List.mem_singleton] at hu
                exact hu ▸ hku
          rw [if_pos hkdep]
          have hdeg0 : degSpec done k = 0 := by
            unfold degSpec
            rw [depsOf_eq_nil done k ?_]
            · rfl
            · intro hk'
              exact hcov (Or.inl hk')
          rw [hdeg0]
          rfl
    have h2' : ∀ k, ¬(k ∈ ticketIDs (done ++ [t]) ∨ ∃ u ∈ done ++ [t], k ∈ u.deps) →
        alGet (t.deps.foldl
          (fun m2 dep =>
            let m3 := alSet m2 t.id ((alGet m2 t.id).getD 0 + 1)
            if (alGet m3 dep).isNone then alSet m3 dep 0 else m3)
          m1) k = none := by
      intro k hk
      have hkt : k ≠ t.id := by
        intro hh
        refine hk (Or.inl ?_)
        unfold ticketIDs
        rw [List.map_append, List.mem_append]
        exact Or.inr (by simp [hh])
      rw [hin2 k hkt]
      rw [hm1ne k hkt]
      have hcov : ¬(k ∈ ticketIDs done ∨ ∃ u ∈ done, k ∈ u.deps) := by
        intro hc
        rcases hc with hc | hc
        · exact hk (Or.inl (by
            unfold ticketIDs at hc ⊢
            rw [List.map_append, List.mem_append]
            exact Or.inl hc))
        · obtain ⟨u, hu, hku⟩ := hc
          exact hk (Or.inr ⟨u, List.mem_append_left _ hu, hku⟩)
      rw [h2 k hcov]
      have hkdep : k ∉ t.deps := by
        intro hh
        exact hk (Or.inr ⟨t, List.mem_append_right _ (by simp), hh⟩)
      rw [if_neg hkdep]
    have hres := build_loop ts (done ++ [t]) _ hnd' h1' h2' (hin3 hm1nd)
    rw [← hassoc] at hres
    exact hres

/-- The in-degree map of `TopologicalSort`: every ticket id or dependency
target is present with its in-degree (its own dependency count, with
multiplicity), everything else is absent, and the keys are
duplicate-free. -/
theorem buildInDegree_spec (tickets : List Ticket)
    (hnd : (ticketIDs tickets).Nodup) :
    (∀ k, (k ∈ ticketIDs tickets ∨ ∃ t ∈ tickets, k ∈ t.deps) →
      alGet (buildInDegree tickets) k = some ((degSpec tickets k : Int))) ∧
    (∀ k, ¬(k ∈ ticketIDs tickets ∨ ∃ t ∈ tickets, k ∈ t.deps) →
      alGet (buildInDegree tickets) k = none) ∧
    (keysOf (buildInDegree tickets)).Nodup := by
  have h := build_loop tickets [] []
    (by simpa using hnd)
    (by
      intro k hk
      rcases hk with hk | ⟨u, hu, _⟩
      · exact absurd hk (List.not_mem_nil _)
      · exact absurd hu (List.not_mem_nil _))
    (fun k _ => rfl)
    List.nodup_nil
  rw [List.nil_append] at h
  exact h

/-- Membership in the in-degree map's keys. -/
theorem mem_keys_buildInDegree (tickets : List Ticket)
    (hnd : (ticketIDs tickets).Nodup) (k : Str) :
    k ∈ keysOf (buildInDegree tickets) ↔
      (k ∈ ticketIDs tickets ∨ ∃ t ∈ tickets, k ∈ t.deps) := by
  obtain ⟨h1, h2, _⟩ := buildInDegree_spec tickets hnd
  rw [← alGet_isSome_iff]
  constructor
  · intro hs
    by_contra hcov
    rw [h2 k hcov] at hs
    exact absurd hs (by simp)
  · intro hcov
    rw [h1 k hcov]
    rfl

/-- Rewriting a key with its current value is the identity. -/
theorem alSet_same : ∀ (m : List (Str × Int)) (k : Str) (v : Int),
    alGet m k = some v → alSet m k v = m
  | [], k, v, h => by simp [alGet, List.find?] at h
  | (k0, v0) :: rest, k, v, h => by
    rw [alGet_cons] at h
    by_cases h0 : k0 = k
    · rw [if_pos h0] at h
      obtain rfl : v0 = v := by injection h
      rw [alSet, if_pos h0, h0]
    · rw [if_neg h0] at h
      rw [alSet, if_neg h0, alSet_same rest k v h]

/-- The last write to a key wins. -/
theorem alSet_alSet : ∀ (m : List (Str × Int)) (k : Str) (a b : Int),
    alSet (alSet m k a) k b = alSet m k b
  | [], k, a, b => by simp [alSet]
  | (k0, v0) :: rest, k, a, b => by
    by_cases h0 : k0 = k
    · simp [alSet, h0]
    · simp only [alSet, if_neg h0]
      rw [alSet_alSet rest k a b]

/-- A ticket in front of the list is its own id's lookup when the id is
fresh further down. -/
theorem lookupTicket_cons_self (t : Ticket) (ts : List Ticket)
    (h : t.id ∉ ticketIDs ts) : lookupTicket (t :: ts) t.id = some t := by
  unfold lookupTicket
  rw [List.filter_cons]
  have hfil : ts.filter (fun u => decide (u.id = t.id)) = [] := by
    rw [List.filter_eq_nil]
    intro u hu
    simp only [decide_eq_true_eq]
    exact fun he => h (he ▸ List.mem_map_of_mem Ticket.id hu)
  rw [if_pos (by simp), hfil]
  rfl

/-- Lookup skips a leading ticket with a different id. -/
theorem lookupTicket_cons_ne (t : Ticket) (ts : List Ticket) (k : Str)
    (h : k ≠ t.id) : lookupTicket (t :: ts) k = lookupTicket ts k := by
  unfold lookupTicket
  rw [List.filter_cons, if_neg (by simpa using fun he : t.id = k => h he.symm)]

/-- The per-ticket inner loop of `kahnDec`: the ticket's entry drops by the
number of occurrences of the dequeued tid, and the ticket is enqueued
exactly when the drop crosses to zero. -/
theorem kahnDecInner : ∀ (deps : List Str) (tid k : Str) (m : List (Str × Int))
    (q : List Str) (v : Int), alGet m k = some v →
    (deps.foldl (fun acc2 dep =>
        if dep = tid then
          let d := (alGet acc2.1 k).getD 0 - 1
          let m' := alSet acc2.1 k d
          if d = 0 then (m', acc2.2 ++ [k]) else (m', acc2.2)
        else acc2) (m, q))
      = (alSet m k (v - deps.count tid),
         q ++ if 1 ≤ v ∧ v ≤ (deps.count tid : Int) then [k] else [])
  | [], tid, k, m, q, v, hv => by
    have hc : ([] : List Str).count tid = 0 := rfl
    rw [hc]
    have : ¬(1 ≤ v ∧ v ≤ ((0 : Nat) : Int)) := by
      intro ⟨h1, h2⟩
      omega
    rw [if_neg this]
    simp only [List.foldl_nil, List.append_nil]
    rw [show v - ((0 : Nat) : Int) = v by omega, alSet_same m k v hv]
  | d :: ds, tid, k, m, q, v, hv => by
    rw [List.foldl_cons]
    by_cases hd : d = tid
    · subst hd
      have hgetd : (alGet m k).getD 0 = v := by rw [hv]; rfl
      have hcount : (d :: ds).count d = ds.count d + 1 := by
        simp [List.count_cons]
      by_cases hv1 : v - 1 = 0
      · have hstep : (if d = d then
            (let dd := (alGet m k).getD 0 - 1
             let m' := alSet m k dd
             if dd = 0 then (m', q ++ [k]) else (m', q))
            else (m, q))
            = (alSet m k (v - 1), q ++ [k]) := by
          rw [if_pos rfl]
          simp only [hgetd]
          rw [if_pos hv1]
        rw [hstep]
        rw [kahnDecInner ds d k (alSet m k (v - 1)) (q ++ [k]) (v - 1)
          (alGet_alSet_self m k (v - 1))]
        rw [alSet_alSet]
        have hval : v - 1 - (ds.count d : Int) = v - ((d :: ds).count d : Int) := by
          rw [hcount]
          push_cast
          ring
        rw [hval]
        have hpush1 : ¬(1 ≤ v - 1 ∧ v - 1 ≤ (ds.count d : Int)) := by
          intro ⟨ha, _⟩
          omega
        rw [if_neg hpush1]
        have hpush2 : 1 ≤ v ∧ v ≤ (((d :: ds).count d : Nat) : Int) := by
          rw [hcount]
          push_cast
          omega
        rw [if_pos hpush2, List.append_nil]
      · have hstep : (if d = d then
            (let dd := (alGet m k).getD 0 - 1
             let m' := alSet m k dd
             if dd = 0 then (m', q ++ [k]) else (m', q))
            else (m, q))
            = (alSet m k (v - 1), q) := by
          rw [if_pos rfl]
          simp only [hgetd]
          rw [if_neg hv1]
        rw [hstep]
        rw [kahnDecInner ds d k (alSet m k (v - 1)) q (v - 1)
          (alGet_alSet_self m k (v - 1))]
        rw [alSet_alSet]
        have hval : v - 1 - (ds.count d : Int) = v - ((d :: ds).count d : Int) := by
          rw [hcount]
          push_cast
          ring
        rw [hval]
        have hiff : (1 ≤ v - 1 ∧ v - 1 ≤ (ds.count d : Int))
            ↔ (1 ≤ v ∧ v ≤ (((d :: ds).count d : Nat) : Int)) := by
          rw [hcount]
          push_cast
          omega
        by_cases hc : 1 ≤ v - 1 ∧ v - 1 ≤ (ds.count d : Int)
        · rw [if_pos hc, if_pos (hiff.mp hc)]
        · rw [if_neg hc, if_neg (fun hh => hc (hiff.mpr hh))]
    · have hstep : (if d = tid then
          (let dd := (alGet m k).getD 0 - 1
           let m' := alSet m k dd
           if dd = 0 then (m', q ++ [k]) else (m', q))
          else (m, q))
          = (m, q) := if_neg hd
      rw [hstep]
      rw [kahnDecInner ds tid k m q v hv]
      have hcount : (d :: ds).count tid = ds.count tid := by
        simp [List.count_cons, hd]
      rw [hcount]

/-- Adjacency of a fresh leading ticket is its own deps. -/
theorem depsOf_cons_self (t : Ticket) (ts : List Ticket)
    (h : t.id ∉ ticketIDs ts) : depsOf (t :: ts) t.id = t.deps := by
  unfold depsOf
  rw [lookupTicket_cons_self t ts h]

/-- Adjacency skips a leading ticket with a different id. -/
theorem depsOf_cons_ne (t : Ticket) (ts : List Ticket) (k : Str)
    (h : k ≠ t.id) : depsOf (t :: ts) k = depsOf ts k := by
  unfold depsOf
  rw [lookupTicket_cons_ne t ts k h]

/-- Characterization of `kahnDec`: every present key's value drops by the
number of times the dequeued id occurs in that key's deps, absent keys stay
absent, and the ids appended to the queue are exactly (in list order) the
tickets whose value crosses to a nonpositive one. -/
theorem kahnDec_spec : ∀ (ts : List Ticket) (tid : Str) (m : List (Str × Int))
    (q : List Str), (∀ t ∈ ts, ∃ v, alGet m t.id = some v) →
    (ticketIDs ts).Nodup →
    (∀ k, alGet (kahnDec ts tid (m, q)).1 k
        = Option.map (fun v => v - ((depsOf ts k).count tid : Int)) (alGet m k)) ∧
    (kahnDec ts tid (m, q)).2 = q ++ (ts.filter (fun t =>
        decide (1 ≤ (alGet m t.id).getD 0 ∧
          (alGet m t.id).getD 0 ≤ (t.deps.count tid : Int)))).map Ticket.id
  | [], tid, m, q, _, _ => by
    have hred : kahnDec [] tid (m, q) = (m, q) := rfl
    constructor
    · intro k
      have hdep : depsOf ([] : List Ticket) k = [] := rfl
      rw [hred, hdep]
      cases halg : alGet m k with
      | none => rfl
      | some v =>
        simp
    · rw [hred]
      simp
  | t :: ts, tid, m, q, hsome, hnd => by
    obtain ⟨v, hv⟩ := hsome t (List.mem_cons_self t ts)
    have hndt : t.id ∉ ticketIDs ts := by
      simpa [ticketIDs] using (List.nodup_cons.mp hnd).1
    have hndts : (ticketIDs ts).Nodup := by
      simpa [ticketIDs] using (List.nodup_cons.mp hnd).2
    have hstep : kahnDec (t :: ts) tid (m, q)
        = kahnDec ts tid (alSet m t.id (v - t.deps.count tid),
            q ++ if 1 ≤ v ∧ v ≤ (t.deps.count tid : Int) then [t.id] else []) := by
      show kahnDec ts tid (t.deps.foldl _ (m, q)) = _
      rw [kahnDecInner t.deps tid t.id m q v hv]
    set m1 := alSet m t.id (v - t.deps.count tid) with hm1
    set q1 := q ++ if 1 ≤ v ∧ v ≤ (t.deps.count tid : Int) then [t.id] else []
      with hq1
    have hsome1 : ∀ u ∈ ts, ∃ w, alGet m1 u.id = some w := by
      intro u hu
      obtain ⟨w, hw⟩ := hsome u (List.mem_cons_of_mem t hu)
      refine ⟨w, ?_⟩
      rw [hm1, alGet_alSet_ne]
      · exact hw
      · exact fun he => hndt (he ▸ List.mem_map_of_mem Ticket.id hu)
    obtain ⟨ih1, ih2⟩ := kahnDec_spec ts tid m1 q1 hsome1 hndts
    rw [hstep]
    constructor
    · intro k
      rw [ih1 k]
      by_cases hk : k = t.id
      · rw [hk, hm1, alGet_alSet_self, hv]
        have hd1 : depsOf ts t.id = [] := by
          unfold depsOf
          have hnone : lookupTicket ts t.id = none := by
            unfold lookupTicket
            rw [List.filter_eq_nil_iff.mpr, List.getLast?_nil]
            intro u hu
            simp only [decide_eq_true_eq]
            exact fun he => hndt (he ▸ List.mem_map_of_mem Ticket.id hu)
          rw [hnone]
        rw [hd1, depsOf_cons_self t ts hndt]
        simp
      · rw [hm1, alGet_alSet_ne m t.id k _ hk,
          depsOf_cons_ne t ts k hk]
    · rw [ih2, hq1]
      have hfc : ts.filter (fun u =>
            decide (1 ≤ (alGet m1 u.id).getD 0 ∧
              (alGet m1 u.id).getD 0 ≤ (u.deps.count tid : Int)))
          = ts.filter (fun u =>
            decide (1 ≤ (alGet m u.id).getD 0 ∧
              (alGet m u.id).getD 0 ≤ (u.deps.count tid : Int))) := by
        apply List.filter_congr
        intro u hu
        rw [hm1, alGet_alSet_ne]
        exact fun he => hndt (he ▸ List.mem_map_of_mem Ticket.id hu)
      rw [hfc, List.filter_cons]
      have hgd : (alGet m t.id).getD 0 = v := by rw [hv]; rfl
      by_cases hcond : 1 ≤ v ∧ v ≤ (t.deps.count tid : Int)
      · rw [if_pos hcond, if_pos (by simpa [hgd] using hcond)]
        simp [List.append_assoc]
      · rw [if_neg hcond, if_neg (by simpa [hgd] using hcond)]
        simp

/-- Coverage never exceeds the in-degree. -/
theorem covSpec_le_degSpec (tickets : List Ticket) (popped : List Str)
    (k : Str) : covSpec tickets popped k ≤ degSpec tickets k :=
  List.length_filter_le _ _

/-- Nothing is covered before anything is popped. -/
theorem covSpec_nil (tickets : List Ticket) (k : Str) :
    covSpec tickets [] k = 0 := by
  unfold covSpec
  simp

/-- Popping a fresh id adds its occurrence count to the coverage. -/
theorem count_filter_extend (popped : List Str) (tid : Str) (h : tid ∉ popped) :
    ∀ l : List Str,
      (l.filter (fun d => decide (d ∈ popped ++ [tid]))).length
        = (l.filter (fun d => decide (d ∈ popped))).length + l.count tid
  | [] => by simp
  | d :: l => by
    rw [List.filter_cons, List.filter_cons]
    by_cases hd : d = tid
    · have h1 : decide (d ∈ popped ++ [tid]) = true := by simp [hd]
      have h2 : decide (d ∈ popped) = false := by
        simp only [decide_eq_false_iff_not]
        rw [hd]
        exact h
      rw [h1, h2, if_pos rfl, if_neg Bool.false_ne_true]
      have hc : (d :: l).count tid = l.count tid + 1 := by
        simp [List.count_cons, hd]
      rw [List.length_cons, hc, count_filter_extend popped tid h l]
      omega
    · have h1 : decide (d ∈ popped ++ [tid]) = decide (d ∈ popped) := by
        simp [List.mem_append, hd]
      rw [h1]
      have hc : (d :: l).count tid = l.count tid := by
        simp [List.count_cons, hd]
      rw [hc]
      cases hp : decide (d ∈ popped) with
      | false =>
        rw [if_neg Bool.false_ne_true, if_neg Bool.false_ne_true]
        exact count_filter_extend popped tid h l
      | true =>
        rw [if_pos rfl, if_pos rfl, List.length_cons, List.length_cons,
          count_filter_extend popped tid h l]
        omega

/-- `covSpec` after popping a fresh id. -/
theorem covSpec_extend (tickets : List Ticket) (popped : List Str)
    (tid k : Str) (h : tid ∉ popped) :
    covSpec tickets (popped ++ [tid]) k
      = covSpec tickets popped k + (depsOf tickets k).count tid := by
  unfold covSpec
  exact count_filter_extend popped tid h (depsOf tickets k)

/-- On a duplicate-free list, filtering by membership in a duplicate-free
subset keeps exactly the subset's number of elements. -/
theorem filter_mem_length : ∀ (L S : List Str), L.Nodup → S.Nodup →
    (∀ x ∈ S, x ∈ L) →
    (L.filter (fun k => decide (k ∈ S))).length = S.length
  | [], S, _, _, hSL => by
    have : S = [] := by
      cases S with
      | nil => rfl
      | cons x xs => exact absurd (hSL x (List.mem_cons_self x xs)) (List.not_mem_nil x)
    subst this
    rfl
  | x :: L, S, hL, hS, hSL => by
    have hxL : x ∉ L := (List.nodup_cons.mp hL).1
    have hLnd : L.Nodup := (List.nodup_cons.mp hL).2
    rw [List.filter_cons]
    by_cases hx : x ∈ S
    · rw [if_pos (by simpa using hx)]
      have hcong : L.filter (fun k => decide (k ∈ S))
          = L.filter (fun k => decide (k ∈ S.erase x)) := by
        apply List.filter_congr
        intro y hy
        have hyx : y ≠ x := fun he => hxL (he ▸ hy)
        simp only [decide_eq_decide]
        exact (List.mem_erase_of_ne hyx).symm
      rw [hcong, List.length_cons]
      rw [filter_mem_length L (S.erase x) hLnd (hS.erase x) ?_]
      · have : S.length = (S.erase x).length + 1 := by
          rw [List.length_erase_of_mem hx]
          have : 0 < S.length := List.length_pos_of_mem hx
          omega
        omega
      · intro y hy
        have hyS : y ∈ S := List.mem_of_mem_erase hy
        have hyx : y ≠ x := (List.Nodup.mem_erase_iff hS).mp hy |>.1
        rcases List.mem_cons.mp (hSL y hyS) with he | hm
        · exact absurd he hyx
        · exact hm
    · rw [if_neg (by simpa using hx)]
      apply filter_mem_length L S hLnd hS
      intro y hy
      rcases List.mem_cons.mp (hSL y hy) with he | hm
      · exact absurd (he ▸ hy) hx
      · exact hm

/-- If some element of the subset is missed, strictly fewer elements
survive the membership filter. -/
theorem filter_mem_length_lt (L S : List Str) (x : Str) (hL : L.Nodup)
    (hx : x ∈ S) (hxL : x ∉ L) :
    (L.filter (fun k => decide (k ∈ S))).length < S.length := by
  have hnd : (L.filter (fun k => decide (k ∈ S))).Nodup := hL.filter _
  have hsub : L.filter (fun k => decide (k ∈ S)) ⊆ S.erase x := by
    intro y hy
    rw [List.mem_filter] at hy
    have hyS : y ∈ S := by simpa using hy.2
    have hyx : y ≠ x := fun he => hxL (he ▸ hy.1)
    exact (List.mem_erase_of_ne hyx).mpr hyS
  have hle := (List.subperm_of_subset hnd hsub).length_le
  have : (S.erase x).length = S.length - 1 := List.length_erase_of_mem hx
  have hpos : 0 < S.length := List.length_pos_of_mem hx
  omega

/-- The length of a `filterMap` counts the inputs the function accepts. -/
theorem length_filterMap_eq (f : Str → Option Ticket) : ∀ l : List Str,
    (l.filterMap f).length = (l.filter (fun x => (f x).isSome)).length
  | [] => rfl
  | x :: l => by
    rw [List.filterMap_cons, List.filter_cons]
    cases hf : f x with
    | none => simpa [hf] using length_filterMap_eq f l
    | some t => simp [hf, length_filterMap_eq f l]

/-- A successful ticket lookup returns a member carrying the looked-up id. -/
theorem lookupTicket_mem (tickets : List Ticket) (k : Str) (t : Ticket)
    (h : lookupTicket tickets k = some t) : t ∈ tickets ∧ t.id = k := by
  unfold lookupTicket at h
  have hm := List.mem_of_mem_getLast? h
  rw [List.mem_filter] at hm
  exact ⟨hm.1, by simpa using hm.2⟩

/-- The lookup succeeds exactly on the ticket ids. -/
theorem lookupTicket_isSome_iff (tickets : List Ticket) (k : Str) :
    (lookupTicket tickets k).isSome = true ↔ k ∈ ticketIDs tickets := by
  constructor
  · intro h
    obtain ⟨t, ht⟩ := Option.isSome_iff_exists.mp h
    obtain ⟨hmem, hid⟩ := lookupTicket_mem tickets k t ht
    exact hid ▸ List.mem_map_of_mem Ticket.id hmem
  · intro h
    obtain ⟨t, hmem, hid⟩ := List.mem_map.mp h
    unfold lookupTicket
    rw [List.getLast?_isSome]
    exact List.ne_nil_of_mem (List.mem_filter.mpr ⟨hmem, by simpa using hid⟩)

/-- With duplicate-free ids, every ticket is its own id's lookup. -/
theorem lookupTicket_self_of_nodup : ∀ (tickets : List Ticket) (t : Ticket),
    (ticketIDs tickets).Nodup → t ∈ tickets →
    lookupTicket tickets t.id = some t
  | [], t, _, ht => absurd ht (List.not_mem_nil t)
  | u :: ts, t, hnd, ht => by
    have hnd' : (u.id :: ticketIDs ts).Nodup := by simpa [ticketIDs] using hnd
    have hndt : u.id ∉ ticketIDs ts := (List.nodup_cons.mp hnd').1
    rcases List.mem_cons.mp ht with rfl | ht'
    · exact lookupTicket_cons_self t ts hndt
    · have hne : t.id ≠ u.id :=
        fun he => hndt (he ▸ List.mem_map_of_mem Ticket.id ht')
      rw [lookupTicket_cons_ne u ts t.id hne]
      exact lookupTicket_self_of_nodup ts t (List.nodup_cons.mp hnd').2 ht'

/-- With duplicate-free ids, a ticket's adjacency is its own deps. -/
theorem depsOf_self_of_nodup (tickets : List Ticket) (t : Ticket)
    (hnd : (ticketIDs tickets).Nodup) (ht : t ∈ tickets) :
    depsOf tickets t.id = t.deps := by
  unfold depsOf
  rw [lookupTicket_self_of_nodup tickets t hnd ht]

/-- `kahnDec` never changes the key list of the degree map. -/
theorem kahnDec_keys : ∀ (ts : List Ticket) (tid : Str)
    (m : List (Str × Int)) (q : List Str),
    (∀ t ∈ ts, t.id ∈ keysOf m) → keysOf (kahnDec ts tid (m, q)).1 = keysOf m
  | [], _, _, _, _ => rfl
  | t :: ts, tid, m, q, hk => by
    have h1 : t.id ∈ keysOf m := hk t (List.mem_cons_self t ts)
    obtain ⟨v, hv⟩ := Option.isSome_iff_exists.mp ((alGet_isSome_iff m t.id).mpr h1)
    have hstep : kahnDec (t :: ts) tid (m, q)
        = kahnDec ts tid (alSet m t.id (v - t.deps.count tid),
            q ++ if 1 ≤ v ∧ v ≤ (t.deps.count tid : Int) then [t.id] else []) := by
      show kahnDec ts tid (t.deps.foldl _ (m, q)) = _
      rw [kahnDecInner t.deps tid t.id m q v hv]
    have hkeys1 : keysOf (alSet m t.id (v - t.deps.count tid)) = keysOf m :=
      keysOf_alSet_mem m t.id _ h1
    have hk' : ∀ u ∈ ts, u.id ∈ keysOf (alSet m t.id (v - t.deps.count tid)) := by
      intro u hu
      rw [hkeys1]
      exact hk u (List.mem_cons_of_mem t hu)
    rw [hstep, kahnDec_keys ts tid _ _ hk', hkeys1]

/-- The first occurrence of a member of a prefix lies inside the prefix. -/
theorem indexOf_lt_of_mem_take : ∀ (l : List Str) (i : Nat) (d : Str),
    d ∈ l.take i → l.indexOf d < i
  | [], i, d, h => by simp at h
  | x :: l, 0, d, h => by simp at h
  | x :: l, i + 1, d, h => by
    rw [List.take_succ_cons, List.mem_cons] at h
    by_cases hd : d = x
    · subst hd
      have hz : (d :: l).indexOf d = 0 := by simp [List.indexOf_cons]
      rw [hz]
      omega
    · have hm : d ∈ l.take i := h.resolve_left hd
      have hb : (x == d) = false := beq_eq_false_iff_ne.mpr fun he => hd he.symm
      have hs : (x :: l).indexOf d = l.indexOf d + 1 := by
        simp [List.indexOf_cons, hb]
      rw [hs]
      have := indexOf_lt_of_mem_take l i d hm
      omega

/-- A member of a prefix of a list is a getElem at an earlier index. -/
theorem take_mem_getElem (l : List Str) (i : Nat) (d : Str)
    (h : d ∈ l.take i) :
    ∃ j, j < i ∧ ∃ (hj : j < l.length), l[j] = d := by
  obtain ⟨n, hn, he⟩ := List.mem_iff_getElem.mp h
  have hlen : n < i ∧ n < l.length := by
    rw [List.length_take] at hn
    omega
  refine ⟨n, hlen.1, hlen.2, ?_⟩
  rw [← he]
  exact (List.getElem_take l).symm

/-- No position of a prefix-closed list lies on a dependency cycle. -/
theorem cycle_idx_aux (tickets : List Ticket) (l : List Str)
    (hpc : PrefixClosed tickets l) :
    ∀ i, ∀ (h : i < l.length), ¬ EdgePath (depsOf tickets) l[i] l[i] := by
  intro i
  induction i using Nat.strong_induction_on with
  | _ i ih =>
    intro h hcyc
    cases hcyc with
    | single hb =>
      have ht := hpc i h _ hb
      obtain ⟨j, hj, hjl, hje⟩ := take_mem_getElem l i _ ht
      exact ih j hj hjl (by rw [hje]; exact EdgePath.single hb)
    | cons hb hp =>
      have ht := hpc i h _ hb
      obtain ⟨j, hj, hjl, hje⟩ := take_mem_getElem l i _ ht
      exact ih j hj hjl (by rw [hje]; exact hp.append_edge hb)

/-- No member of a prefix-closed list lies on a dependency cycle. -/
theorem no_cycle_in_prefixClosed (tickets : List Ticket) (l : List Str)
    (hpc : PrefixClosed tickets l) (x : Str)
    (hp : EdgePath (depsOf tickets) x x) (hx : x ∈ l) : False := by
  obtain ⟨i, hi, he⟩ := List.mem_iff_getElem.mp hx
  exact cycle_idx_aux tickets l hpc i hi (by rw [he]; exact hp)

/-- Dependencies of a member of a prefix-closed list stay in the list. -/
theorem prefixClosed_deps_subset (tickets : List Ticket) (l : List Str)
    (hpc : PrefixClosed tickets l) (x : Str) (hx : x ∈ l) :
    ∀ d ∈ depsOf tickets x, d ∈ l := by
  intro d hd
  obtain ⟨i, hi, he⟩ := List.mem_iff_getElem.mp hx
  have := hpc i hi d (by rw [he]; exact hd)
  exact List.take_subset _ l this

/-- Appending an id whose dependencies were all popped keeps the pop order
prefix-closed. -/
theorem prefixClosed_snoc (tickets : List Ticket) (l : List Str) (tid : Str)
    (hpc : PrefixClosed tickets l)
    (hdeps : ∀ d ∈ depsOf tickets tid, d ∈ l) :
    PrefixClosed tickets (l ++ [tid]) := by
  intro i h d hd
  rw [List.length_append, List.length_singleton] at h
  by_cases hi : i < l.length
  · have hgl : (l ++ [tid])[i] = l[i] := List.getElem_append_left hi
    rw [hgl] at hd
    have := hpc i hi d hd
    rw [List.take_append_of_le_length (by omega)]
    exact this
  · have hieq : i = l.length := by omega
    subst hieq
    have hgl : (l ++ [tid])[l.length] = tid := by simp
    rw [hgl] at hd
    rw [List.take_append_of_le_length (by omega), List.take_length]
    exact hdeps d hd

/-- Appending a ticket none of whose id occurs among the earlier tickets'
dependencies nor its own preserves the order property. -/
theorem sortedRespects_snoc (s : List Ticket) (t : Ticket)
    (hs : SortedRespectsDeps s) (hprev : ∀ u ∈ s, t.id ∉ u.deps)
    (hself : t.id ∉ t.deps) : SortedRespectsDeps (s ++ [t]) := by
  intro j hj d hd i hi hid
  rw [List.length_append, List.length_singleton] at hj hi
  by_cases hjL : j < s.length
  · have hgj : (s ++ [t])[j] = s[j] := List.getElem_append_left hjL
    rw [hgj] at hd
    by_cases hiL : i < s.length
    · have hgi : (s ++ [t])[i] = s[i] := List.getElem_append_left hiL
      rw [hgi] at hid
      exact hs j hjL d hd i hiL hid
    · have hieq : i = s.length := by omega
      subst hieq
      have hgi : (s ++ [t])[s.length] = t := by simp
      rw [hgi] at hid
      exact absurd (hid ▸ hd) (hprev s[j] (List.getElem_mem hjL))
  · have hjeq : j = s.length := by omega
    subst hjeq
    have hgj : (s ++ [t])[s.length] = t := by simp
    rw [hgj] at hd
    by_cases hiL : i < s.length
    · omega
    · have hieq : i = s.length := by omega
      subst hieq
      have hgi : (s ++ [t])[s.length] = t := by simp
      rw [hgi] at hid
      exact absurd (hid ▸ hd) hself

/-- A nonempty set of nodes each of which has a successor inside the set
contains a cycle. -/
theorem exists_cycle_of_closed (adj : Str → List Str) (S : List Str)
    (hne : S ≠ []) (hsucc : ∀ k ∈ S, ∃ d, d ∈ adj k ∧ d ∈ S) :
    ∃ x, EdgePath adj x x := by
  classical
  obtain ⟨s0, hs0⟩ := List.exists_mem_of_ne_nil S hne
  let step : {k // k ∈ S} → {k // k ∈ S} := fun p =>
    ⟨Classical.choose (hsucc p.1 p.2), (Classical.choose_spec (hsucc p.1 p.2)).2⟩
  let g : Nat → {k // k ∈ S} := fun n => Nat.rec ⟨s0, hs0⟩ (fun _ p => step p) n
  have hedge : ∀ n, (g (n + 1)).1 ∈ adj (g n).1 := fun n =>
    (Classical.choose_spec (hsucc (g n).1 (g n).2)).1
  have hpath : ∀ j i, i < j → EdgePath adj (g i).1 (g j).1 := by
    intro j
    induction j with
    | zero => omega
    | succ j ih =>
      intro i hij
      by_cases hj : i = j
      · subst hj
        exact EdgePath.single (hedge i)
      · exact (ih i (by omega)).append_edge (hedge j)
  have hcard : S.toFinset.card < (Finset.range (S.length + 1)).card := by
    rw [Finset.card_range]
    exact Nat.lt_succ_of_le S.toFinset_card_le
  have hmaps : ∀ n ∈ Finset.range (S.length + 1),
      (fun n => (g n).1) n ∈ S.toFinset := fun n _ =>
    List.mem_toFinset.mpr (g n).2
  obtain ⟨i, _, j, _, hij, heq⟩ :=
    Finset.exists_ne_map_eq_of_card_lt_of_maps_to hcard hmaps
  rcases lt_or_gt_of_ne hij with h | h
  · refine ⟨(g i).1, ?_⟩
    have hp := hpath j i h
    rw [← heq] at hp
    exact hp
  · refine ⟨(g j).1, ?_⟩
    have hp := hpath i j h
    rw [heq] at hp
    exact hp

/-- An element dropped between two halves of a duplicate-free list is in
neither half. -/
theorem nodup_middle_split (P : List Str) (a : Str) (r : List Str)
    (h : (P ++ a :: r).Nodup) : a ∉ P ∧ a ∉ r ∧ (P ++ r).Nodup := by
  rw [List.nodup_middle] at h
  have h1 := List.nodup_cons.mp h
  exact ⟨fun hm => h1.1 (List.mem_append_left r hm),
    fun hm => h1.1 (List.mem_append_right P hm), h1.2⟩

/-- Fully covered means every dependency occurrence was popped. -/
theorem deps_all_popped (tickets : List Ticket) (P : List Str) (k : Str)
    (h : covSpec tickets P k = degSpec tickets k) :
    ∀ d ∈ depsOf tickets k, d ∈ P := by
  unfold covSpec degSpec at h
  have hall := List.filter_length_eq_length.mp h
  intro d hd
  simpa using hall d hd

/-- Splitting a filtered length into members and non-members. -/
theorem filter_not_length (X : List Str) : ∀ L : List Str,
    (L.filter (fun k => decide (k ∈ X))).length
      + (L.filter (fun k => decide (k ∉ X))).length = L.length
  | [] => rfl
  | x :: L => by
    rw [List.filter_cons, List.filter_cons]
    by_cases hx : x ∈ X
    · rw [if_pos (by simpa using hx), if_neg (by simpa using hx)]
      rw [List.length_cons, List.length_cons]
      have := filter_not_length X L
      omega
    · rw [if_neg (by simpa using hx), if_pos (by simpa using hx)]
      rw [List.length_cons, List.length_cons]
      have := filter_not_length X L
      omega

/-- Two tickets of a duplicate-free set sharing an id coincide. -/
theorem ticket_id_inj (tickets : List Ticket) (hnd : (ticketIDs tickets).Nodup)
    (t u : Ticket) (ht : t ∈ tickets) (hu : u ∈ tickets) (he : t.id = u.id) :
    t = u := by
  have h1 := lookupTicket_self_of_nodup tickets t hnd ht
  have h2 := lookupTicket_self_of_nodup tickets u hnd hu
  rw [he, h2] at h1
  injection h1 with h1
  exact h1.symm

/-- One iteration of the work loop preserves the invariant and decreases
the measure by exactly one. -/
theorem kahn_step (tickets : List Ticket) (st : KahnState) (tid : Str)
    (rest : List Str) (hnd : (ticketIDs tickets).Nodup)
    (hinv : KahnInv tickets st) (hq : st.queue = tid :: rest) :
    KahnInv tickets
      ⟨(kahnDec tickets tid (st.deg, rest)).1,
       (kahnDec tickets tid (st.deg, rest)).2,
       (match lookupTicket tickets tid with
        | some t => st.sorted ++ [t]
        | none => st.sorted),
       st.popped ++ [tid]⟩ ∧
    kahnMeasure tickets
      ⟨(kahnDec tickets tid (st.deg, rest)).1,
       (kahnDec tickets tid (st.deg, rest)).2,
       (match lookupTicket tickets tid with
        | some t => st.sorted ++ [t]
        | none => st.sorted),
       st.popped ++ [tid]⟩ + 1 = kahnMeasure tickets st := by
  classical
  obtain ⟨h1, h2, h3, h4, h5, h6, h7, h8⟩ := hinv
  have hKnd : (keysOf (buildInDegree tickets)).Nodup :=
    (buildInDegree_spec tickets hnd).2.2
  rw [hq] at h2 h3
  obtain ⟨htidP, htidR, hPR⟩ := nodup_middle_split st.popped tid rest h2
  have htidK : tid ∈ keysOf (buildInDegree tickets) :=
    h3 tid (List.mem_append_right _ (List.mem_cons_self tid rest))
  have htidQ : tid ∈ st.queue := by
    rw [hq]
    exact List.mem_cons_self tid rest
  have hcovtid : covSpec tickets st.popped tid = degSpec tickets tid :=
    (h5 tid htidK).mp (Or.inr htidQ)
  have hdepstid : ∀ d ∈ depsOf tickets tid, d ∈ st.popped :=
    deps_all_popped tickets st.popped tid hcovtid
  have htk : ∀ t ∈ tickets, t.id ∈ keysOf (buildInDegree tickets) := fun t ht =>
    (mem_keys_buildInDegree tickets hnd t.id).mpr
      (Or.inl (List.mem_map_of_mem Ticket.id ht))
  have hsome : ∀ t ∈ tickets, ∃ v, alGet st.deg t.id = some v :=
    fun t ht => ⟨_, h4 t.id (htk t ht)⟩
  obtain ⟨hval, hqueue⟩ := kahnDec_spec tickets tid st.deg rest hsome hnd
  set cond : Ticket → Bool := fun t =>
    decide (1 ≤ (alGet st.deg t.id).getD 0 ∧
      (alGet st.deg t.id).getD 0 ≤ (t.deps.count tid : Int)) with hcond
  set push : List Str := (tickets.filter cond).map Ticket.id with hpush
  have hcondT : ∀ t ∈ tickets, (cond t = true ↔
      (1 ≤ (degSpec tickets t.id : Int) - covSpec tickets st.popped t.id ∧
       (degSpec tickets t.id : Int) - covSpec tickets st.popped t.id
         ≤ (t.deps.count tid : Int))) := by
    intro t ht
    rw [hcond]
    simp [h4 t.id (htk t ht)]
  have hpush_elim : ∀ x ∈ push, ∃ t, t ∈ tickets ∧ cond t = true ∧ t.id = x := by
    intro x hx
    rw [hpush] at hx
    obtain ⟨t, htf, hid⟩ := List.mem_map.mp hx
    obtain ⟨ht, hc⟩ := List.mem_filter.mp htf
    exact ⟨t, ht, hc, hid⟩
  have hpush_intro : ∀ t ∈ tickets, cond t = true → t.id ∈ push := by
    intro t ht hc
    rw [hpush]
    exact List.mem_map_of_mem Ticket.id (List.mem_filter.mpr ⟨ht, hc⟩)
  have hpushK : ∀ x ∈ push, x ∈ keysOf (buildInDegree tickets) := by
    intro x hx
    obtain ⟨t, ht, _, hid⟩ := hpush_elim x hx
    exact hid ▸ htk t ht
  have hpushNodup : push.Nodup := by
    rw [hpush]
    exact List.Nodup.sublist ((List.filter_sublist tickets).map Ticket.id) hnd
  have hpushFresh : ∀ x ∈ push, x ∉ st.popped ∧ x ≠ tid ∧ x ∉ rest := by
    intro x hx
    obtain ⟨t, ht, hc, hid⟩ := hpush_elim x hx
    have hct := (hcondT t ht).mp hc
    have hcovlt : covSpec tickets st.popped t.id ≠ degSpec tickets t.id := by
      have := hct.1
      intro he
      rw [he] at this
      omega
    have hnm := (h5 t.id (htk t ht)).not.mpr (by
      intro he
      exact hcovlt he)
    push_neg at hnm
    rw [hq] at hnm
    have hnm2 := hnm.2
    rw [List.mem_cons] at hnm2
    push_neg at hnm2
    exact hid ▸ ⟨hnm.1, hnm2.1, hnm2.2⟩
  have c1 : keysOf (kahnDec tickets tid (st.deg, rest)).1
      = keysOf (buildInDegree tickets) := by
    rw [kahnDec_keys tickets tid st.deg rest (fun t ht => by
      rw [h1]
      exact htk t ht)]
    exact h1
  have happ : (st.popped ++ [tid]) ++ (rest ++ push)
      = (st.popped ++ tid :: rest) ++ push := by
    simp [List.append_assoc]
  have c2 : ((st.popped ++ [tid]) ++ (kahnDec tickets tid (st.deg, rest)).2).Nodup := by
    rw [hqueue, happ, List.nodup_append]
    refine ⟨h2, hpushNodup, ?_⟩
    intro a ha hap
    obtain ⟨haP, haT, haR⟩ := hpushFresh a hap
    rcases List.mem_append.mp ha with haP' | haQ'
    · exact haP haP'
    · rcases List.mem_cons.mp haQ' with he | hm
      · exact haT he
      · exact haR hm
  have c3 : ∀ x ∈ (st.popped ++ [tid]) ++ (kahnDec tickets tid (st.deg, rest)).2,
      x ∈ keysOf (buildInDegree tickets) := by
    intro x hx
    rw [hqueue, happ] at hx
    rcases List.mem_append.mp hx with hold | hpu
    · exact h3 x hold
    · exact hpushK x hpu
  have c4 : ∀ k ∈ keysOf (buildInDegree tickets),
      alGet (kahnDec tickets tid (st.deg, rest)).1 k
        = some ((degSpec tickets k : Int)
            - covSpec tickets (st.popped ++ [tid]) k) := by
    intro k hk
    have hce : covSpec tickets (st.popped ++ [tid]) k
        = covSpec tickets st.popped k + (depsOf tickets k).count tid :=
      covSpec_extend tickets st.popped tid k htidP
    rw [hval k, h4 k hk, hce]
    have hm : Option.map (fun v => v - ((depsOf tickets k).count tid : Int))
        (some ((degSpec tickets k : Int) - covSpec tickets st.popped k))
        = some ((degSpec tickets k : Int) - covSpec tickets st.popped k
            - ((depsOf tickets k).count tid : Int)) := rfl
    rw [hm]
    congr 1
    push_cast
    ring
  have c5 : ∀ k ∈ keysOf (buildInDegree tickets),
      ((k ∈ st.popped ++ [tid] ∨ k ∈ (kahnDec tickets tid (st.deg, rest)).2) ↔
        covSpec tickets (st.popped ++ [tid]) k = degSpec tickets k) := by
    intro k hk
    have hcle := covSpec_le_degSpec tickets (st.popped ++ [tid]) k
    have hcle0 := covSpec_le_degSpec tickets st.popped k
    have hce : covSpec tickets (st.popped ++ [tid]) k
        = covSpec tickets st.popped k + (depsOf tickets k).count tid :=
      covSpec_extend tickets st.popped tid k htidP
    constructor
    · intro hmem
      rcases hmem with hmP' | hmQ'
      · rcases List.mem_append.mp hmP' with hmP | hmT
        · have := (h5 k hk).mp (Or.inl hmP)
          omega
        · have hke : k = tid := by simpa using hmT
          subst hke
          omega
      · rw [hqueue] at hmQ'
        rcases List.mem_append.mp hmQ' with hmR | hmPu
        · have := (h5 k hk).mp (Or.inr (by
            rw [hq]
            exact List.mem_cons_of_mem tid hmR))
          omega
        · obtain ⟨t, ht, hc, hid⟩ := hpush_elim k hmPu
          have hct := (hcondT t ht).mp hc
          rw [hid] at hct
          have hdk : depsOf tickets k = t.deps := by
            rw [← hid]
            exact depsOf_self_of_nodup tickets t hnd ht
          rw [hdk] at hce
          omega
    · intro hceq
      by_cases hcd : covSpec tickets st.popped k = degSpec tickets k
      · rcases (h5 k hk).mpr hcd with hmP | hmQ
        · exact Or.inl (List.mem_append_left _ hmP)
        · rw [hq] at hmQ
          rcases List.mem_cons.mp hmQ with he | hmR
          · exact Or.inl (List.mem_append_right _ (by simp [he]))
          · refine Or.inr ?_
            rw [hqueue]
            exact List.mem_append_left _ hmR
      · have hkid : k ∈ ticketIDs tickets := by
          by_contra hno
          have hdn : depsOf tickets k = [] := depsOf_eq_nil tickets k hno
          rw [hce, hdn] at hceq
          simp at hceq
          omega
        obtain ⟨t, ht, hid⟩ := List.mem_map.mp hkid
        have hdk : depsOf tickets k = t.deps := by
          rw [← hid]
          exact depsOf_self_of_nodup tickets t hnd ht
        rw [hdk] at hce
        have hc : cond t = true := by
          rw [hcondT t ht, hid]
          constructor <;> omega
        refine Or.inr ?_
        rw [hqueue]
        exact List.mem_append_right _ (hid ▸ hpush_intro t ht hc)
  have c6 : (match lookupTicket tickets tid with
      | some t => st.sorted ++ [t]
      | none => st.sorted)
      = (st.popped ++ [tid]).filterMap (lookupTicket tickets) := by
    rw [List.filterMap_append, ← h6]
    cases hlk : lookupTicket tickets tid with
    | none => simp [hlk]
    | some t => simp [hlk]
  have c7 : SortedRespectsDeps (match lookupTicket tickets tid with
      | some t => st.sorted ++ [t]
      | none => st.sorted) := by
    cases hlk : lookupTicket tickets tid with
    | none => exact h7
    | some t =>
      have hmem := lookupTicket_mem tickets tid t hlk
      have hdt : depsOf tickets tid = t.deps := by
        unfold depsOf
        rw [hlk]
      apply sortedRespects_snoc st.sorted t h7
      · intro u hu htm
        rw [h6] at hu
        obtain ⟨p, hp, hlp⟩ := List.mem_filterMap.mp hu
        have hup : depsOf tickets p = u.deps := by
          unfold depsOf
          rw [hlp]
        have hin : t.id ∈ depsOf tickets p := by
          rw [hup]
          exact htm
        have hsub := prefixClosed_deps_subset tickets st.popped h8 p hp _ hin
        rw [hmem.2] at hsub
        exact htidP hsub
      · intro hself
        have hin : t.id ∈ depsOf tickets tid := by
          rw [hdt]
          exact hself
        rw [hmem.2] at hin
        exact htidP (hdepstid _ hin)
  have c8 : PrefixClosed tickets (st.popped ++ [tid]) :=
    prefixClosed_snoc tickets st.popped tid h8 hdepstid
  refine ⟨⟨c1, c2, c3, c4, c5, c6, c7, c8⟩, ?_⟩
  have hKfOld : ((keysOf (buildInDegree tickets)).filter
      (fun k => decide (k ∈ st.popped ++ tid :: rest))).length
      = (st.popped ++ tid :: rest).length :=
    filter_mem_length _ _ hKnd h2 h3
  have hKfNew : ((keysOf (buildInDegree tickets)).filter
      (fun k => decide (k ∈ (st.popped ++ [tid])
        ++ (kahnDec tickets tid (st.deg, rest)).2))).length
      = ((st.popped ++ [tid]) ++ (kahnDec tickets tid (st.deg, rest)).2).length :=
    filter_mem_length _ _ hKnd c2 c3
  have hfnOld := filter_not_length (st.popped ++ tid :: rest)
    (keysOf (buildInDegree tickets))
  have hfnNew := filter_not_length ((st.popped ++ [tid])
    ++ (kahnDec tickets tid (st.deg, rest)).2) (keysOf (buildInDegree tickets))
  have hlq : (kahnDec tickets tid (st.deg, rest)).2.length
      = rest.length + push.length := by
    rw [hqueue]
    simp
  have hlold : (st.popped ++ tid :: rest).length
      = st.popped.length + rest.length + 1 := by
    simp
    omega
  have hlnew : ((st.popped ++ [tid]) ++ (kahnDec tickets tid (st.deg, rest)).2).length
      = st.popped.length + rest.length + push.length + 1 := by
    rw [hqueue]
    simp
    omega
  have hlc : (tid :: rest).length = rest.length + 1 := rfl
  show ((keysOf (buildInDegree tickets)).filter
      (fun k => decide (k ∉ (st.popped ++ [tid])
        ++ (kahnDec tickets tid (st.deg, rest)).2))).length
    + (kahnDec tickets tid (st.deg, rest)).2.length + 1
    = ((keysOf (buildInDegree tickets)).filter
      (fun k => decide (k ∉ st.popped ++ st.queue))).length + st.queue.length
  rw [hq]
  omega

/-- With fuel above the measure, the work loop drains the queue and lands
in an invariant state. -/
theorem kahnLoop_drains (tickets : List Ticket)
    (hnd : (ticketIDs tickets).Nodup) : ∀ (fuel : Nat) (st : KahnState),
    KahnInv tickets st → kahnMeasure tickets st < fuel →
    KahnInv tickets (kahnLoop tickets fuel st) ∧
      (kahnLoop tickets fuel st).queue = [] := by
  intro fuel
  induction fuel with
  | zero =>
    intro st _ hm
    omega
  | succ fuel ih =>
    intro st hinv hm
    obtain ⟨dg, qu, so, po⟩ := st
    cases qu with
    | nil => exact ⟨hinv, rfl⟩
    | cons tid rest =>
      have hstep := kahn_step tickets ⟨dg, tid :: rest, so, po⟩ tid rest hnd hinv rfl
      exact ih ⟨(kahnDec tickets tid (dg, rest)).1,
        (kahnDec tickets tid (dg, rest)).2,
        (match lookupTicket tickets tid with
         | some t => so ++ [t]
         | none => so), po ++ [tid]⟩
        hstep.1 (by
          have h2 := hstep.2
          simp only [kahnMeasure] at hm h2 ⊢
          omega)

/-- The invariant holds at the loop's initial state. -/
theorem kahn_init (tickets : List Ticket) (order : List Str)
    (hnd : (ticketIDs tickets).Nodup) (hord : ValidMapOrder tickets order) :
    KahnInv tickets ⟨buildInDegree tickets,
      order.filter (fun id => decide (alGet (buildInDegree tickets) id = some 0)),
      [], []⟩ := by
  have horder : order.Perm (keysOf (buildInDegree tickets)) := hord
  have hKnd : (keysOf (buildInDegree tickets)).Nodup :=
    (buildInDegree_spec tickets hnd).2.2
  have hordnd : order.Nodup := horder.symm.nodup hKnd
  have hdeg : ∀ k ∈ keysOf (buildInDegree tickets),
      alGet (buildInDegree tickets) k = some ((degSpec tickets k : Int)) :=
    fun k hk => (buildInDegree_spec tickets hnd).1 k
      ((mem_keys_buildInDegree tickets hnd k).mp hk)
  refine ⟨rfl, ?_, ?_, ?_, ?_, rfl, ?_, ?_⟩
  · simpa using hordnd.filter _
  · intro x hx
    rw [List.nil_append, List.mem_filter] at hx
    exact horder.mem_iff.mp hx.1
  · intro k hk
    rw [hdeg k hk, covSpec_nil]
    simp
  · intro k hk
    rw [covSpec_nil]
    constructor
    · intro hmem
      rcases hmem with hmP | hmQ
      · exact absurd hmP (List.not_mem_nil k)
      · rw [List.mem_filter] at hmQ
        have h0 : alGet (buildInDegree tickets) k = some 0 := by
          simpa using hmQ.2
        rw [hdeg k hk] at h0
        injection h0 with h0
        omega
    · intro h0
      refine Or.inr (List.mem_filter.mpr ⟨horder.mem_iff.mpr hk, ?_⟩)
      rw [hdeg k hk]
      simp
      omega
  · intro j hj
    simp at hj
  · intro i hi
    simp at hi

/-- Full characterization of `TopologicalSort` at a valid enumeration
order: on an acyclic set it succeeds with a complete, dependency-respecting
order; on a cyclic set it returns `none` (the Go code's `CycleError`). -/
theorem topoSort_spec (tickets : List Ticket) (order : List Str)
    (hnd : (ticketIDs tickets).Nodup) (hord : ValidMapOrder tickets order) :
    (TicketAcyclic tickets →
      ∃ sorted, TopologicalSort tickets order = some sorted ∧
        (∀ t ∈ tickets, t ∈ sorted) ∧ SortedRespectsDeps sorted) ∧
    (¬ TicketAcyclic tickets → TopologicalSort tickets order = none) := by
  classical
  set st0 : KahnState := ⟨buildInDegree tickets,
    order.filter (fun id => decide (alGet (buildInDegree tickets) id = some 0)),
    [], []⟩ with hst0
  have hinv0 : KahnInv tickets st0 := kahn_init tickets order hnd hord
  have hmb : kahnMeasure tickets st0 < 2 * (buildInDegree tickets).length + 1 := by
    have h1 : (keysOf (buildInDegree tickets)).length
        = (buildInDegree tickets).length := List.length_map _ _
    have h2 : ((keysOf (buildInDegree tickets)).filter
        (fun k => decide (k ∉ [] ++ order.filter
          (fun id => decide (alGet (buildInDegree tickets) id = some 0))))).length
        ≤ (keysOf (buildInDegree tickets)).length := List.length_filter_le _ _
    have h3 : (order.filter
        (fun id => decide (alGet (buildInDegree tickets) id = some 0))).length
        ≤ order.length := List.length_filter_le _ _
    have h4 := hord.length_eq
    rw [List.length_map] at h4
    simp only [kahnMeasure]
    omega
  obtain ⟨hfinv, hfq⟩ := kahnLoop_drains tickets hnd
    (2 * (buildInDegree tickets).length + 1) st0 hinv0 hmb
  set fin := kahnLoop tickets (2 * (buildInDegree tickets).length + 1) st0
    with hfin
  obtain ⟨f1, f2, f3, f4, f5, f6, f7, f8⟩ := hfinv
  have hfpnd : fin.popped.Nodup := by
    rw [hfq] at f2
    simpa using f2
  have htopo : TopologicalSort tickets order
      = if fin.sorted.length = tickets.length then some fin.sorted else none := by
    rw [hfin, hst0]
    rfl
  have hlksome : ∀ x, (lookupTicket tickets x).isSome
      = decide (x ∈ ticketIDs tickets) := by
    intro x
    by_cases hx : x ∈ ticketIDs tickets
    · rw [(lookupTicket_isSome_iff tickets x).mpr hx]
      simp [hx]
    · cases hs : (lookupTicket tickets x).isSome with
      | true => exact absurd ((lookupTicket_isSome_iff tickets x).mp hs) hx
      | false => simp [hx]
  have hcong : fin.popped.filter (fun x => (lookupTicket tickets x).isSome)
      = fin.popped.filter (fun k => decide (k ∈ ticketIDs tickets)) :=
    List.filter_congr (fun x _ => hlksome x)
  constructor
  · intro hacy
    have hallpop : ∀ k ∈ keysOf (buildInDegree tickets), k ∈ fin.popped := by
      by_contra hno
      push_neg at hno
      obtain ⟨k0, hk0K, hk0P⟩ := hno
      set S := (keysOf (buildInDegree tickets)).filter
        (fun k => decide (k ∉ fin.popped)) with hS
      have hne : S ≠ [] := by
        intro he
        have hm : k0 ∈ S := by
          rw [hS]
          exact List.mem_filter.mpr ⟨hk0K, by simpa using hk0P⟩
        rw [he] at hm
        exact List.not_mem_nil k0 hm
      have hsucc : ∀ k ∈ S, ∃ d, d ∈ depsOf tickets k ∧ d ∈ S := by
        intro k hk
        rw [hS, List.mem_filter] at hk
        have hkK := hk.1
        have hkP : k ∉ fin.popped := by simpa using hk.2
        have hcovne : covSpec tickets fin.popped k ≠ degSpec tickets k := by
          intro he
          rcases (f5 k hkK).mpr he with h | h
          · exact hkP h
          · rw [hfq] at h
            exact List.not_mem_nil k h
        have hex : ∃ d ∈ depsOf tickets k, d ∉ fin.popped := by
          by_contra hall
          push_neg at hall
          apply hcovne
          unfold covSpec degSpec
          exact List.filter_length_eq_length.mpr (fun d hd => by
            simpa using hall d hd)
        obtain ⟨d, hd, hdP⟩ := hex
        have hdK : d ∈ keysOf (buildInDegree tickets) := by
          rw [mem_keys_buildInDegree tickets hnd]
          refine Or.inr ?_
          unfold depsOf at hd
          cases hlk : lookupTicket tickets k with
          | none =>
            rw [hlk] at hd
            exact absurd hd (List.not_mem_nil d)
          | some t =>
            rw [hlk] at hd
            exact ⟨t, (lookupTicket_mem tickets k t hlk).1, hd⟩
        refine ⟨d, hd, ?_⟩
        rw [hS]
        exact List.mem_filter.mpr ⟨hdK, by simpa using hdP⟩
      obtain ⟨x, hx⟩ := exists_cycle_of_closed (depsOf tickets) S hne hsucc
      exact hacy x hx
    have hidpop : ∀ k ∈ ticketIDs tickets, k ∈ fin.popped := fun k hk =>
      hallpop k ((mem_keys_buildInDegree tickets hnd k).mpr (Or.inl hk))
    have hlen : fin.sorted.length = tickets.length := by
      rw [f6, length_filterMap_eq, hcong,
        filter_mem_length fin.popped (ticketIDs tickets) hfpnd hnd hidpop]
      exact List.length_map _ _
    rw [htopo, if_pos hlen]
    refine ⟨fin.sorted, rfl, ?_, f7⟩
    intro t ht
    rw [f6]
    exact List.mem_filterMap.mpr ⟨t.id,
      hidpop t.id (List.mem_map_of_mem Ticket.id ht),
      lookupTicket_self_of_nodup tickets t hnd ht⟩
  · intro hncy
    unfold TicketAcyclic Acyclic at hncy
    push_neg at hncy
    obtain ⟨x, hx⟩ := hncy
    have hxP : x ∉ fin.popped := fun hm =>
      no_cycle_in_prefixClosed tickets fin.popped f8 x hx hm
    have hxid : x ∈ ticketIDs tickets := by
      have hdne : depsOf tickets x ≠ [] := by
        cases hx with
        | single hb =>
          intro he
          rw [he] at hb
          exact List.not_mem_nil _ hb
        | cons hb hp =>
          intro he
          rw [he] at hb
          exact List.not_mem_nil _ hb
      by_contra hno
      exact hdne (depsOf_eq_nil tickets x hno)
    have hlen : fin.sorted.length < tickets.length := by
      rw [f6, length_filterMap_eq, hcong]
      have hlt := filter_mem_length_lt fin.popped (ticketIDs tickets) x hfpnd
        hxid hxP
      have hidlen : (ticketIDs tickets).length = tickets.length :=
        List.length_map _ _
      omega
    rw [htopo, if_neg (by omega)]

/-- Claim C4: at any valid enumeration order of the in-degree map, an
acyclic ticket dependency set makes `TopologicalSort` succeed with an order
containing every ticket in which each dependency that is itself a ticket of
the set appears strictly before its dependent; a cyclic set makes it return
`none` (the Go code's `CycleError`). -/
theorem claim_C4_topological_sort (tickets : List Ticket) (order : List Str)
    (hnd : (ticketIDs tickets).Nodup) (hord : ValidMapOrder tickets order) :
    (TicketAcyclic tickets →
      ∃ sorted, TopologicalSort tickets order = some sorted ∧
        (∀ t ∈ tickets, t ∈ sorted) ∧ SortedRespectsDeps sorted) ∧
    (¬ TicketAcyclic tickets → TopologicalSort tickets order = none) :=
  topoSort_spec tickets order hnd hord

/-- Witness for C4: two free tickets at a concrete valid order sort
successfully into a complete dependency-respecting order. -/
theorem claim_C4_witness :
    (ticketIDs exTwoFree).Nodup ∧
    ValidMapOrder exTwoFree [str "a", str "b"] ∧
    ∃ sorted, TopologicalSort exTwoFree [str "a", str "b"] = some sorted ∧
      (∀ t ∈ exTwoFree, t ∈ sorted) ∧ SortedRespectsDeps sorted :=
  ⟨by decide, by unfold ValidMapOrder; decide,
    (claim_C4_topological_sort exTwoFree [str "a", str "b"] (by decide)
      (by unfold ValidMapOrder; decide)).1 acyclic_exTwoFree⟩

/-- Claim C5 (amended): across any two valid enumeration orders of the
in-degree map, `TopologicalSort` agrees on success versus failure — only
the sequence among simultaneously-ready tickets may differ between runs. -/
theorem claim_C5_success_deterministic (tickets : List Ticket)
    (o1 o2 : List Str) (hnd : (ticketIDs tickets).Nodup)
    (h1 : ValidMapOrder tickets o1) (h2 : ValidMapOrder tickets o2) :
    (TopologicalSort tickets o1).isSome = (TopologicalSort tickets o2).isSome := by
  by_cases hacy : TicketAcyclic tickets
  · obtain ⟨s1, hs1, _, _⟩ := (topoSort_spec tickets o1 hnd h1).1 hacy
    obtain ⟨s2, hs2, _, _⟩ := (topoSort_spec tickets o2 hnd h2).1 hacy
    rw [hs1, hs2]
    rfl
  · rw [(topoSort_spec tickets o1 hnd h1).2 hacy,
      (topoSort_spec tickets o2 hnd h2).2 hacy]

/-- Witness for C5: the two orders of the counterexample produce different
sequences, yet both succeed. -/
theorem claim_C5_witness :
    (ticketIDs exTwoFree).Nodup ∧
    ValidMapOrder exTwoFree [str "a", str "b"] ∧
    ValidMapOrder exTwoFree [str "b", str "a"] ∧
    (TopologicalSort exTwoFree [str "a", str "b"]).isSome
      = (TopologicalSort exTwoFree [str "b", str "a"]).isSome :=
  ⟨by decide, by unfold ValidMapOrder; decide, by unfold ValidMapOrder; decide,
    claim_C5_success_deterministic exTwoFree [str "a", str "b"]
      [str "b", str "a"] (by decide) (by unfold ValidMapOrder; decide)
      (by unfold ValidMapOrder; decide)⟩

/-- `dropWhile` never crosses a final element the predicate rejects. -/
theorem dropWhile_append_single (p : Char → Bool) (x : Char) (hx : p x = false) :
    ∀ a : Str, (a ++ [x]).dropWhile p = a.dropWhile p ++ [x]
  | [] => by simp [List.dropWhile, hx]
  | y :: a => by
    rw [List.cons_append, List.dropWhile_cons, List.dropWhile_cons]
    by_cases hy : p y
    · rw [if_pos hy, if_pos hy]
      exact dropWhile_append_single p x hx a
    · rw [if_neg hy, if_neg hy, List.cons_append]

/-- Trimming drops a leading whitespace character. -/
theorem trimSpace_cons_ws (c : Char) (s : Str) (hc : c.isWhitespace = true) :
    trimSpace (c :: s) = trimSpace s := by
  unfold trimSpace
  rw [List.dropWhile_cons, if_pos hc]

/-- Trimming a string with a non-whitespace head keeps that head. -/
theorem trimSpace_cons (c : Char) (s : Str) (hc : c.isWhitespace = false) :
    trimSpace (c :: s) = c :: ((s.reverse.dropWhile Char.isWhitespace).reverse) := by
  unfold trimSpace
  rw [List.dropWhile_cons, if_neg (by simp [hc]), List.reverse_cons,
    dropWhile_append_single Char.isWhitespace c hc, List.reverse_append]
  rfl

/-- A list prefixes its own extension. -/
theorem isPrefixOf_append_self (a b : Str) : a.isPrefixOf (a ++ b) = true :=
  List.isPrefixOf_iff_prefix.mpr ⟨b, rfl⟩


/-- `findColon` steps over a non-colon character. -/
theorem findColon_cons_ne (c : Char) (k' : Str) (hc : c ≠ ':') :
    findColon (c :: k') = (findColon k').map (· + 1) := by
  conv_lhs => unfold findColon
  split
  · rename_i h
    exact absurd h (by simp)
  · rename_i h
    injection h with h1 h2
    exact absurd h1 hc
  · rename_i x rest h
    injection h with h1 h2
    rw [h2]

/-- Key lines: `id`. -/
theorem yamlLine_id (t0 : Ticket) (ctx : Option ListKey) (v : Str) :
    yamlLine (t0, ctx) (str "id: " ++ v) = some ({ t0 with id := v }, none) := by
  unfold yamlLine
  rw [show str "id: " ++ v = 'i' :: (str "d: " ++ v) from rfl,
    trimSpace_cons 'i' _ (by decide)]
  rfl

/-- Key lines: `status`. -/
theorem yamlLine_status (t0 : Ticket) (ctx : Option ListKey) (v : Str) :
    yamlLine (t0, ctx) (str "status: " ++ v)
      = some ({ t0 with status := v }, none) := by
  unfold yamlLine
  rw [show str "status: " ++ v = 's' :: (str "tatus: " ++ v) from rfl,
    trimSpace_cons 's' _ (by decide)]
  rfl

/-- Key lines: `type`. -/
theorem yamlLine_type (t0 : Ticket) (ctx : Option ListKey) (v : Str) :
    yamlLine (t0, ctx) (str "type: " ++ v)
      = some ({ t0 with type := v }, none) := by
  unfold yamlLine
  rw [show str "type: " ++ v = 't' :: (str "ype: " ++ v) from rfl,
    trimSpace_cons 't' _ (by decide)]
  rfl

/-- Key lines: `priority`. -/
theorem yamlLine_priority (t0 : Ticket) (ctx : Option ListKey) (v : Str)
    (p : Int) (hv : parseIntStr v = some p) :
    yamlLine (t0, ctx) (str "priority: " ++ v)
      = some ({ t0 with priority := p }, none) := by
  unfold yamlLine
  rw [show str "priority: " ++ v = 'p' :: (str "riority: " ++ v) from rfl,
    trimSpace_cons 'p' _ (by decide)]
  show (yamlSetScalar t0 (str "priority") v).map (fun u => (u, none)) = _
  have hset : yamlSetScalar t0 (str "priority") v
      = (parseIntStr v).map (fun n => { t0 with priority := n }) := rfl
  rw [hset, hv]
  rfl

/-- Key lines: `assignee`. -/
theorem yamlLine_assignee (t0 : Ticket) (ctx : Option ListKey) (v : Str) :
    yamlLine (t0, ctx) (str "assignee: " ++ v)
      = some ({ t0 with assignee := v }, none) := by
  unfold yamlLine
  rw [show str "assignee: " ++ v = 'a' :: (str "ssignee: " ++ v) from rfl,
    trimSpace_cons 'a' _ (by decide)]
  rfl

/-- Key lines: `parent`. -/
theorem yamlLine_parent (t0 : Ticket) (ctx : Option ListKey) (v : Str) :
    yamlLine (t0, ctx) (str "parent: " ++ v)
      = some ({ t0 with parent := v }, none) := by
  unfold yamlLine
  rw [show str "parent: " ++ v = 'p' :: (str "arent: " ++ v) from rfl,
    trimSpace_cons 'p' _ (by decide)]
  rfl

/-- Key lines: `external-ref`. -/
theorem yamlLine_externalRef (t0 : Ticket) (ctx : Option ListKey) (v : Str) :
    yamlLine (t0, ctx) (str "external-ref: " ++ v)
      = some ({ t0 with externalRef := v }, none) := by
  unfold yamlLine
  rw [show str "external-ref: " ++ v = 'e' :: (str "xternal-ref: " ++ v) from rfl,
    trimSpace_cons 'e' _ (by decide)]
  rfl

/-- Key lines: `created`. -/
theorem yamlLine_created (t0 : Ticket) (ctx : Option ListKey) (v : Str)
    (hne : v.isEmpty = false) (hts : isTimestamp v = true) :
    yamlLine (t0, ctx) (str "created: " ++ v)
      = some ({ t0 with created := v }, none) := by
  unfold yamlLine
  rw [show str "created: " ++ v = 'c' :: (str "reated: " ++ v) from rfl,
    trimSpace_cons 'c' _ (by decide)]
  show (yamlSetScalar t0 (str "created") v).map (fun u => (u, none)) = _
  have hset : yamlSetScalar t0 (str "created") v
      = if v.isEmpty then some { t0 with created := [] }
        else if isTimestamp v then some { t0 with created := v } else none := rfl
  rw [hset, hne, hts]
  rfl

/-- Block sequence headers. -/
theorem yamlLine_tagsHeader (t0 : Ticket) (ctx : Option ListKey) :
    yamlLine (t0, ctx) (str "tags:") = some (t0, some .tags) := rfl

/-- Block sequence headers. -/
theorem yamlLine_depsHeader (t0 : Ticket) (ctx : Option ListKey) :
    yamlLine (t0, ctx) (str "deps:") = some (t0, some .deps) := rfl

/-- Block sequence headers. -/
theorem yamlLine_linksHeader (t0 : Ticket) (ctx : Option ListKey) :
    yamlLine (t0, ctx) (str "links:") = some (t0, some .links) := rfl

/-- Block sequence items feed the pending list field. -/
theorem yamlLine_item (t0 : Ticket) (lk : ListKey) (v : Str) :
    yamlLine (t0, some lk) (str "    - " ++ v)
      = some (yamlAddItem t0 lk v, some lk) := by
  have htrim : trimSpace (str "    - " ++ v)
      = '-' :: ((str " " ++ v).reverse.dropWhile Char.isWhitespace).reverse := by
    rw [show str "    - " ++ v = ' ' :: (str "   - " ++ v) from rfl,
      trimSpace_cons_ws ' ' _ (by decide),
      show str "   - " ++ v = ' ' :: (str "  - " ++ v) from rfl,
      trimSpace_cons_ws ' ' _ (by decide),
      show str "  - " ++ v = ' ' :: (str " - " ++ v) from rfl,
      trimSpace_cons_ws ' ' _ (by decide),
      show str " - " ++ v = ' ' :: (str "- " ++ v) from rfl,
      trimSpace_cons_ws ' ' _ (by decide),
      show (str "- " ++ v : Str) = '-' :: (str " " ++ v) from rfl,
      trimSpace_cons '-' _ (by decide)]
  have hpre : (str "    - ").isPrefixOf (str "    - " ++ v) = true :=
    isPrefixOf_append_self _ _
  unfold yamlLine
  rw [htrim, hpre]
  rfl

/-- Properties of a rendered decimal digit character. -/
theorem digitChar_props (d : Nat) (h : d < 10) :
    (Char.ofNat (48 + d)).isDigit = true ∧ (Char.ofNat (48 + d)).toNat = 48 + d
      ∧ Char.ofNat (48 + d) ≠ '-' ∧ Char.ofNat (48 + d) ≠ nl
      ∧ Char.ofNat (48 + d) ≠ '\r' := by
  interval_cases d <;> exact ⟨by decide, by decide, by decide, by decide, by decide⟩

/-- `natToStr` produces a nonempty all-digit string. -/
theorem natToStr_props (n : Nat) :
    natToStr n ≠ [] ∧ ∀ c ∈ natToStr n, c.isDigit = true := by
  induction n using Nat.strong_induction_on with
  | _ n ih =>
    rw [natToStr]
    split
    · rename_i h
      refine ⟨by simp, ?_⟩
      intro c hc
      rw [List.mem_singleton] at hc
      subst hc
      exact (digitChar_props n h).1
    · rename_i h
      have hrec := ih (n / 10) (Nat.div_lt_self (by omega) (by omega))
      refine ⟨by simp [hrec.1], ?_⟩
      intro c hc
      rcases List.mem_append.mp hc with hm | hm
      · exact hrec.2 c hm
      · rw [List.mem_singleton] at hm
        subst hm
        exact (digitChar_props (n % 10) (Nat.mod_lt _ (by omega))).1

/-- The decimal fold over `natToStr n` recovers `n`. -/
theorem natToStr_foldl (n : Nat) : ∀ acc,
    (natToStr n).foldl (fun acc c => acc * 10 + (c.toNat - 48)) acc
      = acc * 10 ^ (natToStr n).length + n := by
  induction n using Nat.strong_induction_on with
  | _ n ih =>
    intro acc
    rw [natToStr]
    split
    · rename_i h
      simp only [List.foldl_cons, List.foldl_nil, List.length_singleton]
      rw [(digitChar_props n h).2.1]
      omega
    · rename_i h
      have hrec := ih (n / 10) (Nat.div_lt_self (by omega) (by omega))
      rw [List.foldl_append, hrec acc]
      simp only [List.foldl_cons, List.foldl_nil, List.length_append,
        List.length_singleton]
      rw [(digitChar_props (n % 10) (Nat.mod_lt _ (by omega))).2.1]
      have hpow : 10 ^ ((natToStr (n / 10)).length + 1)
          = 10 ^ (natToStr (n / 10)).length * 10 := by ring
      have hdm := Nat.div_add_mod n 10
      rw [hpow]
      have : (48 + n % 10 - 48) = n % 10 := by omega
      rw [this]
      ring_nf
      omega

/-- `parseDigits` inverts `natToStr`. -/
theorem parseDigits_natToStr (n : Nat) :
    parseIntStr.parseDigits (natToStr n) = some n := by
  obtain ⟨hne, hdig⟩ := natToStr_props n
  unfold parseIntStr.parseDigits
  rw [if_neg]
  · rw [natToStr_foldl n 0]
    simp
  · simp only [Bool.or_eq_true, Bool.not_eq_true', not_or]
    constructor
    · simpa using hne
    · simp only [Bool.not_eq_false]
      exact List.all_eq_true.mpr (fun c hc => hdig c hc)

/-- `parseIntStr` on a non-dash-headed string goes through `parseDigits`. -/
theorem parseIntStr_nondash (c : Char) (cs : Str) (hc : c ≠ '-') :
    parseIntStr (c :: cs)
      = (parseIntStr.parseDigits (c :: cs)).map (fun n => (n : Int)) := by
  conv_lhs => unfold parseIntStr
  split
  · rename_i h
    injection h with h1 h2
    exact absurd h1 hc
  · rfl

/-- `parseIntStr` on a dash-headed string negates the digits. -/
theorem parseIntStr_dash (cs : Str) :
    parseIntStr ('-' :: cs)
      = (parseIntStr.parseDigits cs).map (fun n => -(n : Int)) := by
  conv_lhs => unfold parseIntStr
  split
  · rename_i h
    injection h with h1 h2
    rw [h2]
  · rename_i h
    exact absurd rfl (h cs)

/-- `parseIntStr` inverts `intToStr`. -/
theorem parseIntStr_intToStr (p : Int) : parseIntStr (intToStr p) = some p := by
  unfold intToStr
  by_cases hp : p < 0
  · rw [if_pos hp, parseIntStr_dash, parseDigits_natToStr]
    show some (-(p.natAbs : Int)) = some p
    congr 1
    omega
  · rw [if_neg hp]
    obtain ⟨hne, hdig⟩ := natToStr_props p.natAbs
    obtain ⟨c, cs, hcs⟩ := List.exists_cons_of_ne_nil hne
    have hcd : c.isDigit = true :=
      hdig c (by rw [hcs]; exact List.mem_cons_self c cs)
    have hcdash : c ≠ '-' := by
      intro he
      rw [he] at hcd
      exact absurd hcd (by decide)
    rw [hcs, parseIntStr_nondash c cs hcdash, ← hcs, parseDigits_natToStr]
    show some ((p.natAbs : Int)) = some p
    congr 1
    omega

/-- A valid timestamp is nonempty. -/
theorem isTimestamp_ne_nil (v : Str) (h : isTimestamp v = true) :
    v.isEmpty = false := by
  cases v with
  | nil => exact absurd h (by decide)
  | cons c cs => rfl

/-- Folding block items extends the `tags` field in order. -/
theorem yamlAdd_fold_tags : ∀ (vs : List Str) (t0 : Ticket),
    vs.foldl (fun acc v => yamlAddItem acc .tags v) t0
      = { t0 with tags := t0.tags ++ vs }
  | [], t0 => by simp
  | v :: vs, t0 => by
    rw [List.foldl_cons]
    show vs.foldl _ { t0 with tags := t0.tags ++ [v] } = _
    rw [yamlAdd_fold_tags vs _]
    have h : (t0.tags ++ [v]) ++ vs = t0.tags ++ v :: vs := by simp
    show ({ t0 with tags := (t0.tags ++ [v]) ++ vs } : Ticket) = _
    rw [h]

/-- Folding block items extends the `deps` field in order. -/
theorem yamlAdd_fold_deps : ∀ (vs : List Str) (t0 : Ticket),
    vs.foldl (fun acc v => yamlAddItem acc .deps v) t0
      = { t0 with deps := t0.deps ++ vs }
  | [], t0 => by simp
  | v :: vs, t0 => by
    rw [List.foldl_cons]
    show vs.foldl _ { t0 with deps := t0.deps ++ [v] } = _
    rw [yamlAdd_fold_deps vs _]
    have h : (t0.deps ++ [v]) ++ vs = t0.deps ++ v :: vs := by simp
    show ({ t0 with deps := (t0.deps ++ [v]) ++ vs } : Ticket) = _
    rw [h]

/-- Folding block items extends the `links` field in order. -/
theorem yamlAdd_fold_links : ∀ (vs : List Str) (t0 : Ticket),
    vs.foldl (fun acc v => yamlAddItem acc .links v) t0
      = { t0 with links := t0.links ++ vs }
  | [], t0 => by simp
  | v :: vs, t0 => by
    rw [List.foldl_cons]
    show vs.foldl _ { t0 with links := t0.links ++ [v] } = _
    rw [yamlAdd_fold_links vs _]
    have h : (t0.links ++ [v]) ++ vs = t0.links ++ v :: vs := by simp
    show ({ t0 with links := (t0.links ++ [v]) ++ vs } : Ticket) = _
    rw [h]

/-- The monadic fold over rendered block items applies the item updates. -/
theorem yamlFold_items (lk : ListKey) : ∀ (vs : List Str) (t0 : Ticket),
    (vs.map (fun v => str "    - " ++ v)).foldlM yamlLine (t0, some lk)
      = some (vs.foldl (fun acc v => yamlAddItem acc lk v) t0, some lk)
  | [], t0 => rfl
  | v :: vs, t0 => by
    rw [List.map_cons]
    show (yamlLine (t0, some lk) (str "    - " ++ v) >>= fun st =>
      (vs.map (fun v => str "    - " ++ v)).foldlM yamlLine st) = _
    rw [yamlLine_item]
    show (vs.map (fun v => str "    - " ++ v)).foldlM yamlLine
      (yamlAddItem t0 lk v, some lk) = _
    rw [yamlFold_items lk vs _, List.foldl_cons]

/-- Frontmatter fold, suffix from `created`. -/
theorem yamlFoldSuffix_created (t : Ticket) (hts : isTimestamp t.created = true)
    (t0 : Ticket) (ctx : Option ListKey) :
    ([str "created: " ++ t.created]).foldlM yamlLine (t0, ctx)
      = some ({ t0 with created := t.created }, none) := by
  rw [List.foldlM_cons,
    yamlLine_created t0 ctx t.created (isTimestamp_ne_nil _ hts) hts]
  rfl

/-- Frontmatter fold, suffix from the `links` block. -/
theorem yamlFoldSuffix_links (t : Ticket) (hts : isTimestamp t.created = true)
    (t0 : Ticket) (ctx : Option ListKey) :
    (yamlEmitLines.emitList "links" t.links
        ++ [str "created: " ++ t.created]).foldlM yamlLine (t0, ctx)
      = some ({ t0 with links := t0.links ++ t.links, created := t.created }, none) := by
  by_cases hl : t.links.isEmpty
  · have he : yamlEmitLines.emitList "links" t.links = [] := by
      unfold yamlEmitLines.emitList
      rw [if_pos hl]
    rw [he, List.nil_append, List.isEmpty_iff.mp hl, List.append_nil]
    exact yamlFoldSuffix_created t hts t0 ctx
  · have he : yamlEmitLines.emitList "links" t.links
        = str "links:" :: t.links.map (fun v => str "    - " ++ v) := by
      unfold yamlEmitLines.emitList
      rw [if_neg hl]
      rfl
    rw [he, List.cons_append, List.foldlM_cons, yamlLine_linksHeader]
    simp only [Option.bind_eq_bind, Option.some_bind]
    rw [List.foldlM_append, yamlFold_items ListKey.links t.links t0,
      yamlAdd_fold_links]
    simp only [Option.bind_eq_bind, Option.some_bind]
    rw [yamlFoldSuffix_created t hts _ _]

/-- Frontmatter fold, suffix from the `deps` block. -/
theorem yamlFoldSuffix_deps (t : Ticket) (hts : isTimestamp t.created = true)
    (t0 : Ticket) (ctx : Option ListKey) :
    (yamlEmitLines.emitList "deps" t.deps
        ++ (yamlEmitLines.emitList "links" t.links
          ++ [str "created: " ++ t.created])).foldlM yamlLine (t0, ctx)
      = some ({ t0 with deps := t0.deps ++ t.deps, links := t0.links ++ t.links, created := t.created }, none) := by
  by_cases hd : t.deps.isEmpty
  · have he : yamlEmitLines.emitList "deps" t.deps = [] := by
      unfold yamlEmitLines.emitList
      rw [if_pos hd]
    rw [he, List.nil_append, List.isEmpty_iff.mp hd, List.append_nil]
    exact yamlFoldSuffix_links t hts t0 ctx
  · have he : yamlEmitLines.emitList "deps" t.deps
        = str "deps:" :: t.deps.map (fun v => str "    - " ++ v) := by
      unfold yamlEmitLines.emitList
      rw [if_neg hd]
      rfl
    rw [he, List.cons_append, List.foldlM_cons, yamlLine_depsHeader]
    simp only [Option.bind_eq_bind, Option.some_bind]
    rw [List.foldlM_append, yamlFold_items ListKey.deps t.deps t0,
      yamlAdd_fold_deps]
    simp only [Option.bind_eq_bind, Option.some_bind]
    rw [yamlFoldSuffix_links t hts _ _]

/-- Frontmatter fold, suffix from the `tags` block. -/
theorem yamlFoldSuffix_tags (t : Ticket) (hts : isTimestamp t.created = true)
    (t0 : Ticket) (ctx : Option ListKey) :
    (yamlEmitLines.emitList "tags" t.tags
        ++ (yamlEmitLines.emitList "deps" t.deps
          ++ (yamlEmitLines.emitList "links" t.links
            ++ [str "created: " ++ t.created]))).foldlM yamlLine (t0, ctx)
      = some ({ t0 with tags := t0.tags ++ t.tags, deps := t0.deps ++ t.deps, links := t0.links ++ t.links, created := t.created }, none) := by
  by_cases ht : t.tags.isEmpty
  · have he : yamlEmitLines.emitList "tags" t.tags = [] := by
      unfold yamlEmitLines.emitList
      rw [if_pos ht]
    rw [he, List.nil_append, List.isEmpty_iff.mp ht, List.append_nil]
    exact yamlFoldSuffix_deps t hts t0 ctx
  · have he : yamlEmitLines.emitList "tags" t.tags
        = str "tags:" :: t.tags.map (fun v => str "    - " ++ v) := by
      unfold yamlEmitLines.emitList
      rw [if_neg ht]
      rfl
    rw [he, List.cons_append, List.foldlM_cons, yamlLine_tagsHeader]
    simp only [Option.bind_eq_bind, Option.some_bind]
    rw [List.foldlM_append, yamlFold_items ListKey.tags t.tags t0,
      yamlAdd_fold_tags]
    simp only [Option.bind_eq_bind, Option.some_bind]
    rw [yamlFoldSuffix_deps t hts _ _]

/-- Frontmatter fold, suffix from `external-ref`. -/
theorem yamlFoldSuffix_extref (t : Ticket) (hts : isTimestamp t.created = true)
    (t0 : Ticket) (ctx : Option ListKey)
    (h0 : t.externalRef.isEmpty = true → t0.externalRef = t.externalRef) :
    ((if t.externalRef.isEmpty then [] else [str "external-ref: " ++ t.externalRef])
        ++ (yamlEmitLines.emitList "tags" t.tags
          ++ (yamlEmitLines.emitList "deps" t.deps
            ++ (yamlEmitLines.emitList "links" t.links
              ++ [str "created: " ++ t.created])))).foldlM yamlLine (t0, ctx)
      = some ({ t0 with externalRef := t.externalRef, tags := t0.tags ++ t.tags, deps := t0.deps ++ t.deps, links := t0.links ++ t.links, created := t.created }, none) := by
  by_cases hx : t.externalRef.isEmpty
  · rw [if_pos hx, List.nil_append, ← h0 hx]
    exact yamlFoldSuffix_tags t hts t0 ctx
  · rw [if_neg hx, List.singleton_append, List.foldlM_cons, yamlLine_externalRef]
    simp only [Option.bind_eq_bind, Option.some_bind]
    rw [yamlFoldSuffix_tags t hts _ _]

/-- Frontmatter fold, suffix from `parent`. -/
theorem yamlFoldSuffix_parent (t : Ticket) (hts : isTimestamp t.created = true)
    (t0 : Ticket) (ctx : Option ListKey)
    (h0p : t.parent.isEmpty = true → t0.parent = t.parent)
    (h0 : t.externalRef.isEmpty = true → t0.externalRef = t.externalRef) :
    ((if t.parent.isEmpty then [] else [str "parent: " ++ t.parent])
        ++ ((if t.externalRef.isEmpty then [] else [str "external-ref: " ++ t.externalRef])
          ++ (yamlEmitLines.emitList "tags" t.tags
            ++ (yamlEmitLines.emitList "deps" t.deps
              ++ (yamlEmitLines.emitList "links" t.links
                ++ [str "created: " ++ t.created]))))).foldlM yamlLine (t0, ctx)
      = some ({ t0 with parent := t.parent, externalRef := t.externalRef, tags := t0.tags ++ t.tags, deps := t0.deps ++ t.deps, links := t0.links ++ t.links, created := t.created }, none) := by
  by_cases hp : t.parent.isEmpty
  · rw [if_pos hp, List.nil_append, ← h0p hp]
    exact yamlFoldSuffix_extref t hts t0 ctx h0
  · rw [if_neg hp, List.singleton_append, List.foldlM_cons, yamlLine_parent]
    simp only [Option.bind_eq_bind, Option.some_bind]
    exact yamlFoldSuffix_extref t hts { t0 with parent := t.parent } none h0

/-- Frontmatter fold, suffix from `assignee`. -/
theorem yamlFoldSuffix_assignee (t : Ticket) (hts : isTimestamp t.created = true)
    (t0 : Ticket) (ctx : Option ListKey)
    (h0a : t.assignee.isEmpty = true → t0.assignee = t.assignee)
    (h0p : t.parent.isEmpty = true → t0.parent = t.parent)
    (h0 : t.externalRef.isEmpty = true → t0.externalRef = t.externalRef) :
    ((if t.assignee.isEmpty then [] else [str "assignee: " ++ t.assignee])
        ++ ((if t.parent.isEmpty then [] else [str "parent: " ++ t.parent])
          ++ ((if t.externalRef.isEmpty then [] else [str "external-ref: " ++ t.externalRef])
            ++ (yamlEmitLines.emitList "tags" t.tags
              ++ (yamlEmitLines.emitList "deps" t.deps
                ++ (yamlEmitLines.emitList "links" t.links
                  ++ [str "created: " ++ t.created])))))).foldlM yamlLine (t0, ctx)
      = some ({ t0 with assignee := t.assignee, parent := t.parent, externalRef := t.externalRef, tags := t0.tags ++ t.tags, deps := t0.deps ++ t.deps, links := t0.links ++ t.links, created := t.created }, none) := by
  by_cases ha : t.assignee.isEmpty
  · rw [if_pos ha, List.nil_append, ← h0a ha]
    exact yamlFoldSuffix_parent t hts t0 ctx h0p h0
  · rw [if_neg ha, List.singleton_append, List.foldlM_cons, yamlLine_assignee]
    simp only [Option.bind_eq_bind, Option.some_bind]
    exact yamlFoldSuffix_parent t hts { t0 with assignee := t.assignee } none h0p h0

/-- Frontmatter fold, suffix from `priority`. -/
theorem yamlFoldSuffix_priority (t : Ticket) (hts : isTimestamp t.created = true)
    (t0 : Ticket) (ctx : Option ListKey)
    (h0r : t.priority = 0 → t0.priority = t.priority)
    (h0a : t.assignee.isEmpty = true → t0.assignee = t.assignee)
    (h0p : t.parent.isEmpty = true → t0.parent = t.parent)
    (h0 : t.externalRef.isEmpty = true → t0.externalRef = t.externalRef) :
    ((if t.priority = 0 then [] else [str "priority: " ++ intToStr t.priority])
        ++ ((if t.assignee.isEmpty then [] else [str "assignee: " ++ t.assignee])
          ++ ((if t.parent.isEmpty then [] else [str "parent: " ++ t.parent])
            ++ ((if t.externalRef.isEmpty then [] else [str "external-ref: " ++ t.externalRef])
              ++ (yamlEmitLines.emitList "tags" t.tags
                ++ (yamlEmitLines.emitList "deps" t.deps
                  ++ (yamlEmitLines.emitList "links" t.links
                    ++ [str "created: " ++ t.created]))))))).foldlM yamlLine (t0, ctx)
      = some ({ t0 with priority := t.priority, assignee := t.assignee, parent := t.parent, externalRef := t.externalRef, tags := t0.tags ++ t.tags, deps := t0.deps ++ t.deps, links := t0.links ++ t.links, created := t.created }, none) := by
  by_cases hr : t.priority = 0
  · rw [if_pos hr, List.nil_append, ← h0r hr]
    exact yamlFoldSuffix_assignee t hts t0 ctx h0a h0p h0
  · rw [if_neg hr, List.singleton_append, List.foldlM_cons,
      yamlLine_priority t0 ctx (intToStr t.priority) t.priority
        (parseIntStr_intToStr t.priority)]
    simp only [Option.bind_eq_bind, Option.some_bind]
    exact yamlFoldSuffix_assignee t hts { t0 with priority := t.priority } none h0a h0p h0

/-- Frontmatter fold, suffix from `type`. -/
theorem yamlFoldSuffix_type (t : Ticket) (hts : isTimestamp t.created = true)
    (t0 : Ticket) (ctx : Option ListKey)
    (h0t : t.type.isEmpty = true → t0.type = t.type)
    (h0r : t.priority = 0 → t0.priority = t.priority)
    (h0a : t.assignee.isEmpty = true → t0.assignee = t.assignee)
    (h0p : t.parent.isEmpty = true → t0.parent = t.parent)
    (h0 : t.externalRef.isEmpty = true → t0.externalRef = t.externalRef) :
    ((if t.type.isEmpty then [] else [str "type: " ++ t.type])
        ++ ((if t.priority = 0 then [] else [str "priority: " ++ intToStr t.priority])
          ++ ((if t.assignee.isEmpty then [] else [str "assignee: " ++ t.assignee])
            ++ ((if t.parent.isEmpty then [] else [str "parent: " ++ t.parent])
              ++ ((if t.externalRef.isEmpty then [] else [str "external-ref: " ++ t.externalRef])
                ++ (yamlEmitLines.emitList "tags" t.tags
                  ++ (yamlEmitLines.emitList "deps" t.deps
                    ++ (yamlEmitLines.emitList "links" t.links
                      ++ [str "created: " ++ t.created])))))))).foldlM yamlLine (t0, ctx)
      = some ({ t0 with type := t.type, priority := t.priority, assignee := t.assignee, parent := t.parent, externalRef := t.externalRef, tags := t0.tags ++ t.tags, deps := t0.deps ++ t.deps, links := t0.links ++ t.links, created := t.created }, none) := by
  by_cases hty : t.type.isEmpty
  · rw [if_pos hty, List.nil_append, ← h0t hty]
    exact yamlFoldSuffix_priority t hts t0 ctx h0r h0a h0p h0
  · rw [if_neg hty, List.singleton_append, List.foldlM_cons, yamlLine_type]
    simp only [Option.bind_eq_bind, Option.some_bind]
    exact yamlFoldSuffix_priority t hts { t0 with type := t.type } none h0r h0a h0p h0

/-- The full frontmatter fold produces exactly the header ticket. -/
theorem yamlFold_emit (t : Ticket) (hts : isTimestamp t.created = true) :
    (yamlEmitLines t).foldlM yamlLine (({} : Ticket), none)
      = some (fmTicket t, none) := by
  unfold yamlEmitLines
  simp only [List.append_assoc]
  rw [List.singleton_append, List.foldlM_cons, yamlLine_id]
  simp only [Option.bind_eq_bind, Option.some_bind]
  rw [List.singleton_append, List.foldlM_cons, yamlLine_status]
  simp only [Option.bind_eq_bind, Option.some_bind]
  exact yamlFoldSuffix_type t hts
    { ({} : Ticket) with id := t.id, status := t.status } none
    (fun h => by rw [List.isEmpty_iff.mp h])
    (fun h => by rw [h])
    (fun h => by rw [List.isEmpty_iff.mp h])
    (fun h => by rw [List.isEmpty_iff.mp h])
    (fun h => by rw [List.isEmpty_iff.mp h])

/-- `linesAux` on a newline-free remainder yields at most the one pending
line. -/
theorem linesAux_no_nl : ∀ (l cur : Str), nl ∉ l →
    linesAux cur l = if (cur ++ l).isEmpty then [] else [dropCR (cur ++ l)]
  | [], cur, _ => by
    show (if cur.isEmpty then [] else [dropCR cur]) = _
    rw [List.append_nil]
  | c :: l', cur, h => by
    have hc : ¬ c = '\n' := fun hh => h (hh ▸ List.mem_cons_self c l')
    show (if c = '\n' then dropCR cur :: linesAux [] l'
      else linesAux (cur ++ [c]) l') = _
    rw [if_neg hc,
      linesAux_no_nl l' (cur ++ [c]) (fun hh => h (List.mem_cons_of_mem c hh))]
    have he : (cur ++ [c]) ++ l' = cur ++ (c :: l') := by simp
    rw [he]

/-- Splitting joined lines followed by an unterminated final line. -/
theorem linesGo_append_last (tail : Str) (ht : nl ∉ tail) (htr : '\r' ∉ tail)
    (hne : tail ≠ []) : ∀ (ls : List Str), (∀ l ∈ ls, nl ∉ l ∧ '\r' ∉ l) →
    linesGo (joinLinesNl ls ++ tail) = ls ++ [tail]
  | [], _ => by
    show linesAux [] tail = _
    rw [linesAux_no_nl tail [] ht, List.nil_append,
      if_neg (by simpa using hne), dropCR_eq_of_not_mem htr]
    rfl
  | l :: rest, h => by
    have hl := h l (List.mem_cons_self l rest)
    have hrest : ∀ x ∈ rest, nl ∉ x ∧ '\r' ∉ x :=
      fun x hx => h x (List.mem_cons_of_mem l hx)
    have he : joinLinesNl (l :: rest) ++ tail
        = l ++ nl :: (joinLinesNl rest ++ tail) := by
      simp [joinLinesNl, List.append_assoc]
    rw [linesGo, he, linesAux_step l _ hl.1 [], List.nil_append,
      dropCR_eq_of_not_mem hl.2]
    exact congrArg _ (linesGo_append_last tail ht htr hne rest hrest)

/-- `joinLinesNl` is an append homomorphism. -/
theorem joinLinesNl_append (a b : List Str) :
    joinLinesNl (a ++ b) = joinLinesNl a ++ joinLinesNl b := by
  simp [joinLinesNl]

/-- The emitted frontmatter decomposes as leading lines plus the `created`
line. -/
theorem yamlEmitLines_split (t : Ticket) :
    yamlEmitLines t
      = ([str "id: " ++ t.id] ++ [str "status: " ++ t.status]
          ++ (if t.type.isEmpty then [] else [str "type: " ++ t.type])
          ++ (if t.priority = 0 then [] else [str "priority: " ++ intToStr t.priority])
          ++ (if t.assignee.isEmpty then [] else [str "assignee: " ++ t.assignee])
          ++ (if t.parent.isEmpty then [] else [str "parent: " ++ t.parent])
          ++ (if t.externalRef.isEmpty then [] else [str "external-ref: " ++ t.externalRef])
          ++ yamlEmitLines.emitList "tags" t.tags
          ++ yamlEmitLines.emitList "deps" t.deps
          ++ yamlEmitLines.emitList "links" t.links)
        ++ [str "created: " ++ t.created] := rfl

/-- Decoding the frontmatter exactly as `Parse` sees it (the emitted text
without its final newline) recovers the header ticket. -/
theorem yamlParse_emit (t : Ticket) (hts : isTimestamp t.created = true)
    (hlines : ∀ l ∈ yamlEmitLines t, nl ∉ l ∧ '\r' ∉ l) :
    yamlParse ((yamlEmit t).dropLast) = some (fmTicket t) := by
  have hcre_mem : str "created: " ++ t.created ∈ yamlEmitLines t := by
    rw [yamlEmitLines_split]
    exact List.mem_append_right _ (List.mem_singleton.mpr rfl)
  have hcre := hlines _ hcre_mem
  have hdrop : (yamlEmit t).dropLast
      = joinLinesNl ([str "id: " ++ t.id] ++ [str "status: " ++ t.status]
          ++ (if t.type.isEmpty then [] else [str "type: " ++ t.type])
          ++ (if t.priority = 0 then [] else [str "priority: " ++ intToStr t.priority])
          ++ (if t.assignee.isEmpty then [] else [str "assignee: " ++ t.assignee])
          ++ (if t.parent.isEmpty then [] else [str "parent: " ++ t.parent])
          ++ (if t.externalRef.isEmpty then [] else [str "external-ref: " ++ t.externalRef])
          ++ yamlEmitLines.emitList "tags" t.tags
          ++ yamlEmitLines.emitList "deps" t.deps
          ++ yamlEmitLines.emitList "links" t.links)
        ++ (str "created: " ++ t.created) := by
    unfold yamlEmit
    rw [yamlEmitLines_split, joinLinesNl_append]
    have hone : joinLinesNl [str "created: " ++ t.created]
        = (str "created: " ++ t.created) ++ [nl] := by
      simp [joinLinesNl]
    rw [hone, ← List.append_assoc, List.dropLast_concat]
  rw [hdrop]
  unfold yamlParse
  rw [linesGo_append_last (str "created: " ++ t.created) hcre.1 hcre.2
    (by simp [str]) _
    (fun l hl => hlines l (by
      rw [yamlEmitLines_split]
      exact List.mem_append_left _ hl))]
  rw [← yamlEmitLines_split, yamlFold_emit t hts]
  rfl

/-- Digits are not control characters. -/
theorem isDigit_ne_ctl (c : Char) (h : c.isDigit = true) :
    c ≠ nl ∧ c ≠ '\r' := by
  constructor <;> intro he <;> rw [he] at h <;> exact absurd h (by decide)

/-- Plain scalar characters are not control characters. -/
theorem plainChar_ne_ctl (c : Char) (h : plainChar c = true) :
    c ≠ nl ∧ c ≠ '\r' := by
  constructor <;> intro he <;> rw [he] at h <;> exact absurd h (by decide)

/-- Plain scalars contain no newline or carriage return. -/
theorem plainScalar_no_ctl (v : Str) (h : plainScalar v = true) :
    nl ∉ v ∧ '\r' ∉ v := by
  unfold plainScalar at h
  simp only [Bool.and_eq_true] at h
  have hall := h.1.1.1.2
  rw [List.all_eq_true] at hall
  constructor <;> intro hm
  · exact absurd rfl (plainChar_ne_ctl nl (hall nl hm)).1
  · exact absurd rfl (plainChar_ne_ctl '\r' (hall '\r' hm)).2

/-- Rendered naturals contain no control characters. -/
theorem natToStr_no_ctl (n : Nat) : nl ∉ natToStr n ∧ '\r' ∉ natToStr n := by
  have h := (natToStr_props n).2
  constructor <;> intro hm
  · exact absurd rfl (isDigit_ne_ctl nl (h nl hm)).1
  · exact absurd rfl (isDigit_ne_ctl '\r' (h '\r' hm)).2

/-- Rendered integers contain no control characters. -/
theorem intToStr_no_ctl (p : Int) : nl ∉ intToStr p ∧ '\r' ∉ intToStr p := by
  unfold intToStr
  by_cases hp : p < 0
  · rw [if_pos hp]
    have h := natToStr_no_ctl p.natAbs
    constructor <;> intro hm <;> rw [List.mem_cons] at hm
    · rcases hm with he | hm
      · exact absurd he (by decide)
      · exact h.1 hm
    · rcases hm with he | hm
      · exact absurd he (by decide)
      · exact h.2 hm
  · rw [if_neg hp]
    exact natToStr_no_ctl p.natAbs

/-- Timestamp zone suffixes contain no control characters. -/
theorem tsZoneOk_no_ctl (z : Str) (hz : isTimestamp.tsZoneOk z = true) :
    ∀ c ∈ z, c ≠ nl ∧ c ≠ '\r' := by
  unfold isTimestamp.tsZoneOk at hz
  split at hz
  · intro c hc
    rw [List.mem_singleton] at hc
    subst hc
    exact ⟨by decide, by decide⟩
  · rename_i s1 a1 b1 c1 d1
    simp only [Bool.and_eq_true, Bool.or_eq_true, decide_eq_true_eq] at hz
    obtain ⟨⟨⟨hsign, hdig⟩, _⟩, _⟩ := hz
    rw [List.all_eq_true] at hdig
    intro c hc
    simp only [List.mem_cons, List.not_mem_nil, or_false] at hc
    rcases hc with rfl | rfl | rfl | rfl | rfl | rfl
    · rcases hsign with rfl | rfl
      · exact ⟨by decide, by decide⟩
      · exact ⟨by decide, by decide⟩
    · exact isDigit_ne_ctl _ (by simpa using hdig c (by simp))
    · exact isDigit_ne_ctl _ (by simpa using hdig c (by simp))
    · exact ⟨by decide, by decide⟩
    · exact isDigit_ne_ctl _ (by simpa using hdig c (by simp))
    · exact isDigit_ne_ctl _ (by simpa using hdig c (by simp))
  · exact absurd hz (by simp)

/-- A zone suffix starts with `Z` or a sign. -/
theorem tsZoneOk_head (z : Str) (hz : isTimestamp.tsZoneOk z = true) :
    z.headD ' ' = 'Z' ∨ z.headD ' ' = '+' ∨ z.headD ' ' = '-' := by
  unfold isTimestamp.tsZoneOk at hz
  split at hz
  · exact Or.inl rfl
  · simp only [Bool.and_eq_true, Bool.or_eq_true, decide_eq_true_eq] at hz
    obtain ⟨⟨⟨hsign, _⟩, _⟩, _⟩ := hz
    rcases hsign with rfl | rfl
    · exact Or.inr (Or.inl rfl)
    · exact Or.inr (Or.inr rfl)
  · exact absurd hz (by simp)

/-- `tsDropFrac` on a dot-headed tail. -/
theorem tsDropFrac_dot (more : Str) :
    isTimestamp.tsDropFrac ('.' :: more)
      = if (more.takeWhile Char.isDigit).isEmpty then '.' :: more
        else more.dropWhile Char.isDigit := rfl

/-- `tsDropFrac` leaves a non-dot-headed tail alone. -/
theorem tsDropFrac_nondot (r0 : Char) (more : Str) (hr : r0 ≠ '.') :
    isTimestamp.tsDropFrac (r0 :: more) = r0 :: more := by
  conv_lhs => unfold isTimestamp.tsDropFrac
  split
  · rename_i h
    injection h with h1 h2
    exact absurd h1 hr
  · rfl

/-- The tail of a valid timestamp contains no control characters. -/
theorem tsRest_no_ctl (rest : Str)
    (hz : isTimestamp.tsZoneOk (isTimestamp.tsDropFrac rest) = true) :
    ∀ c ∈ rest, c ≠ nl ∧ c ≠ '\r' := by
  cases rest with
  | nil => simp
  | cons r0 more =>
    by_cases hr : r0 = '.'
    · subst hr
      rw [tsDropFrac_dot] at hz
      by_cases hd : (more.takeWhile Char.isDigit).isEmpty
      · rw [if_pos hd] at hz
        rcases tsZoneOk_head _ hz with h | h | h <;>
          (rw [show ('.' :: more).headD ' ' = '.' from rfl] at h;
            exact absurd h (by decide))
      · rw [if_neg hd] at hz
        intro c hc
        rw [List.mem_cons] at hc
        rcases hc with rfl | hc
        · exact ⟨by decide, by decide⟩
        · rw [← List.takeWhile_append_dropWhile (p := Char.isDigit) (l := more),
            List.mem_append] at hc
          rcases hc with hc | hc
          · exact isDigit_ne_ctl c (List.mem_takeWhile_imp hc)
          · exact tsZoneOk_no_ctl _ hz c hc
    · rw [tsDropFrac_nondot r0 more hr] at hz
      exact fun c hc => tsZoneOk_no_ctl _ hz c hc

/-- Valid timestamps contain no control characters. -/
theorem isTimestamp_no_ctl (v : Str) (h : isTimestamp v = true) :
    nl ∉ v ∧ '\r' ∉ v := by
  unfold isTimestamp at h
  split at h
  · rename_i y1 y2 y3 y4 m1 m2 d1 d2 h1 h2 i1 i2 s1 s2 rest
    simp only [Bool.and_eq_true] at h
    obtain ⟨⟨hall, _⟩, hzone⟩ := h
    rw [List.all_eq_true] at hall
    have hdig : ∀ c ∈ [y1, y2, y3, y4, m1, m2, d1, d2, h1, h2, i1, i2, s1, s2],
        c ≠ nl ∧ c ≠ '\r' := fun c hc => isDigit_ne_ctl c (by simpa using hall c hc)
    have hrest := tsRest_no_ctl rest hzone
    constructor <;> intro hm <;>
      simp only [List.mem_cons] at hm
    · rcases hm with h' | h' | h' | h' | h' | h' | h' | h' | h' | h' | h' | h'
        | h' | h' | h' | h' | h' | h' | hm
      · exact (hdig y1 (by simp)).1 h'.symm
      · exact (hdig y2 (by simp)).1 h'.symm
      · exact (hdig y3 (by simp)).1 h'.symm
      · exact (hdig y4 (by simp)).1 h'.symm
      · exact absurd h' (by decide)
      · exact (hdig m1 (by simp)).1 h'.symm
      · exact (hdig m2 (by simp)).1 h'.symm
      · exact absurd h' (by decide)
      · exact (hdig d1 (by simp)).1 h'.symm
      · exact (hdig d2 (by simp)).1 h'.symm
      · exact absurd h' (by decide)
      · exact (hdig h1 (by simp)).1 h'.symm
      · exact (hdig h2 (by simp)).1 h'.symm
      · exact absurd h' (by decide)
      · exact (hdig i1 (by simp)).1 h'.symm
      · exact (hdig i2 (by simp)).1 h'.symm
      · exact absurd h' (by decide)
      · exact (hdig s1 (by simp)).1 h'.symm
      · rcases hm with h' | hm
        · exact (hdig s2 (by simp)).1 h'.symm
        · exact (hrest nl hm).1 rfl
    · rcases hm with h' | h' | h' | h' | h' | h' | h' | h' | h' | h' | h' | h'
        | h' | h' | h' | h' | h' | h' | hm
      · exact (hdig y1 (by simp)).2 h'.symm
      · exact (hdig y2 (by simp)).2 h'.symm
      · exact (hdig y3 (by simp)).2 h'.symm
      · exact (hdig y4 (by simp)).2 h'.symm
      · exact absurd h' (by decide)
      · exact (hdig m1 (by simp)).2 h'.symm
      · exact (hdig m2 (by simp)).2 h'.symm
      · exact absurd h' (by decide)
      · exact (hdig d1 (by simp)).2 h'.symm
      · exact (hdig d2 (by simp)).2 h'.symm
      · exact absurd h' (by decide)
      · exact (hdig h1 (by simp)).2 h'.symm
      · exact (hdig h2 (by simp)).2 h'.symm
      · exact absurd h' (by decide)
      · exact (hdig i1 (by simp)).2 h'.symm
      · exact (hdig i2 (by simp)).2 h'.symm
      · exact absurd h' (by decide)
      · exact (hdig s1 (by simp)).2 h'.symm
      · rcases hm with h' | hm
        · exact (hdig s2 (by simp)).2 h'.symm
        · exact (hrest '\r' hm).2 rfl
  · exact absurd h (by simp)

/-- The head of an append with nonempty prefix. -/
theorem headD_append (pre v : Str) (h : pre ≠ []) :
    (pre ++ v).headD ' ' = pre.headD ' ' := by
  cases pre with
  | nil => exact absurd rfl h
  | cons c cs => rfl

/-- A scalar header line built from a safe prefix and a control-free value
is itself safe. -/
theorem scalar_line_props (pre v : Str)
    (hpre : pre ≠ [] ∧ nl ∉ pre ∧ '\r' ∉ pre ∧ pre.headD ' ' ≠ '-')
    (hv : nl ∉ v ∧ '\r' ∉ v) :
    pre ++ v ≠ [] ∧ nl ∉ pre ++ v ∧ '\r' ∉ pre ++ v
      ∧ (pre ++ v).headD ' ' ≠ '-' := by
  obtain ⟨h1, h2, h3, h4⟩ := hpre
  refine ⟨?_, ?_, ?_, ?_⟩
  · intro he
    exact h1 (List.append_eq_nil.mp he).1
  · intro hm
    rcases List.mem_append.mp hm with hm | hm
    · exact h2 hm
    · exact hv.1 hm
  · intro hm
    rcases List.mem_append.mp hm with hm | hm
    · exact h3 hm
    · exact hv.2 hm
  · rw [headD_append pre v h1]
    exact h4

/-- Membership in an emitted block sequence. -/
theorem mem_emitList (k : String) (vs : List Str) (l : Str)
    (hl : l ∈ yamlEmitLines.emitList k vs) :
    l = str k ++ [':'] ∨ ∃ v ∈ vs, l = str "    - " ++ v := by
  unfold yamlEmitLines.emitList at hl
  split at hl
  · exact absurd hl (List.not_mem_nil l)
  · rw [List.mem_cons] at hl
    rcases hl with he | hm
    · exact Or.inl he
    · obtain ⟨v, hv, he⟩ := List.mem_map.mp hm
      exact Or.inr ⟨v, hv, he.symm⟩

/-- Emitted block-sequence lines are safe when the items are plain. -/
theorem emitList_line_props (k : String) (vs : List Str) (l : Str)
    (hk : str k ++ [':'] ≠ [] ∧ nl ∉ str k ++ [':'] ∧ '\r' ∉ str k ++ [':']
      ∧ (str k ++ [':']).headD ' ' ≠ '-')
    (hvs : ∀ v ∈ vs, plainScalar v = true)
    (hl : l ∈ yamlEmitLines.emitList k vs) :
    l ≠ [] ∧ nl ∉ l ∧ '\r' ∉ l ∧ l.headD ' ' ≠ '-' := by
  rcases mem_emitList k vs l hl with he | ⟨v, hv, he⟩
  · rw [he]
    exact hk
  · rw [he]
    exact scalar_line_props (str "    - ") v
      ⟨by decide, by decide, by decide, by decide⟩
      (plainScalar_no_ctl v (hvs v hv))

/-- Every emitted frontmatter line is nonempty, free of control characters
and does not start with a dash. -/
theorem yamlEmitLines_props (t : Ticket) (hp : headerPlain t = true) :
    ∀ l ∈ yamlEmitLines t, l ≠ [] ∧ nl ∉ l ∧ '\r' ∉ l ∧ l.headD ' ' ≠ '-' := by
  have hp' := hp
  unfold headerPlain at hp'
  simp only [Bool.and_eq_true, Bool.or_eq_true] at hp'
  obtain ⟨⟨⟨⟨⟨⟨⟨⟨⟨hid, hst⟩, hty⟩, has⟩, hpa⟩, hex⟩, htags⟩, hdeps⟩, hlinks⟩,
    hcre⟩ := hp'
  rw [List.all_eq_true] at htags hdeps hlinks
  intro l hl
  unfold yamlEmitLines at hl
  simp only [List.mem_append, List.mem_singleton] at hl
  rcases hl with (((((((((hc | hc) | hc) | hc) | hc) | hc) | hc) | hc) | hc)
    | hc) | hc
  · rw [hc]
    exact scalar_line_props (str "id: ") t.id
      ⟨by decide, by decide, by decide, by decide⟩ (plainScalar_no_ctl _ hid)
  · rw [hc]
    exact scalar_line_props (str "status: ") t.status
      ⟨by decide, by decide, by decide, by decide⟩ (plainScalar_no_ctl _ hst)
  · by_cases hcnd : t.type.isEmpty
    · rw [if_pos hcnd] at hc
      exact absurd hc (List.not_mem_nil l)
    · rw [if_neg hcnd, List.mem_singleton] at hc
      rw [hc]
      have hplain := hty.resolve_left (by simpa using hcnd)
      exact scalar_line_props (str "type: ") t.type
        ⟨by decide, by decide, by decide, by decide⟩ (plainScalar_no_ctl _ hplain)
  · by_cases hcnd : t.priority = 0
    · rw [if_pos hcnd] at hc
      exact absurd hc (List.not_mem_nil l)
    · rw [if_neg hcnd, List.mem_singleton] at hc
      rw [hc]
      exact scalar_line_props (str "priority: ") (intToStr t.priority)
        ⟨by decide, by decide, by decide, by decide⟩ (intToStr_no_ctl t.priority)
  · by_cases hcnd : t.assignee.isEmpty
    · rw [if_pos hcnd] at hc
      exact absurd hc (List.not_mem_nil l)
    · rw [if_neg hcnd, List.mem_singleton] at hc
      rw [hc]
      have hplain := has.resolve_left (by simpa using hcnd)
      exact scalar_line_props (str "assignee: ") t.assignee
        ⟨by decide, by decide, by decide, by decide⟩ (plainScalar_no_ctl _ hplain)
  · by_cases hcnd : t.parent.isEmpty
    · rw [if_pos hcnd] at hc
      exact absurd hc (List.not_mem_nil l)
    · rw [if_neg hcnd, List.mem_singleton] at hc
      rw [hc]
      have hplain := hpa.resolve_left (by simpa using hcnd)
      exact scalar_line_props (str "parent: ") t.parent
        ⟨by decide, by decide, by decide, by decide⟩ (plainScalar_no_ctl _ hplain)
  · by_cases hcnd : t.externalRef.isEmpty
    · rw [if_pos hcnd] at hc
      exact absurd hc (List.not_mem_nil l)
    · rw [if_neg hcnd, List.mem_singleton] at hc
      rw [hc]
      have hplain := hex.resolve_left (by simpa using hcnd)
      exact scalar_line_props (str "external-ref: ") t.externalRef
        ⟨by decide, by decide, by decide, by decide⟩ (plainScalar_no_ctl _ hplain)
  · exact emitList_line_props "tags" t.tags l
      ⟨by decide, by decide, by decide, by decide⟩ htags hc
  · exact emitList_line_props "deps" t.deps l
      ⟨by decide, by decide, by decide, by decide⟩ hdeps hc
  · exact emitList_line_props "links" t.links l
      ⟨by decide, by decide, by decide, by decide⟩ hlinks hc
  · rw [hc]
    exact scalar_line_props (str "created: ") t.created
      ⟨by decide, by decide, by decide, by decide⟩ (isTimestamp_no_ctl _ hcre)

/-- `findSub` for the header delimiter skips a newline-free prefix. -/
theorem findSub_nl_skip : ∀ (l : Str), nl ∉ l → ∀ (s : Str),
    findSub (str "\n---\n") (l ++ s)
      = (findSub (str "\n---\n") s).map (· + l.length)
  | [], _, s => by
    simp only [List.nil_append, List.length_nil]
    cases findSub (str "\n---\n") s <;> simp
  | c :: l', h, s => by
    have hcne : c ≠ nl := fun he => h (he ▸ List.mem_cons_self c l')
    have hb : ('\n' == c) = false :=
      beq_eq_false_iff_ne.mpr (fun he => hcne he.symm)
    have hpre : (str "\n---\n").isPrefixOf (c :: (l' ++ s)) = false := by
      simp [str, List.isPrefixOf, hb]
    show (if (str "\n---\n").isPrefixOf (c :: (l' ++ s)) = true then some 0
      else (findSub (str "\n---\n") (l' ++ s)).map (· + 1)) = _
    rw [hpre, if_neg Bool.false_ne_true,
      findSub_nl_skip l' (fun hm => h (List.mem_cons_of_mem c hm)) s]
    cases findSub (str "\n---\n") s with
    | none => rfl
    | some i =>
      simp [Nat.add_assoc]

/-- The header delimiter is first found exactly at the final newline of the
emitted lines. -/
theorem findSub_fm : ∀ (ls : List Str), ls ≠ [] →
    (∀ l ∈ ls, l ≠ [] ∧ nl ∉ l ∧ l.headD ' ' ≠ '-') → ∀ (body : Str),
    findSub (str "\n---\n") (joinLinesNl ls ++ (str "---" ++ (nl :: body)))
      = some ((joinLinesNl ls).length - 1)
  | [], hne, _, _ => absurd rfl hne
  | l :: rest, _, h, body => by
    have hl := h l (List.mem_cons_self l rest)
    have he : joinLinesNl (l :: rest) ++ (str "---" ++ (nl :: body))
        = l ++ (nl :: (joinLinesNl rest ++ (str "---" ++ (nl :: body)))) := by
      simp [joinLinesNl, List.append_assoc]
    rw [he, findSub_nl_skip l hl.2.1 _]
    cases rest with
    | nil =>
      have hred : (nl :: (joinLinesNl [] ++ (str "---" ++ (nl :: body))))
          = str "\n---\n" ++ body := rfl
      rw [hred]
      have hpre : (str "\n---\n").isPrefixOf (str "\n---\n" ++ body) = true :=
        isPrefixOf_append_self _ _
      have hfs : findSub (str "\n---\n") (str "\n---\n" ++ body) = some 0 := by
        show (if (str "\n---\n").isPrefixOf (str "\n---\n" ++ body) = true
          then some 0
          else (findSub (str "\n---\n") ((str "---\n" : Str) ++ body)).map (· + 1)) = _
        rw [hpre, if_pos rfl]
      rw [hfs]
      simp [joinLinesNl]
    | cons l2 rest' =>
      have hl2 := h l2 (List.mem_cons_of_mem l (List.mem_cons_self l2 rest'))
      obtain ⟨c2, l2t, hc2⟩ := List.exists_cons_of_ne_nil hl2.1
      have hc2d : c2 ≠ '-' := by
        have := hl2.2.2
        rw [hc2] at this
        exact this
      have he2 : joinLinesNl (l2 :: rest') ++ (str "---" ++ (nl :: body))
          = l2 ++ (nl :: (joinLinesNl rest' ++ (str "---" ++ (nl :: body)))) := by
        simp [joinLinesNl, List.append_assoc]
      have hb : ('-' == c2) = false :=
        beq_eq_false_iff_ne.mpr (fun he => hc2d he.symm)
      have hpre : (str "\n---\n").isPrefixOf
          (nl :: (joinLinesNl (l2 :: rest') ++ (str "---" ++ (nl :: body))))
          = false := by
        rw [he2, hc2]
        simp [str, List.isPrefixOf, hb]
      have hstep : findSub (str "\n---\n")
          (nl :: (joinLinesNl (l2 :: rest') ++ (str "---" ++ (nl :: body))))
          = (findSub (str "\n---\n")
              (joinLinesNl (l2 :: rest') ++ (str "---" ++ (nl :: body)))).map
            (· + 1) := by
        show (if (str "\n---\n").isPrefixOf
            (nl :: (joinLinesNl (l2 :: rest') ++ (str "---" ++ (nl :: body))))
            = true then some 0 else _) = _
        rw [hpre, if_neg Bool.false_ne_true]
      rw [hstep, findSub_fm (l2 :: rest') (by simp)
        (fun x hx => h x (List.mem_cons_of_mem l hx)) body]
      have hJ : joinLinesNl (l2 :: rest') = l2 ++ (nl :: joinLinesNl rest') := by
        simp [joinLinesNl, List.append_assoc]
      have hJpos : 0 < (joinLinesNl (l2 :: rest')).length := by
        rw [hJ]
        simp
      have hJf : joinLinesNl (l :: l2 :: rest')
          = l ++ (nl :: joinLinesNl (l2 :: rest')) := by
        simp [joinLinesNl, List.append_assoc]
      rw [hJf]
      simp only [Option.map_some', List.length_append, List.length_cons]
      congr 1
      omega

/-- The emitted frontmatter line list is never empty. -/
theorem yamlEmitLines_ne_nil (t : Ticket) : yamlEmitLines t ≠ [] := by
  rw [yamlEmitLines_split]
  simp

/-- The emitted frontmatter text is nonempty. -/
theorem yamlEmit_length_pos (t : Ticket) : 0 < (yamlEmit t).length := by
  unfold yamlEmit
  rw [yamlEmitLines_split, joinLinesNl_append]
  have hone : joinLinesNl [str "created: " ++ t.created]
      = (str "created: " ++ t.created) ++ [nl] := by
    simp [joinLinesNl]
  rw [hone]
  simp

/-- `splitFrontmatter` on rendered content returns exactly the emitted
header text (without its final newline) and the rendered body. -/
theorem splitFrontmatter_render (t : Ticket) (hp : headerPlain t = true) :
    splitFrontmatter (Render t)
      = some ((yamlEmit t).dropLast, RenderMarkdownBody t) := by
  have hprops := yamlEmitLines_props t hp
  have hRe : Render t
      = str "---\n" ++ (yamlEmit t ++ (str "---\n" ++ RenderMarkdownBody t)) := by
    unfold Render
    simp [List.append_assoc]
  unfold splitFrontmatter
  rw [hRe, if_pos (isPrefixOf_append_self (str "---\n") _)]
  rw [show (4 : Nat) = (str "---\n").length from rfl, List.drop_left]
  have hdelim : (str "---\n" : Str) ++ RenderMarkdownBody t
      = str "---" ++ (nl :: RenderMarkdownBody t) := rfl
  rw [hdelim]
  have hfs : findSub (str "\n---\n")
      (yamlEmit t ++ (str "---" ++ (nl :: RenderMarkdownBody t)))
      = some ((yamlEmit t).length - 1) :=
    findSub_fm (yamlEmitLines t) (yamlEmitLines_ne_nil t)
      (fun l hl => ⟨(hprops l hl).1, (hprops l hl).2.1, (hprops l hl).2.2.2⟩)
      (RenderMarkdownBody t)
  simp only []
  rw [hfs]
  simp only []
  have hpos := yamlEmit_length_pos t
  have htake : (yamlEmit t ++ (str "---" ++ (nl :: RenderMarkdownBody t))).take
      ((yamlEmit t).length - 1) = (yamlEmit t).dropLast := by
    rw [List.take_append_of_le_length (by omega), ← List.dropLast_eq_take]
  have hdropn : (yamlEmit t ++ (str "---" ++ (nl :: RenderMarkdownBody t))).drop
      ((yamlEmit t).length - 1 + 5) = RenderMarkdownBody t := by
    rw [show (yamlEmit t).length - 1 + 5 = (yamlEmit t).length + 4 by omega,
      List.drop_append 4]
    rfl
  rw [htake, hdropn]

/-- Parsing rendered content decodes the header and re-scans the body. -/
theorem Parse_Render (t : Ticket) (hp : headerPlain t = true) :
    Parse (Render t)
      = some (ParseMarkdownBody (fmTicket t) (RenderMarkdownBody t)) := by
  have hts : isTimestamp t.created = true := by
    unfold headerPlain at hp
    simp only [Bool.and_eq_true] at hp
    exact hp.2
  have hlines : ∀ l ∈ yamlEmitLines t, nl ∉ l ∧ '\r' ∉ l := fun l hl =>
    ⟨(yamlEmitLines_props t hp l hl).2.1, (yamlEmitLines_props t hp l hl).2.2.1⟩
  unfold Parse
  rw [splitFrontmatter_render t hp]
  simp only []
  rw [yamlParse_emit t hts hlines]

/-- `flushSection` never touches the status. -/
theorem flushSection_status (t : Ticket) (cur : Sect) (buf : Str) :
    (flushSection t cur buf).status = t.status := by
  cases cur <;> rfl

/-- One body-scan step never touches the status. -/
theorem bodyStep_status (st : BodyState) (l : Str) :
    (bodyStep st l).1.status = st.1.status := by
  obtain ⟨t, cur, buf⟩ := st
  unfold bodyStep
  split_ifs with h1 h2
  · simp [flushSection_status]
  · simp only []
    split_ifs <;> simp [flushSection_status]
  · simp [flushSection_status]

/-- The body-scan fold never touches the status. -/
theorem bodyFold_status (ls : List Str) : ∀ st : BodyState,
    ((ls.foldl bodyStep st).1).status = st.1.status := by
  induction ls with
  | nil => intro st; rfl
  | cons l ls ih =>
    intro st
    rw [List.foldl_cons, ih (bodyStep st l), bodyStep_status]

/-- `ParseMarkdownBody` never touches the status. -/
theorem ParseMarkdownBody_status (t : Ticket) (content : Str) :
    (ParseMarkdownBody t content).status = t.status := by
  show (flushSection ((linesGo content).foldl bodyStep (t, Sect.blank, [])).1
    ((linesGo content).foldl bodyStep (t, Sect.blank, [])).2.1
    ((linesGo content).foldl bodyStep (t, Sect.blank, [])).2.2).status = t.status
  rw [flushSection_status, bodyFold_status]

/-- Plainness of the header survives a status change to a plain value. -/
theorem headerPlain_set_status (t : Ticket) (s : Str)
    (hp : headerPlain t = true) (hs : plainScalar s = true) :
    headerPlain { t with status := s } = true := by
  unfold headerPlain at hp ⊢
  simp only [Bool.and_eq_true] at hp ⊢
  obtain ⟨⟨⟨⟨⟨⟨⟨⟨⟨hid, _⟩, hty⟩, has⟩, hpa⟩, hex⟩, htg⟩, hdp⟩, hlk⟩, hcre⟩ := hp
  exact ⟨⟨⟨⟨⟨⟨⟨⟨⟨hid, hs⟩, hty⟩, has⟩, hpa⟩, hex⟩, htg⟩, hdp⟩, hlk⟩, hcre⟩

/-- Once the file is in a non-open state, every later claim attempt fails
identically and leaves the content unchanged. -/
theorem runClaims_stuck (c0 : Str) (s : Str)
    (h : AtomicClaim c0 = (.alreadyClaimed s, c0)) : ∀ m,
    runClaims m c0 = (List.replicate m (.alreadyClaimed s), c0)
  | 0 => rfl
  | m + 1 => by
    unfold runClaims
    rw [h]
    simp only []
    rw [runClaims_stuck c0 s h m]
    rfl

/-- The first claim on an open ticket succeeds and writes the re-rendered
in-progress ticket. -/
theorem AtomicClaim_open (c : Str) (t : Ticket) (hp : Parse c = some t)
    (hs : t.status = StatusOpen) :
    AtomicClaim c = (.claimed { t with status := StatusInProgress },
      Render { t with status := StatusInProgress }) := by
  unfold AtomicClaim
  rw [hp]
  simp only []
  rw [if_neg (by rw [hs]; simp)]

/-- A claim on content whose decoded status is `in_progress` is rejected
and leaves the content unchanged. -/
theorem AtomicClaim_inprogress (c : Str) (u : Ticket) (hp : Parse c = some u)
    (hs : u.status = StatusInProgress) :
    AtomicClaim c = (.alreadyClaimed StatusInProgress, c) := by
  unfold AtomicClaim
  rw [hp]
  simp only []
  rw [if_pos (by rw [hs]; decide), hs]

/-- Claim C1: with the invocations serialized by the exclusive file lock,
any `n ≥ 1` claims on one open ticket produce exactly one success — the
first — which rewrites the file with status `in_progress`; the other
`n - 1` invocations all fail with the already-claimed error carrying
`in_progress`, and the final file content still decodes with status
`in_progress`. -/
theorem claim_C1_exclusive_claim (c : Str) (t : Ticket) (n : Nat)
    (hp : Parse c = some t) (hs : t.status = StatusOpen)
    (hplain : headerPlain t = true) (hn : 1 ≤ n) :
    ∃ t', t' = { t with status := StatusInProgress } ∧
      runClaims n c = (ClaimResult.claimed t'
          :: List.replicate (n - 1) (.alreadyClaimed StatusInProgress),
        Render t') ∧
      ∃ tf, Parse (Render t') = some tf ∧ tf.status = StatusInProgress := by
  have hplain' : headerPlain { t with status := StatusInProgress } = true :=
    headerPlain_set_status t StatusInProgress hplain (by decide)
  have hround := Parse_Render { t with status := StatusInProgress } hplain'
  have hstat : (ParseMarkdownBody (fmTicket { t with status := StatusInProgress })
      (RenderMarkdownBody { t with status := StatusInProgress })).status
      = StatusInProgress := by
    rw [ParseMarkdownBody_status]
    rfl
  have h2 := AtomicClaim_inprogress
    (Render { t with status := StatusInProgress }) _ hround hstat
  cases n with
  | zero => omega
  | succ m =>
    refine ⟨{ t with status := StatusInProgress }, rfl, ?_, _, hround, hstat⟩
    unfold runClaims
    rw [AtomicClaim_open c t hp hs]
    simp only []
    rw [runClaims_stuck _ _ h2 m]
    rfl

/-- Witness for C1: three serialized claims on a concrete open ticket —
the first succeeds, the other two observe the already-claimed error, and
the final content decodes as `in_progress`. -/
theorem claim_C1_witness :
    Parse exOpenContent = some exOpenTicket ∧
    exOpenTicket.status = StatusOpen ∧
    headerPlain exOpenTicket = true ∧
    ∃ t', t' = { exOpenTicket with status := StatusInProgress } ∧
      runClaims 3 exOpenContent = (ClaimResult.claimed t'
          :: List.replicate 2 (.alreadyClaimed StatusInProgress),
        Render t') ∧
      ∃ tf, Parse (Render t') = some tf ∧ tf.status = StatusInProgress :=
  ⟨by decide, by decide, by decide,
    claim_C1_exclusive_claim exOpenContent exOpenTicket 3
      (by decide) (by decide) (by decide) (by decide)⟩
